import Mathlib

/-!
# EMCAL digits write-out buffer

A shallow embedding of `Detectors/EMCAL/simulation/src/DigitsWriteoutBuffer.cxx`
and a verification development over it.

Conventions of the embedding.

* `unsigned long` values are natural numbers below `2 ^ 64`; every subtraction
  and every `+= 100` on them is written with its explicit `% 2 ^ 64`.
  `unsigned int` values are natural numbers below `2 ^ 32`, `int` values are
  integers obtained through `toInt32`.
* `std::deque` is a list, front first.  `front()`, `back()` and `operator[]`
  outside the deque are undefined behaviour in C++; the embedding reports
  them as `Fault.undefinedBehaviour`.  `std::vector::at` outside the vector
  throws; the embedding reports `Fault.outOfRange`.
* A `std::deque` does not keep its elements in one piece of memory: it keeps
  them in separate storage blocks.  A `gsl::span` built from the address of an
  element and a count therefore reaches the elements of the deque only as far
  as they lie in the block of the first one (`Span`, `Span.read`).
* The sink `mDigitStream` is an external collaborator; the embedding records
  each `fill` call (the span and the trigger record it was given) in a log.
-/

namespace EMCAL

/-- Number of values of an `unsigned long` (LP64). -/
abbrev U64 : Nat := 18446744073709551616

/-- Number of values of an `unsigned int`. -/
abbrev U32 : Nat := 4294967296

/-- Subtraction `a - b` of two `unsigned long` values. -/
def usub64 (a b : Nat) : Nat := (a + U64 - b) % U64

/-- Conversion of an unsigned value to `int`: the low 32 bits, read in two's complement. -/
def toInt32 (x : Nat) : Int :=
  if x % U32 < 2147483648 then ((x % U32 : Nat) : Int) else ((x % U32 : Nat) : Int) - 4294967296

/-- Result of an `int` operation whose mathematical value is `i`, on a two's-complement
machine (the value wraps around; C++ leaves the overflowing case undefined). -/
def wrapInt32 (i : Int) : Int := toInt32 (i % 4294967296).toNat

/-- Conversion of an `int` to `unsigned long` (sign extension, then modulo `2 ^ 64`). -/
def toUInt64 (i : Int) : Nat := (i % 18446744073709551616).toNat

/-- Modelled from the spec: `LabeledDigit` is declared in `EMCALSimulation/LabeledDigit.h`,
which is not among the sources.  The buffer only reads and writes the time stamp of a
digit (`getTimeStamp`, `setTimeStamp`); the rest of the digit is an uninterpreted
payload.  The time stamp is taken to be integer valued. -/
structure LabeledDigit where
  timeStamp : Int
  payload : Nat
deriving DecidableEq, Repr

/-- Modelled from the spec: `o2::InteractionTimeRecord` is declared in
`CommonDataFormat/InteractionRecord.h`, which is not among the sources.  `timeNS` is the
value `getTimeNS()` yields once converted to `unsigned long`; `tag` stands for the
remaining content of the record. -/
structure InteractionTimeRecord where
  timeNS : Nat
  tag : Nat
deriving DecidableEq, Repr

/-- The channel map of a time bin, `std::unordered_map<int, std::list<LabeledDigit>>`,
as an association list from tower id to the digit list of the tower. -/
abbrev DigitMap := List (Nat × List LabeledDigit)

/-- Modelled from the spec: `DigitTimebin` is declared in
`EMCALSimulation/DigitsWriteoutBuffer.h`, which is not among the sources.  The fields
are the ones the source file accesses; a default-constructed bin has time stamp 0, all
flags off, no record and an empty channel map.  `mDigitMap` is a pointer in the source
(`mDigitMap->clear()`), so a copy of a bin shares the map with the original. -/
structure DigitTimebin where
  mTimestamp : Nat := 0
  mRecordMode : Bool := false
  mEndWindow : Bool := false
  mTriggerColl : Bool := false
  mInterRecord : Option InteractionTimeRecord := none
  mDigitMap : DigitMap := []
deriving DecidableEq, Repr

/-- A `gsl::span<DigitTimebin>` as line 175 builds it: the address of a bin of a deque
and a number of entries.  The embedding keeps for it the bins of the deque from the
addressed bin on, `bins`; the number of entries of the span is their number.  Which of
these bins a reader of the span finds depends on how the deque is stored: see
`Span.read`. -/
structure Span where
  bins : List DigitTimebin
deriving DecidableEq, Repr

/-- The number of entries of a span. -/
def Span.size (view : Span) : Nat := view.bins.length

/-- What a reader of the span finds, entry by entry, when `block` bins of the deque,
counted from the bin the span points at, lie in the storage block of that bin (at
least 1, the bin itself).  The reader finds these bins; behind them the span leaves the
block, and the entry is not a bin of the deque (`none`; the read is undefined behaviour
in C++). -/
def Span.read (block : Nat) (view : Span) : List (Option DigitTimebin) :=
  (view.bins.take block).map some ++ List.replicate (view.bins.length - block) none

/-- One call `mDigitStream.fill(view, record)` received by the sink. -/
abbrev FillCall := Span × Option InteractionTimeRecord

/-- The values read from `SimParam` by `init()`. -/
structure SimParam where
  liveTime : Nat
  busyTime : Nat
  preTriggerTime : Nat
deriving DecidableEq, Repr

/-- Modelled from the spec: the data members of `DigitsWriteoutBuffer` are declared in
`EMCALSimulation/DigitsWriteoutBuffer.h`, which is not among the sources.
`mBufferSize` is an `unsigned int` (the type of the constructor argument); the times
are `unsigned long` (the type `forwardMarker` computes in).  `mDigitStream` is the log
of the `fill` calls the sink has received, oldest first. -/
structure DigitsWriteoutBuffer where
  mBufferSize : Nat
  mLiveTime : Nat
  mBusyTime : Nat
  mPreTriggerTime : Nat
  mTriggerTime : Nat
  mLastEventTime : Nat
  mPhase : Nat
  mTimedDigitsFuture : List DigitTimebin
  mTimedDigitsPast : List DigitTimebin
  mDigitStream : List FillCall
deriving DecidableEq, Repr

/-- What a call can end in instead of returning. -/
inductive Fault where
  | outOfRange
  | undefinedBehaviour
deriving DecidableEq, Repr

/-- Outcome of a call: a fault, or the state it leaves. -/
inductive Outcome (α : Type) where
  | fault : Fault → Outcome α
  | done : α → Outcome α
deriving DecidableEq, Repr

/-- Sequencing of calls: a fault ends the sequence. -/
def Outcome.andThen {α β : Type} (o : Outcome α) (f : α → Outcome β) : Outcome β :=
  match o with
  | Outcome.fault e => Outcome.fault e
  | Outcome.done a => f a

/-- Constructor `DigitsWriteoutBuffer(nTimeBins)` followed by `init()`: `nTimeBins`
default bins in the future queue, an empty past queue, the three times of `SimParam`.
The trigger time and the last event time start at 0. -/
def DigitsWriteoutBuffer.create (nTimeBins : Nat) (simParam : SimParam) : DigitsWriteoutBuffer :=
  { mBufferSize := nTimeBins
    mLiveTime := simParam.liveTime
    mBusyTime := simParam.busyTime
    mPreTriggerTime := simParam.preTriggerTime
    mTriggerTime := 0
    mLastEventTime := 0
    mPhase := 0
    mTimedDigitsFuture := List.replicate nTimeBins {}
    mTimedDigitsPast := []
    mDigitStream := [] }

/-- Method `clear()`.  The loop variable `iNode` is a copy of the bin (`auto iNode`, not
`auto& iNode`), so the three assignments to `mTimestamp`, `mRecordMode` and `mEndWindow`
are lost; `iNode.mDigitMap->clear()` goes through the shared pointer and empties the
map of the bin in the queue.  The past queue is emptied. -/
def DigitsWriteoutBuffer.clear (s : DigitsWriteoutBuffer) : DigitsWriteoutBuffer :=
  { s with
    mTimedDigitsFuture := s.mTimedDigitsFuture.map (fun iNode => { iNode with mDigitMap := [] })
    mTimedDigitsPast := [] }

/-- Method `reserve()`.  `mBufferSize - 1` and `mBufferSize - originalSize` are
`unsigned int` expressions; the loop counter is an `int`, which cannot count up to a
bound of `2 ^ 31` or more. -/
def DigitsWriteoutBuffer.reserve (s : DigitsWriteoutBuffer) : Outcome DigitsWriteoutBuffer :=
  if s.mTimedDigitsFuture.length < (s.mBufferSize + U32 - 1) % U32 then
    let originalSize := s.mTimedDigitsFuture.length
    let bound := (s.mBufferSize + U32 - originalSize % U32) % U32
    if bound < 2147483648 then
      Outcome.done { s with mTimedDigitsFuture := s.mTimedDigitsFuture ++ List.replicate bound {} }
    else Outcome.fault Fault.undefinedBehaviour
  else Outcome.done s

/-- Lines 74 to 79 of `addDigits` on one channel map: find the entry of `towerID`, insert
an empty list when there is none, and append `dig` to the list. -/
def pushDigit (towerID : Nat) (dig : LabeledDigit) : DigitMap → DigitMap
  | [] => [(towerID, [dig])]
  | (k, l) :: rest =>
    if k = towerID then (k, l ++ [dig]) :: rest else (k, l) :: pushDigit towerID dig rest

/-- The digit list of `towerID` in a channel map, if the map has an entry for it. -/
def findTower (towerID : Nat) : DigitMap → Option (List LabeledDigit)
  | [] => none
  | (k, l) :: rest => if k = towerID then some l else findTower towerID rest

/-- The loop of `addDigits`, with `todo` iterations left, on the bins and the digits
from index `ientry` on.  `mTimedDigitsFuture[ientry]` is evaluated before
`digList.at(ientry)`. -/
def addDigitsLoop (towerID offset : Nat) :
    Nat → List DigitTimebin → List LabeledDigit → Outcome (List DigitTimebin)
  | 0, future, _ => Outcome.done future
  | _ + 1, [], _ => Outcome.fault Fault.undefinedBehaviour
  | _ + 1, _ :: _, [] => Outcome.fault Fault.outOfRange
  | todo + 1, buffEntry :: future, dig :: digList =>
    (addDigitsLoop towerID offset todo future digList).andThen fun rest =>
      Outcome.done
        ({ buffEntry with
            mDigitMap := pushDigit towerID { dig with timeStamp := dig.timeStamp + offset }
              buffEntry.mDigitMap } :: rest)

/-- The amount `((mLastEventTime - mTriggerTime) / 100) * 100` added to the time stamp
of every deposited digit. -/
def DigitsWriteoutBuffer.depositOffset (s : DigitsWriteoutBuffer) : Nat :=
  (usub64 s.mLastEventTime s.mTriggerTime / 100 * 100) % U64

/-- Method `addDigits(towerID, digList)`. -/
def DigitsWriteoutBuffer.addDigits (s : DigitsWriteoutBuffer) (towerID : Nat)
    (digList : List LabeledDigit) : Outcome DigitsWriteoutBuffer :=
  (addDigitsLoop towerID s.depositOffset s.mBufferSize s.mTimedDigitsFuture digList).andThen
    fun future => Outcome.done { s with mTimedDigitsFuture := future }

/-- Method `getLastSamples()`, line 175:
`gsl::span(&mTimedDigitsPast[0], mTimedDigitsPast.size())`, a span that points at the
front bin of the past queue and has as many entries as the queue has bins.
`operator[]` on an empty deque is undefined behaviour. -/
def DigitsWriteoutBuffer.getLastSamples (s : DigitsWriteoutBuffer) : Outcome Span :=
  match s.mTimedDigitsPast with
  | [] => Outcome.fault Fault.undefinedBehaviour
  | front :: rest => Outcome.done ⟨front :: rest⟩

/-- The value `int sampleDifference` computed at the start of `forwardMarker`. -/
def DigitsWriteoutBuffer.sampleDifference (s : DigitsWriteoutBuffer) (eventTime : Nat) : Int :=
  toInt32 ((usub64 eventTime s.mTriggerTime / 100 + U64
    - usub64 s.mLastEventTime s.mTriggerTime / 100) % U64)

/-- Lines 113 to 116: when the newest past bin closes a window, hand the span over the
past queue and the record of its oldest bin to the sink and clear the buffer.  The flag
tells whether that happened. -/
def DigitsWriteoutBuffer.flushOnEndWindow (s : DigitsWriteoutBuffer) :
    Outcome (DigitsWriteoutBuffer × Bool) :=
  match s.mTimedDigitsPast.getLast?, s.mTimedDigitsPast.head? with
  | some newest, some oldest =>
    if newest.mEndWindow then
      s.getLastSamples.andThen fun view =>
        Outcome.done
          (({ s with mDigitStream := s.mDigitStream ++ [(view, oldest.mInterRecord)] }
              : DigitsWriteoutBuffer).clear, true)
    else Outcome.done (s, false)
  | _, _ => Outcome.fault Fault.undefinedBehaviour

/-- Lines 108 to 110: the past queue drops its oldest bin when it holds more than
`mBufferSize` bins. -/
def dropOldest (bufferSize : Nat) (past : List DigitTimebin) : List DigitTimebin :=
  if past.length > bufferSize then past.tail else past

/-- Lines 104 to 116: one bin goes from the front of the future queue to the back of
the past queue, a default bin is pushed at the back of the future queue, the past
queue drops its oldest bin when it holds more than `mBufferSize`, and a window-end bin
is flushed. -/
def DigitsWriteoutBuffer.moveFront (s : DigitsWriteoutBuffer) : Outcome DigitsWriteoutBuffer :=
  match s.mTimedDigitsFuture with
  | [] => Outcome.fault Fault.undefinedBehaviour
  | front :: rest =>
    let s1 : DigitsWriteoutBuffer :=
      { s with
        mTimedDigitsPast := dropOldest s.mBufferSize (s.mTimedDigitsPast ++ [front])
        mTimedDigitsFuture := rest ++ [{}] }
    s1.flushOnEndWindow.andThen fun r => Outcome.done r.1

/-- The loop of lines 95 to 117 with `todo` iterations left.  It stops early at a front
bin that is not in record mode; it does not stop after a flush. -/
def forwardLoop : Nat → DigitsWriteoutBuffer → Outcome DigitsWriteoutBuffer
  | 0, s => Outcome.done s
  | todo + 1, s =>
    match s.mTimedDigitsFuture.head? with
    | none => Outcome.fault Fault.undefinedBehaviour
    | some front =>
      if front.mRecordMode then s.moveFront.andThen (forwardLoop todo) else Outcome.done s

/-- The first time stamp of a stamping pass, `int(eventTime / 100) * 100` converted to
`unsigned long`. -/
def stampBase (eventTime : Nat) : Nat :=
  toUInt64 (wrapInt32 (toInt32 (eventTime / 100) * 100))

/-- The stamping pass of lines 128 to 132 and 138 to 142: every bin is put in record
mode and gets the running time stamp, which grows by 100 from bin to bin. -/
def stampAll : Nat → List DigitTimebin → List DigitTimebin
  | _, [] => []
  | timeStamp, iNode :: rest =>
    { iNode with mRecordMode := true, mTimestamp := timeStamp }
      :: stampAll ((timeStamp + 100) % U64) rest

/-- Apply `f` to the first element of a list (`front()` of a non-empty deque). -/
def onFront {α : Type} (f : α → α) : List α → List α
  | [] => []
  | a :: l => f a :: l

/-- Apply `f` to the last element of a list (`back()` of a non-empty deque). -/
def onBack {α : Type} (f : α → α) : List α → List α
  | [] => []
  | [a] => [f a]
  | a :: b :: l => a :: onBack f (b :: l)

/-- The condition of line 121, `(eventTime - mTriggerTime) >= (mLiveTime + mBusyTime)`. -/
def DigitsWriteoutBuffer.triggerFires (s : DigitsWriteoutBuffer) (eventTime : Nat) : Bool :=
  decide ((s.mLiveTime + s.mBusyTime) % U64 ≤ usub64 eventTime s.mTriggerTime)

/-- The condition of line 136,
`(eventTime - mTriggerTime) >= (mLiveTime + mBusyTime - mPreTriggerTime)`. -/
def DigitsWriteoutBuffer.preTriggerFires (s : DigitsWriteoutBuffer) (eventTime : Nat) : Bool :=
  decide (usub64 ((s.mLiveTime + s.mBusyTime) % U64) s.mPreTriggerTime
    ≤ usub64 eventTime s.mTriggerTime)

/-- Lines 121 to 133: the trigger branch. -/
def DigitsWriteoutBuffer.triggerStep (s : DigitsWriteoutBuffer) (record : InteractionTimeRecord) :
    Outcome DigitsWriteoutBuffer :=
  if s.triggerFires record.timeNS then
    match s.mTimedDigitsFuture with
    | [] => Outcome.fault Fault.undefinedBehaviour
    | _ :: _ =>
      let marked :=
        onBack (fun b => { b with mEndWindow := true })
          (onFront (fun b => { b with mTriggerColl := true, mInterRecord := some record })
            s.mTimedDigitsFuture)
      Outcome.done
        { s with
          mTriggerTime := record.timeNS
          mTimedDigitsFuture := stampAll (stampBase record.timeNS) marked }
  else Outcome.done s

/-- Lines 136 to 143: the pre-trigger branch.  It reads `mTriggerTime` as the trigger
branch left it. -/
def DigitsWriteoutBuffer.preTriggerStep (s : DigitsWriteoutBuffer) (eventTime : Nat) :
    DigitsWriteoutBuffer :=
  if s.preTriggerFires eventTime then
    { s with mTimedDigitsFuture := stampAll (stampBase eventTime) s.mTimedDigitsFuture }
  else s

/-- Method `forwardMarker(record)`.  The phase is `(int)(fmod(mLastEventTime, 100) / 25)`,
a floating-point expression whose value on an integer below `2 ^ 53` is
`mLastEventTime % 100 / 25`. -/
def DigitsWriteoutBuffer.forwardMarker (s : DigitsWriteoutBuffer) (record : InteractionTimeRecord) :
    Outcome DigitsWriteoutBuffer :=
  let eventTime := record.timeNS
  (forwardLoop (s.sampleDifference eventTime).toNat s).andThen fun s1 =>
    (s1.triggerStep record).andThen fun s2 =>
      let s3 := s2.preTriggerStep eventTime
      Outcome.done { s3 with mLastEventTime := eventTime, mPhase := eventTime % 100 / 25 }

/-- The loop of `finish()` with `todo` iterations left: bins leave the future queue for
the past queue while the front bin is in record mode and has a channel entry; no bin is
pushed to the future queue; the loop ends at the first flush. -/
def finishLoop : Nat → DigitsWriteoutBuffer → Outcome DigitsWriteoutBuffer
  | 0, s => Outcome.done s
  | todo + 1, s =>
    match s.mTimedDigitsFuture with
    | [] => Outcome.fault Fault.undefinedBehaviour
    | front :: rest =>
      if !front.mRecordMode || front.mDigitMap.isEmpty then Outcome.done s
      else
        let s1 : DigitsWriteoutBuffer :=
          { s with
            mTimedDigitsPast := dropOldest s.mBufferSize (s.mTimedDigitsPast ++ [front])
            mTimedDigitsFuture := rest }
        s1.flushOnEndWindow.andThen fun r =>
          if r.2 then Outcome.done r.1 else finishLoop todo r.1

/-- Method `finish()`. -/
def DigitsWriteoutBuffer.finish (s : DigitsWriteoutBuffer) : Outcome DigitsWriteoutBuffer :=
  finishLoop s.mBufferSize s

/-- A call of one of the methods of the buffer. -/
inductive Call where
  | addDigits (towerID : Nat) (digList : List LabeledDigit)
  | forwardMarker (record : InteractionTimeRecord)
  | finish
  | reserve
  | clear
deriving DecidableEq, Repr

/-- The effect of one call. -/
def DigitsWriteoutBuffer.call (s : DigitsWriteoutBuffer) : Call → Outcome DigitsWriteoutBuffer
  | Call.addDigits towerID digList => s.addDigits towerID digList
  | Call.forwardMarker record => s.forwardMarker record
  | Call.finish => s.finish
  | Call.reserve => s.reserve
  | Call.clear => Outcome.done s.clear

/-- The effect of a sequence of calls, made one after the other. -/
def DigitsWriteoutBuffer.run (s : DigitsWriteoutBuffer) : List Call → Outcome DigitsWriteoutBuffer
  | [] => Outcome.done s
  | c :: cs => (s.call c).andThen fun s1 => s1.run cs

/-- The calls of the queue-size invariant: `addDigits` with a list of at least `n`
digits, `forwardMarker` and `reserve`. -/
def Call.keepsQueue (n : Nat) : Call → Bool
  | Call.addDigits _ digList => decide (n ≤ digList.length)
  | Call.forwardMarker _ => true
  | Call.reserve => true
  | Call.finish => false
  | Call.clear => false

/-- Whether a call ended in a fault instead of returning. -/
def Outcome.isFault {α : Type} : Outcome α → Bool
  | Outcome.fault _ => true
  | Outcome.done _ => false

/-- The digit as `addDigits` stores it: the time stamp moved by `offset`. -/
def LabeledDigit.shifted (dig : LabeledDigit) (offset : Nat) : LabeledDigit :=
  { dig with timeStamp := dig.timeStamp + offset }

/-- The two marks of a bin: trigger bin, window-end bin. -/
def DigitTimebin.marks (b : DigitTimebin) : Bool × Bool := (b.mTriggerColl, b.mEndWindow)

/-- What a stamping pass writes to a bin: time stamp and record mode. -/
def DigitTimebin.stamp (b : DigitTimebin) : Nat × Bool := (b.mTimestamp, b.mRecordMode)

/-- The bins that `forwardLoop todo s` moves from the future queue to the past queue
(line 104), in the order of the moves. -/
def movedInLoop : Nat → DigitsWriteoutBuffer → List DigitTimebin
  | 0, _ => []
  | todo + 1, s =>
    match s.mTimedDigitsFuture.head? with
    | none => []
    | some front =>
      if front.mRecordMode then
        match s.moveFront with
        | Outcome.done s1 => front :: movedInLoop todo s1
        | Outcome.fault _ => [front]
      else []

/-- The bins moved from the future queue to the past queue by successive `forwardMarker`
calls with the given records. -/
def DigitsWriteoutBuffer.movedBy (s : DigitsWriteoutBuffer) :
    List InteractionTimeRecord → List DigitTimebin
  | [] => []
  | record :: records =>
    movedInLoop (s.sampleDifference record.timeNS).toNat s ++
      match s.forwardMarker record with
      | Outcome.done s1 => s1.movedBy records
      | Outcome.fault _ => []

/-- The records, among those of successive `forwardMarker` calls, for which the trigger
condition of line 121 holds.  The bin-moving loop changes none of the three times the
condition reads (`triggerFires_after_loop`), so the condition is evaluated on the state
at the start of the call. -/
def DigitsWriteoutBuffer.triggersOf (s : DigitsWriteoutBuffer) :
    List InteractionTimeRecord → List InteractionTimeRecord
  | [] => []
  | record :: records =>
    (if s.triggerFires record.timeNS then [record] else []) ++
      match s.forwardMarker record with
      | Outcome.done s1 => s1.triggersOf records
      | Outcome.fault _ => []

/-- No bin of the list is a window-end bin. -/
def NoEndWindow (l : List DigitTimebin) : Prop := ∀ b ∈ l, b.mEndWindow = false

/-- The first bin of the list is a trigger bin that holds the record `r`. -/
def TrigHead (r : InteractionTimeRecord) (l : List DigitTimebin) : Prop :=
  ∃ t rest, l = t :: rest ∧ t.mTriggerColl = true ∧ t.mInterRecord = some r

/-- The last bin of the list is a window-end bin. -/
def EndLast (l : List DigitTimebin) : Prop :=
  ∃ front last, l = front ++ [last] ∧ last.mEndWindow = true

/-- A buffer of size `n` with a full future queue that holds no window-end bin. -/
def Quiet (n : Nat) (s : DigitsWriteoutBuffer) : Prop :=
  s.mBufferSize = n ∧ s.mTimedDigitsFuture.length = n ∧ s.mTimedDigitsPast.length ≤ n ∧
    NoEndWindow s.mTimedDigitsFuture

/-- The queues of a buffer of size `n` while the window of the trigger record `r` is
open: the window is `M ++ W ++ [e]`, of which `M` has been moved to the past queue. -/
def OpenQueues (n : Nat) (r : InteractionTimeRecord) (future past : List DigitTimebin) : Prop :=
  ∃ P M W e F, past = P ++ M ∧ future = W ++ e :: F ∧ M.length + W.length + 1 = n ∧
    F.length = M.length ∧ (P ++ M).length ≤ n ∧ e.mEndWindow = true ∧ NoEndWindow W ∧
    NoEndWindow F ∧ TrigHead r (M ++ W ++ [e])

/-- State of a buffer before its first trigger: nothing flushed, no window-end bin. -/
def Idle (n : Nat) (s : DigitsWriteoutBuffer) : Prop := Quiet n s ∧ s.mDigitStream = []

/-- State of a buffer while the window of the trigger record `r` is open. -/
def WindowOpen (n : Nat) (r : InteractionTimeRecord) (s : DigitsWriteoutBuffer) : Prop :=
  s.mBufferSize = n ∧ s.mDigitStream = [] ∧
    OpenQueues n r s.mTimedDigitsFuture s.mTimedDigitsPast

/-- State of a buffer after the window of the trigger record `r` has been flushed: the
sink has received one span, built over a past queue of `n` bins that ran from the
trigger bin to the window-end bin. -/
def WindowClosed (n : Nat) (r : InteractionTimeRecord) (s : DigitsWriteoutBuffer) : Prop :=
  Quiet n s ∧ ∃ view, s.mDigitStream = [(⟨view⟩, some r)] ∧ view.length = n ∧
    TrigHead r view ∧ EndLast view

/-- Successive `forwardMarker` calls at the given event times, every record with tag 0. -/
def markerCalls (times : List Nat) : List Call :=
  times.map fun t => Call.forwardMarker ⟨t, 0⟩

/-- Example: a buffer of two bins with a live time of 1000, last trigger at 1000, last
event at 1250. -/
def exampleBuffer : DigitsWriteoutBuffer :=
  { DigitsWriteoutBuffer.create 2 ⟨1000, 0, 0⟩ with mTriggerTime := 1000, mLastEventTime := 1250 }

/-- Example: a trigger at 1000, a deposit for tower 42, a `forwardMarker` at 1100 and
the end of the run. -/
def exampleCalls : List Call :=
  [Call.forwardMarker ⟨1000, 7⟩, Call.addDigits 42 [⟨5, 1⟩, ⟨6, 2⟩],
    Call.forwardMarker ⟨1100, 8⟩, Call.finish]

/-- Example: the buffer of two bins (live time 1000) after the first three calls of
`exampleCalls`. -/
def exampleAfterThree : DigitsWriteoutBuffer :=
  { mBufferSize := 2
    mLiveTime := 1000
    mBusyTime := 0
    mPreTriggerTime := 0
    mTriggerTime := 1000
    mLastEventTime := 1100
    mPhase := 0
    mTimedDigitsFuture := [⟨1100, true, true, false, none, [(42, [⟨6, 2⟩])]⟩, {}]
    mTimedDigitsPast := [⟨1000, true, false, true, some ⟨1000, 7⟩, [(42, [⟨5, 1⟩])]⟩]
    mDigitStream := [] }

/-- The state a call returned with, if it returned. -/
def Outcome.toOption {α : Type} : Outcome α → Option α
  | Outcome.fault _ => none
  | Outcome.done a => some a

/-- The records of successive `forwardMarker` calls at the given event times, every
record with tag 0. -/
def recordsAt (times : List Nat) : List InteractionTimeRecord :=
  times.map fun t => ⟨t, 0⟩

/-- The bin with its channel map emptied, as `clear()` leaves a future bin. -/
def DigitTimebin.withoutDigits (b : DigitTimebin) : DigitTimebin :=
  { b with mDigitMap := [] }

/-- The marks of a future queue of `n` bins right after a trigger on unmarked bins: the
front bin is the trigger bin, the back bin the window-end bin. -/
def windowMarks (n : Nat) : List (Bool × Bool) :=
  onBack (fun m => (m.1, true)) (onFront (fun m => (true, m.2)) (List.replicate n (false, false)))

/-- State of a buffer of size `n` whose windows do not overlap
(`mLiveTime + mBusyTime ≥ 100 * n`): `m` bins of the last window have been moved, the
marks of the future queue are those of the window shifted by `m`, and while the window
is in the future queue, `m` is the number of samples since the trigger and the bins of
the window are in record mode.  Before the first trigger `m = n`. -/
def WindowPhase (n : Nat) (s : DigitsWriteoutBuffer) : Prop :=
  s.mBufferSize = n ∧ s.mTimedDigitsFuture.length = n ∧
    s.mTriggerTime ≤ s.mLastEventTime ∧
    100 * n ≤ s.mLiveTime + s.mBusyTime ∧ s.mLiveTime + s.mBusyTime < U64 ∧
    ∃ m, m ≤ n ∧
      s.mTimedDigitsFuture.map DigitTimebin.marks
        = (windowMarks n).drop m ++ List.replicate m (false, false) ∧
      (m < n → m = (s.mLastEventTime - s.mTriggerTime) / 100 ∧
        ∀ b ∈ s.mTimedDigitsFuture.take (n - m), b.mRecordMode = true)

/-- The time stamps of the bins do not decrease from the oldest bin to the newest. -/
def TimeOrdered (view : List DigitTimebin) : Prop :=
  List.Chain' (fun a b : DigitTimebin => a.mTimestamp ≤ b.mTimestamp) view

/-- The stamps of a future queue: a bin in record mode follows a bin in record mode
whose time stamp is 100 less. -/
def StampChain (stamps : List (Nat × Bool)) : Prop :=
  List.Chain' (fun a b : Nat × Bool => b.2 = true → a.2 = true ∧ b.1 = a.1 + 100) stamps

/-- The order of the time stamps in a buffer: the past queues over which the sink has
received spans, and the past queue, are time-ordered, the stamps of the future queue form a chain, and when the
front future bin is in record mode no past bin has a later time stamp. -/
def OrderCore (s : DigitsWriteoutBuffer) : Prop :=
  (∀ call ∈ s.mDigitStream, TimeOrdered call.1.bins) ∧ TimeOrdered s.mTimedDigitsPast ∧
    StampChain (s.mTimedDigitsFuture.map DigitTimebin.stamp) ∧
    ∀ f rest, s.mTimedDigitsFuture.map DigitTimebin.stamp = f :: rest → f.2 = true →
      ∀ p ∈ s.mTimedDigitsPast, p.mTimestamp ≤ f.1

/-- The order of the time stamps during the bin-moving loop with `todo` iterations
left: no past bin is stamped later than `past`, and the front future bin, when in
record mode, is stamped early enough for `todo` more bins to stay below `front`. -/
def LoopOrdered (past front todo : Nat) (s : DigitsWriteoutBuffer) : Prop :=
  OrderCore s ∧ (∀ p ∈ s.mTimedDigitsPast, p.mTimestamp ≤ past) ∧
    ∀ f rest, s.mTimedDigitsFuture.map DigitTimebin.stamp = f :: rest → f.2 = true →
      f.1 + 100 * todo ≤ front

/-- The order of the time stamps between calls, on a buffer of size `n`. -/
def Ordered (n : Nat) (s : DigitsWriteoutBuffer) : Prop :=
  s.mBufferSize = n ∧ s.mTimedDigitsFuture.length = n ∧
    s.mTriggerTime ≤ s.mLastEventTime ∧ s.mLastEventTime < 2147483648 ∧
    LoopOrdered (100 * (s.mLastEventTime / 100))
      (100 * ((s.mLastEventTime - s.mTriggerTime) / 100 + s.mTriggerTime / 100 + 1)) 0 s

/-- The calls of the body of a run: `addDigits` and `forwardMarker`. -/
def Call.isDepositOrMarker : Call → Bool
  | Call.addDigits _ _ => true
  | Call.forwardMarker _ => true
  | _ => false

/-- The event times of the `forwardMarker` calls of a sequence of calls, in order. -/
def eventTimes : List Call → List Nat
  | [] => []
  | Call.forwardMarker record :: calls => record.timeNS :: eventTimes calls
  | _ :: calls => eventTimes calls

/-- Example: the buffer of `exampleAfterThree` after `finish()`, which moved the
window-end bin and flushed the two bins of the window. -/
def exampleFinished : DigitsWriteoutBuffer :=
  { mBufferSize := 2
    mLiveTime := 1000
    mBusyTime := 0
    mPreTriggerTime := 0
    mTriggerTime := 1000
    mLastEventTime := 1100
    mPhase := 0
    mTimedDigitsFuture := [{}]
    mTimedDigitsPast := []
    mDigitStream :=
      [(⟨[⟨1000, true, false, true, some ⟨1000, 7⟩, [(42, [⟨5, 1⟩])]⟩,
          ⟨1100, true, true, false, none, [(42, [⟨6, 2⟩])]⟩]⟩, some ⟨1000, 7⟩)] }

/-! ## Lemmas -/

/-- A reader finds as many entries as the span has. -/
theorem Span.read_length (block : Nat) (view : Span) :
    (view.read block).length = view.size := by
  unfold Span.read Span.size
  simp only [List.length_append, List.length_map, List.length_take, List.length_replicate]
  omega

/-- When the whole deque lies in the block of the first bin, a reader finds every bin. -/
theorem Span.read_all (block : Nat) (view : Span) (h : view.size ≤ block) :
    view.read block = view.bins.map some := by
  unfold Span.read
  unfold Span.size at h
  rw [List.take_of_length_le h, Nat.sub_eq_zero_of_le h]
  simp

/-- The first entry a reader finds is the bin the span points at. -/
theorem Span.read_head? (block : Nat) (view : Span) (h : 1 ≤ block) :
    (view.read block).head? = view.bins.head?.map some := by
  unfold Span.read
  obtain ⟨k, rfl⟩ : ∃ k, block = k + 1 := ⟨block - 1, by omega⟩
  cases view.bins with
  | nil => simp
  | cons b tl => simp

/-- When the deque has more bins than lie in the block of the first one, the last entry
a reader finds is not a bin of the deque. -/
theorem Span.read_getLast? (block : Nat) (view : Span) (h : block < view.size) :
    (view.read block).getLast? = some none := by
  unfold Span.read
  unfold Span.size at h
  obtain ⟨m, hm⟩ : ∃ m, view.bins.length - block = m + 1 :=
    ⟨view.bins.length - block - 1, by omega⟩
  rw [hm, List.replicate_succ', ← List.append_assoc, List.getLast?_append]
  simp

/-- The number of bins of the deque a reader finds. -/
theorem Span.read_countP (block : Nat) (view : Span) (h : block ≤ view.size) :
    (view.read block).countP (fun entry => entry.isSome) = block := by
  unfold Span.read
  unfold Span.size at h
  rw [List.countP_append, List.countP_map]
  have h1 : List.countP ((fun entry : Option DigitTimebin => entry.isSome) ∘ some)
      (view.bins.take block) = (view.bins.take block).length := by
    rw [List.countP_eq_length]
    intro a _
    rfl
  have h2 : List.countP (fun entry : Option DigitTimebin => entry.isSome)
      (List.replicate (view.bins.length - block) none) = 0 := by
    rw [List.countP_eq_zero]
    intro a ha
    rw [(List.mem_replicate.mp ha).2]
    simp
  rw [h1, h2, List.length_take]
  omega

/-- The bins a reader finds are in the order of the deque. -/
theorem Span.read_chain (R : DigitTimebin → DigitTimebin → Prop) (block : Nat) (view : Span)
    (h : List.Chain' R view.bins) :
    List.Chain' (fun a b : Option DigitTimebin => ∀ x y, a = some x → b = some y → R x y)
      (view.read block) := by
  unfold Span.read
  apply List.Chain'.append
  · rw [List.chain'_map]
    refine List.Chain'.imp ?_ (List.Chain'.take h block)
    intro a b hab x y hx hy
    simp only [Option.some.injEq] at hx hy
    rw [← hx, ← hy]
    exact hab
  · apply List.chain'_replicate_of_rel
    intro x y hx _
    exact absurd hx (by simp)
  · intro a _ b hb x y _ hy
    have hmem : b ∈ List.replicate (view.bins.length - block) (none : Option DigitTimebin) :=
      List.mem_of_mem_head? hb
    rw [(List.mem_replicate.mp hmem).2] at hy
    exact absurd hy (by simp)

@[simp] theorem Outcome.andThen_done {α β : Type} (a : α) (f : α → Outcome β) :
    (Outcome.done a).andThen f = f a := rfl

@[simp] theorem Outcome.andThen_fault {α β : Type} (e : Fault) (f : α → Outcome β) :
    (Outcome.fault e : Outcome α).andThen f = Outcome.fault e := rfl

theorem Outcome.andThen_eq_done {α β : Type} {o : Outcome α} {f : α → Outcome β} {b : β} :
    o.andThen f = Outcome.done b ↔ ∃ a, o = Outcome.done a ∧ f a = Outcome.done b := by
  cases o with
  | fault e => simp
  | done a => simp

theorem dropOldest_getLast? (past : List DigitTimebin) (front : DigitTimebin) (n : Nat)
    (hn : 1 ≤ n) : (dropOldest n (past ++ [front])).getLast? = some front := by
  unfold dropOldest
  cases past with
  | nil =>
    have : ¬ ([] ++ [front]).length > n := by simp; omega
    rw [if_neg this]; simp
  | cons a p =>
    split
    · simp
    · simpa using List.getLast?_concat (a :: p)

theorem dropOldest_length (past : List DigitTimebin) (n : Nat) (h : past.length ≤ n + 1) :
    (dropOldest n past).length ≤ n := by
  unfold dropOldest
  split
  · simp; omega
  · omega

theorem dropOldest_subset (past : List DigitTimebin) (n : Nat) :
    ∀ b ∈ dropOldest n past, b ∈ past := by
  intro b hb
  unfold dropOldest at hb
  split at hb
  · exact List.mem_of_mem_tail hb
  · exact hb

theorem dropOldest_ne_nil (past : List DigitTimebin) (front : DigitTimebin) (n : Nat)
    (hn : 1 ≤ n) : dropOldest n (past ++ [front]) ≠ [] := by
  intro h
  have := dropOldest_getLast? past front n hn
  rw [h] at this
  simp at this

/-- One bin move, spelled out: the front bin is appended to the past queue, which may
lose its oldest bin; when the moved bin closes a window the sink is called and the
buffer cleared. -/
theorem moveFront_eq (s : DigitsWriteoutBuffer) (front : DigitTimebin) (rest : List DigitTimebin)
    (hf : s.mTimedDigitsFuture = front :: rest) (hn : 1 ≤ s.mBufferSize) :
    ∃ oldest tl, dropOldest s.mBufferSize (s.mTimedDigitsPast ++ [front]) = oldest :: tl ∧
      s.moveFront = Outcome.done
        (if front.mEndWindow then
          { s with
            mTimedDigitsFuture :=
              (rest ++ [({} : DigitTimebin)]).map (fun iNode => { iNode with mDigitMap := [] })
            mTimedDigitsPast := []
            mDigitStream := s.mDigitStream ++ [(⟨oldest :: tl⟩, oldest.mInterRecord)] }
        else
          { s with
            mTimedDigitsFuture := rest ++ [({} : DigitTimebin)]
            mTimedDigitsPast := oldest :: tl }) := by
  have hlast := dropOldest_getLast? s.mTimedDigitsPast front s.mBufferSize hn
  have hne := dropOldest_ne_nil s.mTimedDigitsPast front s.mBufferSize hn
  obtain ⟨oldest, tl, hcons⟩ := List.exists_cons_of_ne_nil hne
  refine ⟨oldest, tl, hcons, ?_⟩
  unfold DigitsWriteoutBuffer.moveFront
  rw [hf]
  simp only [DigitsWriteoutBuffer.flushOnEndWindow, hlast]
  rw [hcons]
  simp only [List.head?_cons]
  by_cases hE : front.mEndWindow = true
  · simp [hE, DigitsWriteoutBuffer.clear, DigitsWriteoutBuffer.getLastSamples]
  · simp [hE]

/-- The span over a past queue that holds a bin. -/
theorem getLastSamples_cons (s : DigitsWriteoutBuffer) (oldest : DigitTimebin)
    (tl : List DigitTimebin) (hp : s.mTimedDigitsPast = oldest :: tl) :
    s.getLastSamples = Outcome.done ⟨oldest :: tl⟩ := by
  unfold DigitsWriteoutBuffer.getLastSamples
  rw [hp]

theorem flushOnEndWindow_done (s : DigitsWriteoutBuffer) (r : DigitsWriteoutBuffer × Bool)
    (h : s.flushOnEndWindow = Outcome.done r) :
    (r = (s, false)) ∨
    (∃ oldest tl, s.mTimedDigitsPast = oldest :: tl ∧
      r = ({ s with
              mTimedDigitsFuture :=
                s.mTimedDigitsFuture.map (fun iNode => { iNode with mDigitMap := [] })
              mTimedDigitsPast := []
              mDigitStream := s.mDigitStream ++ [(⟨oldest :: tl⟩, oldest.mInterRecord)] }, true)) := by
  unfold DigitsWriteoutBuffer.flushOnEndWindow at h
  cases hp : s.mTimedDigitsPast with
  | nil => rw [hp] at h; simp at h
  | cons oldest tl =>
    rw [hp] at h
    cases hl : (oldest :: tl).getLast? with
    | none => simp at hl
    | some newest =>
      rw [hl] at h
      simp only [List.head?_cons] at h
      by_cases hE : newest.mEndWindow = true
      · right
        refine ⟨oldest, tl, rfl, ?_⟩
        simp only [hE, if_true] at h
        rw [getLastSamples_cons s oldest tl hp] at h
        simp only [Outcome.andThen_done, Outcome.done.injEq] at h
        rw [← h]
        simp [DigitsWriteoutBuffer.clear, hp]
      · left
        simp only [hE, Outcome.done.injEq] at h
        simpa using h.symm

/-- What every flush attempt leaves alone, and the bound it keeps. -/
theorem flushOnEndWindow_frame (s : DigitsWriteoutBuffer) (r : DigitsWriteoutBuffer × Bool)
    (h : s.flushOnEndWindow = Outcome.done r) :
    r.1.mBufferSize = s.mBufferSize ∧ r.1.mLiveTime = s.mLiveTime ∧ r.1.mBusyTime = s.mBusyTime ∧
    r.1.mPreTriggerTime = s.mPreTriggerTime ∧ r.1.mTriggerTime = s.mTriggerTime ∧
    r.1.mLastEventTime = s.mLastEventTime ∧
    r.1.mTimedDigitsFuture.length = s.mTimedDigitsFuture.length ∧
    r.1.mTimedDigitsPast.length ≤ s.mTimedDigitsPast.length := by
  rcases flushOnEndWindow_done s r h with h1 | ⟨oldest, tl, _, h1⟩
  · subst h1; simp
  · subst h1; simp

theorem moveFront_frame (s s1 : DigitsWriteoutBuffer) (h : s.moveFront = Outcome.done s1) :
    s1.mBufferSize = s.mBufferSize ∧ s1.mLiveTime = s.mLiveTime ∧ s1.mBusyTime = s.mBusyTime ∧
    s1.mPreTriggerTime = s.mPreTriggerTime ∧ s1.mTriggerTime = s.mTriggerTime ∧
    s1.mLastEventTime = s.mLastEventTime ∧
    s1.mTimedDigitsFuture.length = s.mTimedDigitsFuture.length ∧
    (s.mTimedDigitsPast.length ≤ s.mBufferSize → s1.mTimedDigitsPast.length ≤ s.mBufferSize) := by
  unfold DigitsWriteoutBuffer.moveFront at h
  cases hf : s.mTimedDigitsFuture with
  | nil => rw [hf] at h; simp at h
  | cons front rest =>
    rw [hf] at h
    simp only at h
    obtain ⟨r, hr, hs1⟩ := Outcome.andThen_eq_done.mp h
    simp only [Outcome.done.injEq] at hs1
    subst hs1
    have := flushOnEndWindow_frame _ r hr
    simp only at this
    obtain ⟨h1, h2, h3, h4, h5, h6, h7, h8⟩ := this
    refine ⟨h1, h2, h3, h4, h5, h6, ?_, ?_⟩
    · rw [h7]; simp
    · intro hp
      refine le_trans h8 (dropOldest_length _ _ ?_)
      simp; omega

theorem forwardLoop_frame (todo : Nat) : ∀ (s s1 : DigitsWriteoutBuffer),
    forwardLoop todo s = Outcome.done s1 →
    s1.mBufferSize = s.mBufferSize ∧ s1.mLiveTime = s.mLiveTime ∧ s1.mBusyTime = s.mBusyTime ∧
    s1.mPreTriggerTime = s.mPreTriggerTime ∧ s1.mTriggerTime = s.mTriggerTime ∧
    s1.mLastEventTime = s.mLastEventTime ∧
    s1.mTimedDigitsFuture.length = s.mTimedDigitsFuture.length ∧
    (s.mTimedDigitsPast.length ≤ s.mBufferSize → s1.mTimedDigitsPast.length ≤ s.mBufferSize) := by
  induction todo with
  | zero =>
    intro s s1 h
    simp only [forwardLoop, Outcome.done.injEq] at h
    subst h; simp
  | succ k ih =>
    intro s s1 h
    unfold forwardLoop at h
    cases hh : s.mTimedDigitsFuture.head? with
    | none => rw [hh] at h; simp at h
    | some front =>
      rw [hh] at h
      simp only at h
      by_cases hr : front.mRecordMode = true
      · simp only [hr, if_true] at h
        obtain ⟨s2, hs2, hrest⟩ := Outcome.andThen_eq_done.mp h
        obtain ⟨a1, a2, a3, a4, a5, a6, a7, a8⟩ := moveFront_frame s s2 hs2
        obtain ⟨b1, b2, b3, b4, b5, b6, b7, b8⟩ := ih s2 s1 hrest
        refine ⟨by rw [b1, a1], by rw [b2, a2], by rw [b3, a3], by rw [b4, a4], by rw [b5, a5],
          by rw [b6, a6], by rw [b7, a7], ?_⟩
        intro hp
        rw [← a1]; apply b8; rw [a1]; exact a8 hp
      · simp only [hr] at h
        simp only [Bool.false_eq_true, if_false, Outcome.done.injEq] at h
        subst h; simp

/-- With a non-empty future queue and a buffer size of at least 1 the bin-moving loop
always runs to its end. -/
theorem forwardLoop_done (todo : Nat) : ∀ (s : DigitsWriteoutBuffer),
    s.mTimedDigitsFuture ≠ [] → 1 ≤ s.mBufferSize → ∃ s1, forwardLoop todo s = Outcome.done s1 := by
  induction todo with
  | zero => intro s _ _; exact ⟨s, rfl⟩
  | succ k ih =>
    intro s hne hn
    obtain ⟨front, rest, hf⟩ := List.exists_cons_of_ne_nil hne
    unfold forwardLoop
    rw [hf]
    simp only [List.head?_cons]
    by_cases hr : front.mRecordMode = true
    · simp only [hr, if_true]
      obtain ⟨oldest, tl, _, hmove⟩ := moveFront_eq s front rest hf hn
      rw [hmove]
      simp only [Outcome.andThen_done]
      apply ih
      · split <;> simp
      · split <;> simpa using hn
    · simp [hr]

theorem stampAll_length (l : List DigitTimebin) : ∀ base, (stampAll base l).length = l.length := by
  induction l with
  | nil => intro base; rfl
  | cons b rest ih => intro base; simp [stampAll, ih]

theorem onFront_length {α : Type} (f : α → α) (l : List α) : (onFront f l).length = l.length := by
  cases l <;> rfl

theorem onBack_length {α : Type} (f : α → α) : ∀ l : List α, (onBack f l).length = l.length
  | [] => rfl
  | [_] => rfl
  | a :: b :: l => by simp [onBack, onBack_length f (b :: l)]

theorem triggerStep_done (s : DigitsWriteoutBuffer) (record : InteractionTimeRecord)
    (hne : s.mTimedDigitsFuture ≠ []) :
    ∃ s1, s.triggerStep record = Outcome.done s1 := by
  obtain ⟨front, rest, hf⟩ := List.exists_cons_of_ne_nil hne
  unfold DigitsWriteoutBuffer.triggerStep
  rw [hf]
  split
  · exact ⟨_, rfl⟩
  · exact ⟨_, rfl⟩

theorem triggerStep_frame (s s1 : DigitsWriteoutBuffer) (record : InteractionTimeRecord)
    (h : s.triggerStep record = Outcome.done s1) :
    s1.mBufferSize = s.mBufferSize ∧ s1.mLiveTime = s.mLiveTime ∧ s1.mBusyTime = s.mBusyTime ∧
    s1.mPreTriggerTime = s.mPreTriggerTime ∧
    s1.mTimedDigitsFuture.length = s.mTimedDigitsFuture.length ∧
    s1.mTimedDigitsPast = s.mTimedDigitsPast ∧ s1.mDigitStream = s.mDigitStream := by
  unfold DigitsWriteoutBuffer.triggerStep at h
  split at h
  · cases hf : s.mTimedDigitsFuture with
    | nil => rw [hf] at h; simp at h
    | cons front rest =>
      rw [hf] at h
      simp only [Outcome.done.injEq] at h
      subst h
      simp [stampAll_length, onBack_length, onFront_length]
  · simp only [Outcome.done.injEq] at h
    subst h; simp

theorem preTriggerStep_frame (s : DigitsWriteoutBuffer) (eventTime : Nat) :
    (s.preTriggerStep eventTime).mBufferSize = s.mBufferSize ∧
    (s.preTriggerStep eventTime).mLiveTime = s.mLiveTime ∧
    (s.preTriggerStep eventTime).mBusyTime = s.mBusyTime ∧
    (s.preTriggerStep eventTime).mPreTriggerTime = s.mPreTriggerTime ∧
    (s.preTriggerStep eventTime).mTriggerTime = s.mTriggerTime ∧
    (s.preTriggerStep eventTime).mTimedDigitsFuture.length = s.mTimedDigitsFuture.length ∧
    (s.preTriggerStep eventTime).mTimedDigitsPast = s.mTimedDigitsPast ∧
    (s.preTriggerStep eventTime).mDigitStream = s.mDigitStream := by
  unfold DigitsWriteoutBuffer.preTriggerStep
  split <;> simp [stampAll_length]

/-- The three stages of `forwardMarker`, made explicit. -/
theorem forwardMarker_stages (s s3 : DigitsWriteoutBuffer) (record : InteractionTimeRecord)
    (h : s.forwardMarker record = Outcome.done s3) :
    ∃ s1 s2, forwardLoop (s.sampleDifference record.timeNS).toNat s = Outcome.done s1 ∧
      s1.triggerStep record = Outcome.done s2 ∧
      s3 = { s2.preTriggerStep record.timeNS with
              mLastEventTime := record.timeNS, mPhase := record.timeNS % 100 / 25 } := by
  unfold DigitsWriteoutBuffer.forwardMarker at h
  simp only at h
  obtain ⟨s1, h1, h⟩ := Outcome.andThen_eq_done.mp h
  obtain ⟨s2, h2, h⟩ := Outcome.andThen_eq_done.mp h
  simp only [Outcome.done.injEq] at h
  exact ⟨s1, s2, h1, h2, h.symm⟩

theorem forwardMarker_done (s : DigitsWriteoutBuffer) (record : InteractionTimeRecord)
    (hne : s.mTimedDigitsFuture ≠ []) (hn : 1 ≤ s.mBufferSize) :
    ∃ s3, s.forwardMarker record = Outcome.done s3 := by
  obtain ⟨s1, h1⟩ := forwardLoop_done (s.sampleDifference record.timeNS).toNat s hne hn
  have hlen := (forwardLoop_frame _ s s1 h1).2.2.2.2.2.2.1
  have hne1 : s1.mTimedDigitsFuture ≠ [] := by
    intro h0; rw [h0] at hlen; simp at hlen; exact hne (List.length_eq_zero.mp hlen.symm)
  obtain ⟨s2, h2⟩ := triggerStep_done s1 record hne1
  unfold DigitsWriteoutBuffer.forwardMarker
  simp only [h1, h2, Outcome.andThen_done]
  exact ⟨_, rfl⟩

theorem forwardMarker_frame (s s3 : DigitsWriteoutBuffer) (record : InteractionTimeRecord)
    (h : s.forwardMarker record = Outcome.done s3) :
    s3.mBufferSize = s.mBufferSize ∧ s3.mLiveTime = s.mLiveTime ∧ s3.mBusyTime = s.mBusyTime ∧
    s3.mPreTriggerTime = s.mPreTriggerTime ∧
    s3.mTimedDigitsFuture.length = s.mTimedDigitsFuture.length ∧
    (s.mTimedDigitsPast.length ≤ s.mBufferSize → s3.mTimedDigitsPast.length ≤ s.mBufferSize) := by
  obtain ⟨s1, s2, h1, h2, h3⟩ := forwardMarker_stages s s3 record h
  obtain ⟨a1, a2, a3, a4, _, _, a7, a8⟩ := forwardLoop_frame _ s s1 h1
  obtain ⟨b1, b2, b3, b4, b5, b6, _⟩ := triggerStep_frame s1 s2 record h2
  obtain ⟨c1, c2, c3, c4, _, c6, c7, _⟩ := preTriggerStep_frame s2 record.timeNS
  subst h3
  simp only
  refine ⟨by rw [c1, b1, a1], by rw [c2, b2, a2], by rw [c3, b3, a3], by rw [c4, b4, a4],
    by rw [c6, b5, a7], ?_⟩
  intro hp
  rw [c7, b6]; exact a8 hp

theorem addDigitsLoop_length (towerID offset : Nat) : ∀ (todo : Nat) (future : List DigitTimebin)
    (digList : List LabeledDigit) (out : List DigitTimebin),
    addDigitsLoop towerID offset todo future digList = Outcome.done out →
    out.length = future.length := by
  intro todo
  induction todo with
  | zero =>
    intro future digList out h
    simp only [addDigitsLoop, Outcome.done.injEq] at h
    rw [h]
  | succ k ih =>
    intro future digList out h
    cases future with
    | nil => simp [addDigitsLoop] at h
    | cons b future =>
      cases digList with
      | nil => simp [addDigitsLoop] at h
      | cons d digList =>
        simp only [addDigitsLoop] at h
        obtain ⟨rest, hrest, hout⟩ := Outcome.andThen_eq_done.mp h
        simp only [Outcome.done.injEq] at hout
        rw [← hout]
        simp [ih future digList rest hrest]

theorem addDigitsLoop_done (towerID offset : Nat) : ∀ (todo : Nat) (future : List DigitTimebin)
    (digList : List LabeledDigit), todo ≤ future.length → todo ≤ digList.length →
    ∃ out, addDigitsLoop towerID offset todo future digList = Outcome.done out := by
  intro todo
  induction todo with
  | zero => intro future digList _ _; exact ⟨future, rfl⟩
  | succ k ih =>
    intro future digList hf hd
    cases future with
    | nil => simp at hf
    | cons b future =>
      cases digList with
      | nil => simp at hd
      | cons d digList =>
        obtain ⟨rest, hrest⟩ := ih future digList (by simpa using hf) (by simpa using hd)
        simp only [addDigitsLoop, hrest, Outcome.andThen_done]
        exact ⟨_, rfl⟩

theorem addDigits_frame (s s1 : DigitsWriteoutBuffer) (towerID : Nat) (digList : List LabeledDigit)
    (h : s.addDigits towerID digList = Outcome.done s1) :
    s1.mBufferSize = s.mBufferSize ∧ s1.mLiveTime = s.mLiveTime ∧ s1.mBusyTime = s.mBusyTime ∧
    s1.mPreTriggerTime = s.mPreTriggerTime ∧ s1.mTriggerTime = s.mTriggerTime ∧
    s1.mLastEventTime = s.mLastEventTime ∧
    s1.mTimedDigitsFuture.length = s.mTimedDigitsFuture.length ∧
    s1.mTimedDigitsPast = s.mTimedDigitsPast ∧ s1.mDigitStream = s.mDigitStream := by
  unfold DigitsWriteoutBuffer.addDigits at h
  obtain ⟨out, hout, h⟩ := Outcome.andThen_eq_done.mp h
  simp only [Outcome.done.injEq] at h
  subst h
  simp [addDigitsLoop_length _ _ _ _ _ _ hout]

theorem finishLoop_frame (todo : Nat) : ∀ (s s1 : DigitsWriteoutBuffer),
    finishLoop todo s = Outcome.done s1 →
    s1.mBufferSize = s.mBufferSize ∧ s1.mLiveTime = s.mLiveTime ∧ s1.mBusyTime = s.mBusyTime ∧
    s1.mPreTriggerTime = s.mPreTriggerTime ∧ s1.mTriggerTime = s.mTriggerTime ∧
    s1.mLastEventTime = s.mLastEventTime ∧
    s1.mTimedDigitsFuture.length ≤ s.mTimedDigitsFuture.length ∧
    (s.mTimedDigitsPast.length ≤ s.mBufferSize → s1.mTimedDigitsPast.length ≤ s.mBufferSize) := by
  induction todo with
  | zero =>
    intro s s1 h
    simp only [finishLoop, Outcome.done.injEq] at h
    subst h; simp
  | succ k ih =>
    intro s s1 h
    unfold finishLoop at h
    cases hf : s.mTimedDigitsFuture with
    | nil => rw [hf] at h; simp at h
    | cons front rest =>
      rw [hf] at h
      simp only at h
      split at h
      · simp only [Outcome.done.injEq] at h
        subst h; simp [hf]
      · obtain ⟨r, hr, h⟩ := Outcome.andThen_eq_done.mp h
        obtain ⟨a1, a2, a3, a4, a5, a6, a7, a8⟩ := flushOnEndWindow_frame _ r hr
        simp only at a1 a2 a3 a4 a5 a6 a7 a8
        have hpast : s.mTimedDigitsPast.length ≤ s.mBufferSize →
            r.1.mTimedDigitsPast.length ≤ s.mBufferSize := by
          intro hp
          refine le_trans a8 (dropOldest_length _ _ ?_)
          simp; omega
        split at h
        · simp only [Outcome.done.injEq] at h
          subst h
          refine ⟨a1, a2, a3, a4, a5, a6, ?_, hpast⟩
          rw [a7]; simp [hf]
        · obtain ⟨b1, b2, b3, b4, b5, b6, b7, b8⟩ := ih r.1 s1 h
          refine ⟨by rw [b1, a1], by rw [b2, a2], by rw [b3, a3], by rw [b4, a4], by rw [b5, a5],
            by rw [b6, a6], ?_, ?_⟩
          · rw [a7] at b7; simp [hf]; omega
          · intro hp
            rw [← a1]; apply b8; rw [a1]; exact hpast hp

theorem reserve_frame (s s1 : DigitsWriteoutBuffer) (h : s.reserve = Outcome.done s1) :
    s1.mBufferSize = s.mBufferSize ∧ s1.mTimedDigitsPast = s.mTimedDigitsPast ∧
    s1.mDigitStream = s.mDigitStream := by
  unfold DigitsWriteoutBuffer.reserve at h
  split at h
  · simp only at h
    split at h
    · simp only [Outcome.done.injEq] at h
      subst h; simp
    · simp at h
  · simp only [Outcome.done.injEq] at h
    subst h; simp

/-- A full future queue is left alone by `reserve()`. -/
theorem reserve_full (s : DigitsWriteoutBuffer) (hn : 1 ≤ s.mBufferSize)
    (hlen : s.mTimedDigitsFuture.length = s.mBufferSize) : s.reserve = Outcome.done s := by
  unfold DigitsWriteoutBuffer.reserve
  have : ¬ s.mTimedDigitsFuture.length < (s.mBufferSize + U32 - 1) % U32 := by
    rw [hlen]; unfold U32; omega
  rw [if_neg this]

/-- Every call leaves the buffer size alone and keeps the past queue within it. -/
theorem call_pastBound (s s1 : DigitsWriteoutBuffer) (c : Call) (h : s.call c = Outcome.done s1)
    (hp : s.mTimedDigitsPast.length ≤ s.mBufferSize) :
    s1.mBufferSize = s.mBufferSize ∧ s1.mTimedDigitsPast.length ≤ s1.mBufferSize := by
  cases c with
  | addDigits towerID digList =>
    obtain ⟨a1, _, _, _, _, _, _, a8, _⟩ := addDigits_frame s s1 towerID digList h
    exact ⟨a1, by rw [a1, a8]; exact hp⟩
  | forwardMarker record =>
    obtain ⟨a1, _, _, _, _, a6⟩ := forwardMarker_frame s s1 record h
    exact ⟨a1, by rw [a1]; exact a6 hp⟩
  | finish =>
    obtain ⟨a1, _, _, _, _, _, _, a8⟩ := finishLoop_frame _ s s1 h
    exact ⟨a1, by rw [a1]; exact a8 hp⟩
  | reserve =>
    obtain ⟨a1, a2, _⟩ := reserve_frame s s1 h
    exact ⟨a1, by rw [a1, a2]; exact hp⟩
  | clear =>
    simp only [DigitsWriteoutBuffer.call, Outcome.done.injEq] at h
    subst h
    simp [DigitsWriteoutBuffer.clear]

theorem run_pastBound (calls : List Call) : ∀ (s s1 : DigitsWriteoutBuffer),
    s.run calls = Outcome.done s1 → s.mTimedDigitsPast.length ≤ s.mBufferSize →
    s1.mBufferSize = s.mBufferSize ∧ s1.mTimedDigitsPast.length ≤ s1.mBufferSize := by
  induction calls with
  | nil =>
    intro s s1 h hp
    simp only [DigitsWriteoutBuffer.run, Outcome.done.injEq] at h
    subst h; exact ⟨rfl, hp⟩
  | cons c cs ih =>
    intro s s1 h hp
    simp only [DigitsWriteoutBuffer.run] at h
    obtain ⟨s2, h2, hrest⟩ := Outcome.andThen_eq_done.mp h
    obtain ⟨a1, a2⟩ := call_pastBound s s2 c h2 hp
    obtain ⟨b1, b2⟩ := ih s2 s1 hrest a2
    exact ⟨by rw [b1, a1], b2⟩

/-- A call of the queue-size invariant on a full queue returns and leaves the queue full. -/
theorem call_keepsQueue (s : DigitsWriteoutBuffer) (c : Call) (hn : 1 ≤ s.mBufferSize)
    (hlen : s.mTimedDigitsFuture.length = s.mBufferSize)
    (hc : c.keepsQueue s.mBufferSize = true) :
    ∃ s1, s.call c = Outcome.done s1 ∧ s1.mBufferSize = s.mBufferSize ∧
      s1.mTimedDigitsFuture.length = s.mBufferSize := by
  cases c with
  | addDigits towerID digList =>
    simp only [Call.keepsQueue, decide_eq_true_eq] at hc
    obtain ⟨out, hout⟩ := addDigitsLoop_done towerID s.depositOffset s.mBufferSize
      s.mTimedDigitsFuture digList (by omega) hc
    have hcall : s.addDigits towerID digList
        = Outcome.done { s with mTimedDigitsFuture := out } := by
      unfold DigitsWriteoutBuffer.addDigits
      rw [hout]; rfl
    refine ⟨_, hcall, rfl, ?_⟩
    simp only
    rw [addDigitsLoop_length _ _ _ _ _ _ hout, hlen]
  | forwardMarker record =>
    have hne : s.mTimedDigitsFuture ≠ [] := by
      intro h0; rw [h0] at hlen; simp at hlen; omega
    obtain ⟨s3, h3⟩ := forwardMarker_done s record hne hn
    obtain ⟨a1, _, _, _, a5, _⟩ := forwardMarker_frame s s3 record h3
    exact ⟨s3, h3, a1, by rw [a5, hlen]⟩
  | finish => simp [Call.keepsQueue] at hc
  | reserve => exact ⟨s, reserve_full s hn hlen, rfl, hlen⟩
  | clear => simp [Call.keepsQueue] at hc

theorem run_keepsQueue (calls : List Call) : ∀ (s : DigitsWriteoutBuffer), 1 ≤ s.mBufferSize →
    s.mTimedDigitsFuture.length = s.mBufferSize →
    (∀ c ∈ calls, c.keepsQueue s.mBufferSize = true) →
    ∃ s1, s.run calls = Outcome.done s1 ∧ s1.mBufferSize = s.mBufferSize ∧
      s1.mTimedDigitsFuture.length = s.mBufferSize := by
  induction calls with
  | nil => intro s _ hlen _; exact ⟨s, rfl, rfl, hlen⟩
  | cons c cs ih =>
    intro s hn hlen hall
    obtain ⟨s2, h2, a1, a2⟩ := call_keepsQueue s c hn hlen (hall c (List.mem_cons_self _ _))
    obtain ⟨s1, h1, b1, b2⟩ := ih s2 (by rw [a1]; exact hn) (by rw [a1]; exact a2)
      (fun c hc => by rw [a1]; exact hall c (List.mem_cons_of_mem _ hc))
    refine ⟨s1, ?_, by rw [b1, a1], by rw [b2, a1]⟩
    simp only [DigitsWriteoutBuffer.run, h2, Outcome.andThen_done]
    exact h1

/-- C1, queue-size invariant.  A buffer is constructed with `n ≥ 1` time bins; any
sequence of `addDigits` calls with lists of at least `n` digits, `forwardMarker` calls
and `reserve` calls is then made on it.  Every call of the sequence returns, and after
each of them (after the first `k` calls, for every `k`) the future queue has exactly
`n` entries. -/
theorem queue_size_invariant (n : Nat) (simParam : SimParam) (calls : List Call) (k : Nat)
    (hn : 1 ≤ n) (hcalls : ∀ c ∈ calls, c.keepsQueue n = true) :
    ∃ s, (DigitsWriteoutBuffer.create n simParam).run (calls.take k) = Outcome.done s ∧
      s.mTimedDigitsFuture.length = n := by
  obtain ⟨s, hs, _, hlen⟩ := run_keepsQueue (calls.take k) (DigitsWriteoutBuffer.create n simParam)
    hn (by simp [DigitsWriteoutBuffer.create])
    (fun c hc => hcalls c (List.mem_of_mem_take hc))
  exact ⟨s, hs, hlen⟩

/-- C2, past-queue bound.  A buffer is constructed with `n` time bins and any sequence
of calls (`addDigits`, `forwardMarker`, `finish`, and also `reserve` and `clear`) is
made on it.  After each call that returns (after the first `k` calls, for every `k`)
the past queue holds at most `n` bins. -/
theorem past_queue_bound (n : Nat) (simParam : SimParam) (calls : List Call) (k : Nat)
    (s : DigitsWriteoutBuffer)
    (hrun : (DigitsWriteoutBuffer.create n simParam).run (calls.take k) = Outcome.done s) :
    s.mTimedDigitsPast.length ≤ n := by
  obtain ⟨h1, h2⟩ := run_pastBound (calls.take k) (DigitsWriteoutBuffer.create n simParam) s hrun
    (by simp [DigitsWriteoutBuffer.create])
  rw [h1] at h2
  exact h2

theorem stampAll_noEnd (l : List DigitTimebin) : ∀ base, NoEndWindow l →
    NoEndWindow (stampAll base l) := by
  induction l with
  | nil => intro base h; exact h
  | cons b rest ih =>
    intro base h c hc
    simp only [stampAll, List.mem_cons] at hc
    rcases hc with hc | hc
    · subst hc; exact h b (List.mem_cons_self _ _)
    · exact ih _ (fun x hx => h x (List.mem_cons_of_mem _ hx)) c hc

theorem stampAll_append (l1 l2 : List DigitTimebin) : ∀ base,
    ∃ base2, stampAll base (l1 ++ l2) = stampAll base l1 ++ stampAll base2 l2 := by
  induction l1 with
  | nil => intro base; exact ⟨base, rfl⟩
  | cons b rest ih =>
    intro base
    obtain ⟨base2, h⟩ := ih ((base + 100) % U64)
    exact ⟨base2, by simp [stampAll, h]⟩

theorem stampAll_trigHead (r : InteractionTimeRecord) (M W : List DigitTimebin) (e : DigitTimebin)
    (base ts : Nat) (h : TrigHead r (M ++ W ++ [e])) :
    TrigHead r (M ++ stampAll base W ++ [{ e with mRecordMode := true, mTimestamp := ts }]) := by
  obtain ⟨t, rest, ht, hT, hR⟩ := h
  cases M with
  | cons m M' =>
    simp only [List.cons_append, List.cons.injEq] at ht
    exact ⟨m, _, rfl, by rw [ht.1]; exact hT, by rw [ht.1]; exact hR⟩
  | nil =>
    cases W with
    | nil =>
      simp only [List.nil_append, List.cons.injEq] at ht
      exact ⟨_, [], rfl, by rw [← ht.1] at hT; exact hT,
        by rw [← ht.1] at hR; exact hR⟩
    | cons w W' =>
      simp only [List.nil_append, List.cons_append, List.cons.injEq] at ht
      exact ⟨_, _, rfl,
        by rw [← ht.1] at hT; exact hT, by rw [← ht.1] at hR; exact hR⟩

/-- A stamping pass keeps the window of an open buffer in place. -/
theorem stampAll_openQueues (n : Nat) (r : InteractionTimeRecord) (future past : List DigitTimebin)
    (base : Nat) (h : OpenQueues n r future past) : OpenQueues n r (stampAll base future) past := by
  obtain ⟨P, M, W, e, F, hp, hf, hlen, hF, hP, hE, hW, hFn, hT⟩ := h
  obtain ⟨base2, h2⟩ := stampAll_append W (e :: F) base
  refine ⟨P, M, stampAll base W, { e with mRecordMode := true, mTimestamp := base2 },
    stampAll ((base2 + 100) % U64) F, hp, ?_, ?_, ?_, hP, hE, stampAll_noEnd W base hW,
    stampAll_noEnd F _ hFn, stampAll_trigHead r M W e base base2 hT⟩
  · rw [hf, h2]; simp [stampAll]
  · rw [stampAll_length]; exact hlen
  · rw [stampAll_length]; exact hF

theorem stampAll_quiet_future (n : Nat) (future : List DigitTimebin) (base : Nat)
    (hlen : future.length = n) (hno : NoEndWindow future) :
    (stampAll base future).length = n ∧ NoEndWindow (stampAll base future) :=
  ⟨by rw [stampAll_length]; exact hlen, stampAll_noEnd future base hno⟩

theorem noEnd_clearMaps (l : List DigitTimebin) (h : NoEndWindow l) :
    NoEndWindow (l.map (fun iNode => { iNode with mDigitMap := [] })) := by
  intro b hb
  simp only [List.mem_map] at hb
  obtain ⟨a, ha, hab⟩ := hb
  rw [← hab]; exact h a ha

theorem noEnd_append_fresh (l : List DigitTimebin) (h : NoEndWindow l) :
    NoEndWindow (l ++ [({} : DigitTimebin)]) := by
  intro b hb
  simp only [List.mem_append, List.mem_singleton] at hb
  rcases hb with hb | hb
  · exact h b hb
  · rw [hb]

/-- A bin move in a quiet buffer: no flush, the buffer stays quiet. -/
theorem moveFront_quiet (n : Nat) (s : DigitsWriteoutBuffer) (hn : 1 ≤ n) (hq : Quiet n s) :
    ∃ s1, s.moveFront = Outcome.done s1 ∧ Quiet n s1 ∧ s1.mDigitStream = s.mDigitStream := by
  obtain ⟨hsize, hlen, hpast, hno⟩ := hq
  cases hf : s.mTimedDigitsFuture with
  | nil => rw [hf] at hlen; simp at hlen; omega
  | cons front rest =>
    obtain ⟨oldest, tl, hcons, hmove⟩ := moveFront_eq s front rest hf (by omega)
    have hE : front.mEndWindow = false := hno front (by rw [hf]; exact List.mem_cons_self _ _)
    rw [hE] at hmove
    simp only [Bool.false_eq_true, if_false] at hmove
    refine ⟨_, hmove, ⟨hsize, ?_, ?_, ?_⟩, rfl⟩
    · simp only [List.length_append, List.length_singleton]
      rw [hf] at hlen; simpa using hlen
    · simp only
      rw [← hcons, ← hsize]
      exact dropOldest_length _ _ (by simp; omega)
    · simp only
      apply noEnd_append_fresh
      intro b hb
      exact hno b (by rw [hf]; exact List.mem_cons_of_mem _ hb)

theorem forwardLoop_quiet (n : Nat) (hn : 1 ≤ n) (todo : Nat) : ∀ s : DigitsWriteoutBuffer,
    Quiet n s →
    ∃ s1, forwardLoop todo s = Outcome.done s1 ∧ Quiet n s1 ∧ s1.mDigitStream = s.mDigitStream := by
  induction todo with
  | zero => intro s hq; exact ⟨s, rfl, hq, rfl⟩
  | succ k ih =>
    intro s hq
    unfold forwardLoop
    cases hh : s.mTimedDigitsFuture.head? with
    | none =>
      have := hq.2.1
      cases hf : s.mTimedDigitsFuture with
      | nil => rw [hf] at this; simp at this; omega
      | cons a l => rw [hf] at hh; simp at hh
    | some front =>
      simp only
      by_cases hr : front.mRecordMode = true
      · simp only [hr, if_true]
        obtain ⟨s1, h1, hq1, hs1⟩ := moveFront_quiet n s hn hq
        obtain ⟨s2, h2, hq2, hs2⟩ := ih s1 hq1
        exact ⟨s2, by rw [h1]; exact h2, hq2, by rw [hs2, hs1]⟩
      · simp only [hr, Bool.false_eq_true, if_false]
        exact ⟨s, rfl, hq, rfl⟩

/-- A bin move while a window is open: the window stays open, or its window-end bin is
the one moved and the window is flushed. -/
theorem moveFront_open (n : Nat) (r : InteractionTimeRecord) (s : DigitsWriteoutBuffer)
    (hn : 1 ≤ n) (ho : WindowOpen n r s) :
    ∃ s1, s.moveFront = Outcome.done s1 ∧ (WindowOpen n r s1 ∨ WindowClosed n r s1) := by
  obtain ⟨hsize, hsink, P, M, W, e, F, hp, hf, hlen, hF, hP, hE, hW, hFn, hT⟩ := ho
  cases W with
  | nil =>
    simp only [List.nil_append] at hf
    simp only [List.length_nil, List.length_append, Nat.add_zero] at hlen hP
    obtain ⟨oldest, tl, hcons, hmove⟩ := moveFront_eq s e F hf (by omega)
    rw [hE] at hmove
    simp only [if_true] at hmove
    have hview : dropOldest s.mBufferSize (s.mTimedDigitsPast ++ [e]) = M ++ [e] := by
      rw [hp, hsize]
      unfold dropOldest
      simp only [List.length_append, List.length_singleton, List.length_nil]
      cases P with
      | nil =>
        have : ¬ (0 + M.length + 1 > n) := by omega
        simp only [List.nil_append, List.length_nil]
        rw [if_neg this]
      | cons p P' =>
        have hP' : P' = [] := by
          apply List.length_eq_zero.mp
          simp only [List.length_cons] at hP; omega
        subst hP'
        have : ([p].length + M.length + 1 > n) := by simp; omega
        rw [if_pos this]
        simp
    refine ⟨_, hmove, Or.inr ⟨⟨hsize, ?_, ?_, ?_⟩, ?_⟩⟩
    · simp; omega
    · simp
    · exact noEnd_clearMaps _ (noEnd_append_fresh F hFn)
    · have hT2 : TrigHead r (M ++ [e]) := by simpa using hT
      have hold : oldest :: tl = M ++ [e] := by rw [← hcons, hview]
      refine ⟨oldest :: tl, ?_, ?_, ?_, ?_⟩
      · simp only [hsink, List.nil_append]
        obtain ⟨t, rest, ht, _, hR⟩ := hT2
        rw [← hold] at ht
        simp only [List.cons.injEq] at ht
        rw [ht.1, hR]
      · rw [hold]; simp; omega
      · rw [hold]; exact hT2
      · rw [hold]; exact ⟨M, e, rfl, hE⟩
  | cons w W' =>
    simp only [List.cons_append] at hf
    obtain ⟨oldest, tl, hcons, hmove⟩ := moveFront_eq s w (W' ++ e :: F) hf (by omega)
    have hwE : w.mEndWindow = false := hW w (List.mem_cons_self _ _)
    rw [hwE] at hmove
    simp only [Bool.false_eq_true, if_false] at hmove
    refine ⟨_, hmove, Or.inl ⟨hsize, hsink, ?_⟩⟩
    simp only
    rw [← hcons, hp, hsize]
    simp only [List.length_cons, List.length_append] at hlen hP
    have hshape : ∃ P2, dropOldest n (P ++ M ++ [w]) = P2 ++ (M ++ [w]) ∧
        (P2 ++ (M ++ [w])).length ≤ n := by
      unfold dropOldest
      by_cases hgt : (P ++ M ++ [w]).length > n
      · rw [if_pos hgt]
        cases P with
        | nil => simp at hgt; omega
        | cons p P' =>
          refine ⟨P', by simp, ?_⟩
          simp only [List.length_append, List.length_cons, List.length_nil] at hP ⊢
          omega
      · rw [if_neg hgt]
        refine ⟨P, by simp, ?_⟩
        simp only [List.length_append, List.length_cons, List.length_nil] at hgt ⊢
        omega
    obtain ⟨P2, hP2, hP2len⟩ := hshape
    refine ⟨P2, M ++ [w], W', e, F ++ [({} : DigitTimebin)], hP2, by simp, ?_, ?_, hP2len, hE, ?_, ?_, ?_⟩
    · simp; omega
    · simp; omega
    · intro b hb; exact hW b (List.mem_cons_of_mem _ hb)
    · exact noEnd_append_fresh F hFn
    · simpa using hT

theorem closed_of_quiet_sink (n : Nat) (r : InteractionTimeRecord) (s s1 : DigitsWriteoutBuffer)
    (hc : WindowClosed n r s) (hq : Quiet n s1) (hs : s1.mDigitStream = s.mDigitStream) :
    WindowClosed n r s1 := by
  obtain ⟨_, view, hv⟩ := hc
  exact ⟨hq, view, by rw [hs]; exact hv.1, hv.2⟩

theorem forwardLoop_open (n : Nat) (r : InteractionTimeRecord) (hn : 1 ≤ n) (todo : Nat) :
    ∀ s : DigitsWriteoutBuffer, (WindowOpen n r s ∨ WindowClosed n r s) →
    ∃ s1, forwardLoop todo s = Outcome.done s1 ∧ (WindowOpen n r s1 ∨ WindowClosed n r s1) := by
  induction todo with
  | zero => intro s h; exact ⟨s, rfl, h⟩
  | succ k ih =>
    intro s h
    rcases h with ho | hc
    · unfold forwardLoop
      cases hh : s.mTimedDigitsFuture.head? with
      | none =>
        obtain ⟨_, _, P, M, W, e, F, _, hf, _⟩ := ho
        rw [hf] at hh
        cases W <;> simp at hh
      | some front =>
        simp only
        by_cases hr : front.mRecordMode = true
        · simp only [hr, if_true]
          obtain ⟨s1, h1, hs1⟩ := moveFront_open n r s hn ho
          obtain ⟨s2, h2, hs2⟩ := ih s1 hs1
          exact ⟨s2, by rw [h1]; exact h2, hs2⟩
        · simp only [hr, Bool.false_eq_true, if_false]
          exact ⟨s, rfl, Or.inl ho⟩
    · obtain ⟨s1, h1, hq1, hs1⟩ := forwardLoop_quiet n hn (k + 1) s hc.1
      exact ⟨s1, h1, Or.inr (closed_of_quiet_sink n r s s1 hc hq1 hs1)⟩

theorem onBack_concat {α : Type} (f : α → α) (last : α) : ∀ front : List α,
    onBack f (front ++ [last]) = front ++ [f last]
  | [] => rfl
  | [a] => rfl
  | a :: b :: l => by
    have := onBack_concat f last (b :: l)
    simp only [List.cons_append] at this ⊢
    simp only [onBack, this]

theorem triggerFires_congr (s s1 : DigitsWriteoutBuffer) (eventTime : Nat)
    (h1 : s1.mLiveTime = s.mLiveTime) (h2 : s1.mBusyTime = s.mBusyTime)
    (h3 : s1.mTriggerTime = s.mTriggerTime) :
    s1.triggerFires eventTime = s.triggerFires eventTime := by
  unfold DigitsWriteoutBuffer.triggerFires
  rw [h1, h2, h3]

/-- The bin-moving loop does not change the outcome of the trigger condition. -/
theorem triggerFires_after_loop (todo : Nat) (s s1 : DigitsWriteoutBuffer) (eventTime : Nat)
    (h : forwardLoop todo s = Outcome.done s1) :
    s1.triggerFires eventTime = s.triggerFires eventTime := by
  obtain ⟨_, a2, a3, _, a5, _⟩ := forwardLoop_frame todo s s1 h
  exact triggerFires_congr s s1 eventTime a2 a3 a5

theorem triggerStep_skip (s : DigitsWriteoutBuffer) (record : InteractionTimeRecord)
    (h : s.triggerFires record.timeNS = false) : s.triggerStep record = Outcome.done s := by
  unfold DigitsWriteoutBuffer.triggerStep
  simp [h]

/-- The trigger branch on a quiet buffer opens the window of the record. -/
theorem triggerStep_opens (n : Nat) (s : DigitsWriteoutBuffer) (record : InteractionTimeRecord)
    (hn : 1 ≤ n) (hq : Quiet n s) (h : s.triggerFires record.timeNS = true) :
    ∃ s1, s.triggerStep record = Outcome.done s1 ∧ s1.mBufferSize = n ∧
      s1.mDigitStream = s.mDigitStream ∧
      OpenQueues n record s1.mTimedDigitsFuture s1.mTimedDigitsPast := by
  obtain ⟨hsize, hlen, hpast, hno⟩ := hq
  cases hf : s.mTimedDigitsFuture with
  | nil => rw [hf] at hlen; simp at hlen; omega
  | cons t rest =>
    unfold DigitsWriteoutBuffer.triggerStep
    simp only [h, if_true, hf]
    refine ⟨_, rfl, hsize, rfl, ?_⟩
    simp only
    apply stampAll_openQueues
    simp only [onFront]
    have hne : ({ t with mTriggerColl := true, mInterRecord := some record } :: rest) ≠ [] := by
      simp
    rcases List.eq_nil_or_concat
      ({ t with mTriggerColl := true, mInterRecord := some record } :: rest) with h0 | ⟨front, last, hfl⟩
    · exact absurd h0 hne
    · rw [List.concat_eq_append] at hfl
      rw [hfl, onBack_concat]
      have hnoF : NoEndWindow (front ++ [last]) := by
        rw [← hfl]
        intro b hb
        simp only [List.mem_cons] at hb
        rcases hb with hb | hb
        · rw [hb]; exact hno t (by rw [hf]; exact List.mem_cons_self _ _)
        · exact hno b (by rw [hf]; exact List.mem_cons_of_mem _ hb)
      have hlen2 : front.length + 1 = n := by
        have := congrArg List.length hfl
        simp only [List.length_cons, List.length_append, List.length_nil] at this
        rw [hf] at hlen; simp only [List.length_cons] at hlen
        omega
      refine ⟨s.mTimedDigitsPast, [], front, { last with mEndWindow := true }, [], by simp, rfl,
        by simpa using hlen2, rfl, by simpa using hpast, rfl, ?_, ?_, ?_⟩
      · intro b hb; exact hnoF b (List.mem_append_left _ hb)
      · intro b hb; simp at hb
      · cases front with
        | nil =>
          simp only [List.nil_append, List.cons.injEq] at hfl
          refine ⟨_, [], rfl, ?_, ?_⟩
          · rw [← hfl.1]
          · rw [← hfl.1]
        | cons a front2 =>
          simp only [List.cons_append, List.cons.injEq] at hfl
          refine ⟨a, front2 ++ [({ last with mEndWindow := true } : DigitTimebin)], rfl, ?_, ?_⟩
          · rw [← hfl.1]
          · rw [← hfl.1]

theorem preTriggerStep_quiet (n : Nat) (s : DigitsWriteoutBuffer) (eventTime : Nat)
    (hq : Quiet n s) : Quiet n (s.preTriggerStep eventTime) := by
  obtain ⟨hsize, hlen, hpast, hno⟩ := hq
  unfold DigitsWriteoutBuffer.preTriggerStep
  split
  · exact ⟨hsize, by simp only [stampAll_length]; exact hlen, hpast, stampAll_noEnd _ _ hno⟩
  · exact ⟨hsize, hlen, hpast, hno⟩

theorem preTriggerStep_open (n : Nat) (r : InteractionTimeRecord) (s : DigitsWriteoutBuffer)
    (eventTime : Nat) (ho : OpenQueues n r s.mTimedDigitsFuture s.mTimedDigitsPast) :
    OpenQueues n r (s.preTriggerStep eventTime).mTimedDigitsFuture
      (s.preTriggerStep eventTime).mTimedDigitsPast := by
  unfold DigitsWriteoutBuffer.preTriggerStep
  split
  · exact stampAll_openQueues n r _ _ _ ho
  · exact ho

/-- A `forwardMarker` call without trigger on a buffer that has not triggered yet. -/
theorem forwardMarker_idle (n : Nat) (s : DigitsWriteoutBuffer) (record : InteractionTimeRecord)
    (hn : 1 ≤ n) (hi : Idle n s) (h : s.triggerFires record.timeNS = false) :
    ∃ s3, s.forwardMarker record = Outcome.done s3 ∧ Idle n s3 := by
  obtain ⟨s1, h1, hq1, hs1⟩ := forwardLoop_quiet n hn (s.sampleDifference record.timeNS).toNat s hi.1
  obtain ⟨_, a2, a3, _, a5, _⟩ := forwardLoop_frame _ s s1 h1
  have hfire : s1.triggerFires record.timeNS = false := by
    rw [triggerFires_congr s s1 _ a2 a3 a5]; exact h
  have hq3 := preTriggerStep_quiet n s1 record.timeNS hq1
  obtain ⟨_, _, _, _, _, _, _, c8⟩ := preTriggerStep_frame s1 record.timeNS
  refine ⟨{ s1.preTriggerStep record.timeNS with
      mLastEventTime := record.timeNS, mPhase := record.timeNS % 100 / 25 }, ?_, ?_, ?_⟩
  · unfold DigitsWriteoutBuffer.forwardMarker
    simp only [h1, Outcome.andThen_done, triggerStep_skip s1 record hfire]
  · exact hq3
  · simp only
    rw [c8, hs1]; exact hi.2

/-- The `forwardMarker` call of the first trigger. -/
theorem forwardMarker_trigger (n : Nat) (s : DigitsWriteoutBuffer) (record : InteractionTimeRecord)
    (hn : 1 ≤ n) (hi : Idle n s) (h : s.triggerFires record.timeNS = true) :
    ∃ s3, s.forwardMarker record = Outcome.done s3 ∧ WindowOpen n record s3 := by
  obtain ⟨s1, h1, hq1, hs1⟩ := forwardLoop_quiet n hn (s.sampleDifference record.timeNS).toNat s hi.1
  obtain ⟨_, a2, a3, _, a5, _⟩ := forwardLoop_frame _ s s1 h1
  have hfire : s1.triggerFires record.timeNS = true := by
    rw [triggerFires_congr s s1 _ a2 a3 a5]; exact h
  obtain ⟨s2, h2, hsz2, hsink2, ho2⟩ := triggerStep_opens n s1 record hn hq1 hfire
  have ho3 := preTriggerStep_open n record s2 record.timeNS ho2
  obtain ⟨c1, _, _, _, _, _, _, c8⟩ := preTriggerStep_frame s2 record.timeNS
  refine ⟨{ s2.preTriggerStep record.timeNS with
      mLastEventTime := record.timeNS, mPhase := record.timeNS % 100 / 25 }, ?_, ?_, ?_, ?_⟩
  · unfold DigitsWriteoutBuffer.forwardMarker
    simp only [h1, Outcome.andThen_done, h2]
  · simp only; rw [c1, hsz2]
  · simp only; rw [c8, hsink2, hs1]; exact hi.2
  · exact ho3

/-- A `forwardMarker` call without trigger after the first trigger. -/
theorem forwardMarker_after (n : Nat) (r : InteractionTimeRecord) (s : DigitsWriteoutBuffer)
    (record : InteractionTimeRecord) (hn : 1 ≤ n)
    (hs : WindowOpen n r s ∨ WindowClosed n r s) (h : s.triggerFires record.timeNS = false) :
    ∃ s3, s.forwardMarker record = Outcome.done s3 ∧ (WindowOpen n r s3 ∨ WindowClosed n r s3) := by
  obtain ⟨s1, h1, hs1⟩ := forwardLoop_open n r hn (s.sampleDifference record.timeNS).toNat s hs
  obtain ⟨_, a2, a3, _, a5, _⟩ := forwardLoop_frame _ s s1 h1
  have hfire : s1.triggerFires record.timeNS = false := by
    rw [triggerFires_congr s s1 _ a2 a3 a5]; exact h
  obtain ⟨c1, _, _, _, _, _, _, c8⟩ := preTriggerStep_frame s1 record.timeNS
  refine ⟨{ s1.preTriggerStep record.timeNS with
      mLastEventTime := record.timeNS, mPhase := record.timeNS % 100 / 25 }, ?_, ?_⟩
  · unfold DigitsWriteoutBuffer.forwardMarker
    simp only [h1, Outcome.andThen_done, triggerStep_skip s1 record hfire]
  · rcases hs1 with ho | hc
    · left
      exact ⟨by simp only; rw [c1]; exact ho.1, by simp only; rw [c8]; exact ho.2.1,
        preTriggerStep_open n r s1 record.timeNS ho.2.2⟩
    · right
      have hq3 := preTriggerStep_quiet n s1 record.timeNS hc.1
      obtain ⟨view, hv⟩ := hc.2
      exact ⟨hq3, view, by simp only; rw [c8]; exact hv.1, hv.2⟩

/-- The sink is called once for every window-end bin the loop moves. -/
theorem forwardLoop_sinkCount (todo : Nat) : ∀ (s s1 : DigitsWriteoutBuffer),
    1 ≤ s.mBufferSize → forwardLoop todo s = Outcome.done s1 →
    s1.mDigitStream.length
      = s.mDigitStream.length + (movedInLoop todo s).countP (fun b => b.mEndWindow) := by
  induction todo with
  | zero =>
    intro s s1 _ h
    simp only [forwardLoop, Outcome.done.injEq] at h
    subst h; simp [movedInLoop]
  | succ k ih =>
    intro s s1 hn h
    unfold forwardLoop at h
    unfold movedInLoop
    cases hf : s.mTimedDigitsFuture with
    | nil => rw [hf] at h; simp at h
    | cons front rest =>
      rw [hf] at h
      simp only [List.head?_cons] at h ⊢
      by_cases hr : front.mRecordMode = true
      · simp only [hr, if_true] at h ⊢
        obtain ⟨oldest, tl, _, hmove⟩ := moveFront_eq s front rest hf hn
        rw [hmove] at h ⊢
        simp only [Outcome.andThen_done] at h ⊢
        by_cases hE : front.mEndWindow = true
        · simp only [hE, if_true] at h ⊢
          have := ih _ s1 (by simpa using hn) h
          rw [this]
          simp [List.countP_cons, hE]
          omega
        · simp only [hE, Bool.false_eq_true, if_false] at h ⊢
          have := ih _ s1 (by simpa using hn) h
          rw [this]
          simp [List.countP_cons, hE]
      · simp only [hr, Bool.false_eq_true, if_false, Outcome.done.injEq] at h ⊢
        subst h; simp

theorem forwardMarker_sinkCount (s s3 : DigitsWriteoutBuffer) (record : InteractionTimeRecord)
    (hn : 1 ≤ s.mBufferSize) (h : s.forwardMarker record = Outcome.done s3) :
    s3.mDigitStream.length = s.mDigitStream.length +
      (movedInLoop (s.sampleDifference record.timeNS).toNat s).countP (fun b => b.mEndWindow) := by
  obtain ⟨s1, s2, h1, h2, h3⟩ := forwardMarker_stages s s3 record h
  have a := forwardLoop_sinkCount _ s s1 hn h1
  obtain ⟨_, _, _, _, _, _, b7⟩ := triggerStep_frame s1 s2 record h2
  obtain ⟨_, _, _, _, _, _, _, c8⟩ := preTriggerStep_frame s2 record.timeNS
  subst h3
  simp only
  rw [c8, b7, a]

theorem run_sinkCount (records : List InteractionTimeRecord) : ∀ (s s1 : DigitsWriteoutBuffer),
    1 ≤ s.mBufferSize → s.run (records.map Call.forwardMarker) = Outcome.done s1 →
    s1.mDigitStream.length
      = s.mDigitStream.length + (s.movedBy records).countP (fun b => b.mEndWindow) := by
  induction records with
  | nil =>
    intro s s1 _ h
    simp only [List.map_nil, DigitsWriteoutBuffer.run, Outcome.done.injEq] at h
    subst h; simp [DigitsWriteoutBuffer.movedBy]
  | cons record rs ih =>
    intro s s1 hn h
    simp only [List.map_cons, DigitsWriteoutBuffer.run, DigitsWriteoutBuffer.call] at h
    obtain ⟨s3, h3, hrest⟩ := Outcome.andThen_eq_done.mp h
    have hsz := (forwardMarker_frame s s3 record h3).1
    have a := forwardMarker_sinkCount s s3 record hn h3
    have b := ih s3 s1 (by rw [hsz]; exact hn) hrest
    simp only [DigitsWriteoutBuffer.movedBy, h3, List.countP_append]
    rw [b, a]; omega

theorem run_after (n : Nat) (r : InteractionTimeRecord) (hn : 1 ≤ n)
    (records : List InteractionTimeRecord) : ∀ s : DigitsWriteoutBuffer,
    (WindowOpen n r s ∨ WindowClosed n r s) → s.triggersOf records = [] →
    ∃ s1, s.run (records.map Call.forwardMarker) = Outcome.done s1 ∧
      (WindowOpen n r s1 ∨ WindowClosed n r s1) := by
  induction records with
  | nil => intro s hs _; exact ⟨s, rfl, hs⟩
  | cons record rs ih =>
    intro s hs ht
    simp only [DigitsWriteoutBuffer.triggersOf, List.append_eq_nil] at ht
    have hfire : s.triggerFires record.timeNS = false := by
      by_contra hc
      simp only [Bool.not_eq_false] at hc
      rw [hc] at ht; simp at ht
    obtain ⟨s3, h3, hs3⟩ := forwardMarker_after n r s record hn hs hfire
    have ht2 := ht.2
    rw [h3] at ht2
    obtain ⟨s1, h1, hs1⟩ := ih s3 hs3 ht2
    refine ⟨s1, ?_, hs1⟩
    simp only [List.map_cons, DigitsWriteoutBuffer.run, DigitsWriteoutBuffer.call, h3,
      Outcome.andThen_done]
    exact h1

theorem run_idle (n : Nat) (r : InteractionTimeRecord) (hn : 1 ≤ n)
    (records : List InteractionTimeRecord) : ∀ s : DigitsWriteoutBuffer,
    Idle n s → s.triggersOf records = [r] →
    ∃ s1, s.run (records.map Call.forwardMarker) = Outcome.done s1 ∧
      (WindowOpen n r s1 ∨ WindowClosed n r s1) := by
  induction records with
  | nil => intro s _ ht; simp [DigitsWriteoutBuffer.triggersOf] at ht
  | cons record rs ih =>
    intro s hi ht
    simp only [DigitsWriteoutBuffer.triggersOf] at ht
    by_cases hfire : s.triggerFires record.timeNS = true
    · obtain ⟨s3, h3, hs3⟩ := forwardMarker_trigger n s record hn hi hfire
      rw [hfire, h3] at ht
      simp only [if_true, List.singleton_append, List.cons.injEq] at ht
      obtain ⟨hrec, htail⟩ := ht
      subst hrec
      obtain ⟨s1, h1, hs1⟩ := run_after n record hn rs s3 (Or.inl hs3) htail
      refine ⟨s1, ?_, hs1⟩
      simp only [List.map_cons, DigitsWriteoutBuffer.run, DigitsWriteoutBuffer.call, h3,
        Outcome.andThen_done]
      exact h1
    · simp only [Bool.not_eq_true] at hfire
      obtain ⟨s3, h3, hs3⟩ := forwardMarker_idle n s record hn hi hfire
      rw [hfire, h3] at ht
      simp only [Bool.false_eq_true, if_false, List.nil_append] at ht
      obtain ⟨s1, h1, hs1⟩ := ih s3 hs3 ht
      refine ⟨s1, ?_, hs1⟩
      simp only [List.map_cons, DigitsWriteoutBuffer.run, DigitsWriteoutBuffer.call, h3,
        Outcome.andThen_done]
      exact h1

theorem create_idle (n : Nat) (simParam : SimParam) : Idle n (DigitsWriteoutBuffer.create n simParam) := by
  refine ⟨⟨rfl, by simp [DigitsWriteoutBuffer.create], by simp [DigitsWriteoutBuffer.create], ?_⟩, rfl⟩
  intro b hb
  simp only [DigitsWriteoutBuffer.create, List.mem_replicate] at hb
  rw [hb.2]

/-- The one flush of a single window.  On a fresh buffer with `n ≥ 1` time bins a
sequence of `forwardMarker` calls is made (with any event times, non-decreasing ones
included) in which the trigger condition holds for exactly one call, the one with
record `r`, and in which a window-end bin is moved into the past queue.  Then all calls
return and the sink has received exactly one `fill`, with the record `r` and a span of
`n` entries over the past queue; at that moment the past queue holds `n` bins, the
first a trigger bin that holds `r`, the last a window-end bin. -/
theorem window_single_flush (n : Nat) (simParam : SimParam)
    (records : List InteractionTimeRecord) (r : InteractionTimeRecord) (hn : 1 ≤ n)
    (htrig : (DigitsWriteoutBuffer.create n simParam).triggersOf records = [r])
    (hend : ∃ b ∈ (DigitsWriteoutBuffer.create n simParam).movedBy records, b.mEndWindow = true) :
    ∃ s view,
      (DigitsWriteoutBuffer.create n simParam).run (records.map Call.forwardMarker)
        = Outcome.done s ∧
      s.mDigitStream = [(view, some r)] ∧ view.size = n ∧
      (∃ first rest, view.bins = first :: rest ∧ first.mTriggerColl = true ∧
        first.mInterRecord = some r) ∧
      (∃ front last, view.bins = front ++ [last] ∧ last.mEndWindow = true) := by
  obtain ⟨s, hrun, hs⟩ := run_idle n r hn records _ (create_idle n simParam) htrig
  have hcount := run_sinkCount records _ s (by simpa [DigitsWriteoutBuffer.create] using hn) hrun
  have hpos : 0 < ((DigitsWriteoutBuffer.create n simParam).movedBy records).countP
      (fun b => b.mEndWindow) := by
    obtain ⟨b, hb, hE⟩ := hend
    exact List.countP_pos_iff.mpr ⟨b, hb, hE⟩
  rcases hs with ho | hc
  · rw [ho.2.1] at hcount
    simp only [List.length_nil, DigitsWriteoutBuffer.create] at hcount
    simp only [DigitsWriteoutBuffer.create] at hpos
    omega
  · obtain ⟨_, view, hv1, hv2, hv3, hv4⟩ := hc
    exact ⟨s, ⟨view⟩, hrun, hv1, hv2, hv3, hv4⟩

theorem findTower_pushDigit (towerID : Nat) (dig : LabeledDigit) : ∀ m : DigitMap,
    findTower towerID (pushDigit towerID dig m)
      = some ((findTower towerID m).getD [] ++ [dig]) := by
  intro m
  induction m with
  | nil => simp [pushDigit, findTower]
  | cons kv rest ih =>
    obtain ⟨k, l⟩ := kv
    by_cases hk : k = towerID
    · simp [pushDigit, findTower, hk]
    · simp [pushDigit, findTower, hk, ih]

theorem findTower_pushDigit_other (towerID other : Nat) (dig : LabeledDigit) (h : other ≠ towerID) :
    ∀ m : DigitMap, findTower other (pushDigit towerID dig m) = findTower other m := by
  intro m
  induction m with
  | nil => simp [pushDigit, findTower, Ne.symm h]
  | cons kv rest ih =>
    obtain ⟨k, l⟩ := kv
    by_cases hk : k = towerID
    · subst hk
      simp [pushDigit, findTower, Ne.symm h]
    · simp only [pushDigit, hk, if_false, findTower, ih]

/-- Bin `i` after the loop of `addDigits`: the bin as it was, with digit `i` of the list
appended to the list of the tower. -/
theorem addDigitsLoop_getElem (towerID offset : Nat) : ∀ (todo : Nat) (future : List DigitTimebin)
    (digList : List LabeledDigit) (out : List DigitTimebin),
    addDigitsLoop towerID offset todo future digList = Outcome.done out →
    ∀ (i : Nat) (b : DigitTimebin) (dig : LabeledDigit), i < todo → future[i]? = some b →
      digList[i]? = some dig →
      out[i]? = some { b with mDigitMap := pushDigit towerID (dig.shifted offset) b.mDigitMap } := by
  intro todo
  induction todo with
  | zero => intro _ _ _ _ i _ _ hi; omega
  | succ k ih =>
    intro future digList out h i b dig hi hb hd
    cases future with
    | nil => simp [addDigitsLoop] at h
    | cons b0 future =>
      cases digList with
      | nil => simp [addDigitsLoop] at h
      | cons d0 digList =>
        simp only [addDigitsLoop] at h
        obtain ⟨rest, hrest, hout⟩ := Outcome.andThen_eq_done.mp h
        simp only [Outcome.done.injEq] at hout
        subst hout
        cases i with
        | zero =>
          simp only [List.getElem?_cons_zero, Option.some.injEq] at hb hd ⊢
          subst hb; subst hd; rfl
        | succ j =>
          simp only [List.getElem?_cons_succ] at hb hd ⊢
          exact ih future digList rest hrest j b dig (by omega) hb hd

theorem usub64_eq (a b : Nat) (hba : b ≤ a) (ha : a < U64) : usub64 a b = a - b := by
  unfold usub64
  have : a + U64 - b = (a - b) + U64 := by omega
  rw [this, Nat.add_mod_right]
  exact Nat.mod_eq_of_lt (by omega)

theorem depositOffset_eq (s : DigitsWriteoutBuffer) (htime : s.mTriggerTime ≤ s.mLastEventTime)
    (hrange : s.mLastEventTime < U64) :
    s.depositOffset = (s.mLastEventTime - s.mTriggerTime) / 100 * 100 := by
  unfold DigitsWriteoutBuffer.depositOffset
  rw [usub64_eq _ _ htime hrange]
  apply Nat.mod_eq_of_lt
  have := Nat.div_mul_le_self (s.mLastEventTime - s.mTriggerTime) 100
  omega

/-- One deposit, bin by bin. -/
theorem addDigits_getElem (s : DigitsWriteoutBuffer) (towerID : Nat) (digList : List LabeledDigit)
    (hfut : s.mTimedDigitsFuture.length = s.mBufferSize)
    (hd : digList.length = s.mBufferSize) :
    ∃ s1, s.addDigits towerID digList = Outcome.done s1 ∧
      s1.mTimedDigitsFuture.length = s1.mBufferSize ∧ s1.mBufferSize = s.mBufferSize ∧
      s1.depositOffset = s.depositOffset ∧
      ∀ (i : Nat) (b : DigitTimebin) (dig : LabeledDigit), s.mTimedDigitsFuture[i]? = some b →
        digList[i]? = some dig →
        s1.mTimedDigitsFuture[i]? = some { b with
          mDigitMap := pushDigit towerID (dig.shifted s.depositOffset) b.mDigitMap } := by
  obtain ⟨out, hout⟩ := addDigitsLoop_done towerID s.depositOffset s.mBufferSize
    s.mTimedDigitsFuture digList (by omega) (by omega)
  have hcall : s.addDigits towerID digList = Outcome.done { s with mTimedDigitsFuture := out } := by
    unfold DigitsWriteoutBuffer.addDigits
    rw [hout]; rfl
  refine ⟨_, hcall, ?_, rfl, rfl, ?_⟩
  · simp only
    rw [addDigitsLoop_length _ _ _ _ _ _ hout, hfut]
  · intro i b dig hb hdig
    have hi : i < s.mBufferSize := by
      rw [← hfut]
      exact (List.getElem?_eq_some_iff.mp hb).1
    exact addDigitsLoop_getElem towerID s.depositOffset s.mBufferSize _ _ out hout i b dig hi hb hdig

/-- C5, deposit alignment and order.  The future queue has `mBufferSize` bins, the
trigger time is not after the last event time, and two lists of `mBufferSize` digits
are deposited one after the other for the same tower.  Both calls return.  After the
first one the list of the tower in future bin `i` is its previous list (the empty list
when the tower had no entry) followed by digit `i` of the first list, its time stamp
increased by `(mLastEventTime - mTriggerTime) / 100 * 100`; after the second one it is
followed by digit `i` of the second list as well, in that order. -/
theorem deposit_alignment (s : DigitsWriteoutBuffer) (towerID : Nat)
    (digList digList2 : List LabeledDigit)
    (hfut : s.mTimedDigitsFuture.length = s.mBufferSize)
    (hd : digList.length = s.mBufferSize) (hd2 : digList2.length = s.mBufferSize)
    (htime : s.mTriggerTime ≤ s.mLastEventTime) (hrange : s.mLastEventTime < U64) :
    ∃ s1 s2, s.addDigits towerID digList = Outcome.done s1 ∧
      s1.addDigits towerID digList2 = Outcome.done s2 ∧
      ∀ (i : Nat) (b : DigitTimebin) (dig dig2 : LabeledDigit),
        s.mTimedDigitsFuture[i]? = some b → digList[i]? = some dig → digList2[i]? = some dig2 →
        ∃ b1 b2, s1.mTimedDigitsFuture[i]? = some b1 ∧ s2.mTimedDigitsFuture[i]? = some b2 ∧
          findTower towerID b1.mDigitMap
            = some ((findTower towerID b.mDigitMap).getD [] ++
                [dig.shifted ((s.mLastEventTime - s.mTriggerTime) / 100 * 100)]) ∧
          findTower towerID b2.mDigitMap
            = some ((findTower towerID b.mDigitMap).getD [] ++
                [dig.shifted ((s.mLastEventTime - s.mTriggerTime) / 100 * 100),
                 dig2.shifted ((s.mLastEventTime - s.mTriggerTime) / 100 * 100)]) := by
  obtain ⟨s1, h1, hlen1, hsz1, hoff1, hget1⟩ := addDigits_getElem s towerID digList hfut hd
  obtain ⟨s2, h2, _, _, _, hget2⟩ := addDigits_getElem s1 towerID digList2 hlen1 (by rw [hsz1]; exact hd2)
  refine ⟨s1, s2, h1, h2, ?_⟩
  intro i b dig dig2 hb hdig hdig2
  have e1 := hget1 i b dig hb hdig
  have e2 := hget2 i _ dig2 e1 hdig2
  refine ⟨_, _, e1, e2, ?_, ?_⟩
  · simp only [findTower_pushDigit, depositOffset_eq s htime hrange]
  · simp only [findTower_pushDigit, hoff1, depositOffset_eq s htime hrange, Option.getD_some,
      List.append_assoc, List.singleton_append]

theorem addDigitsLoop_short (towerID offset : Nat) : ∀ (todo : Nat) (future : List DigitTimebin)
    (digList : List LabeledDigit), todo ≤ future.length → digList.length < todo →
    addDigitsLoop towerID offset todo future digList = Outcome.fault Fault.outOfRange := by
  intro todo
  induction todo with
  | zero => intro _ _ _ h; omega
  | succ k ih =>
    intro future digList hf hd
    cases future with
    | nil => simp at hf
    | cons b future =>
      cases digList with
      | nil => simp [addDigitsLoop]
      | cons d digList =>
        simp only [addDigitsLoop]
        rw [ih future digList (by simpa using hf) (by simpa using hd)]
        rfl

theorem addDigitsLoop_take (towerID offset : Nat) : ∀ (todo : Nat) (future : List DigitTimebin)
    (digList : List LabeledDigit),
    addDigitsLoop towerID offset todo future (digList.take todo)
      = addDigitsLoop towerID offset todo future digList := by
  intro todo
  induction todo with
  | zero => intro _ _; simp [addDigitsLoop]
  | succ k ih =>
    intro future digList
    cases future with
    | nil => simp [addDigitsLoop]
    | cons b future =>
      cases digList with
      | nil => simp
      | cons d digList => simp only [List.take_succ_cons, addDigitsLoop, ih]

/-- C6 as the code has it.  On a buffer whose future queue has `mBufferSize` bins,
`addDigits` fails exactly when the list is shorter than `mBufferSize`, and the failure
is the exception of `digList.at`.  A list of `mBufferSize` digits or more is accepted;
of a longer list the first `mBufferSize` digits are deposited and the others ignored. -/
theorem addDigits_fails_iff_short (s : DigitsWriteoutBuffer) (towerID : Nat)
    (digList : List LabeledDigit) (hfut : s.mTimedDigitsFuture.length = s.mBufferSize) :
    ((s.addDigits towerID digList).isFault = true ↔ digList.length < s.mBufferSize) ∧
    (digList.length < s.mBufferSize →
      s.addDigits towerID digList = Outcome.fault Fault.outOfRange) ∧
    (s.mBufferSize ≤ digList.length →
      ∃ s1, s.addDigits towerID digList = Outcome.done s1 ∧
        s.addDigits towerID (digList.take s.mBufferSize) = Outcome.done s1) := by
  have hshort : digList.length < s.mBufferSize →
      s.addDigits towerID digList = Outcome.fault Fault.outOfRange := by
    intro h
    unfold DigitsWriteoutBuffer.addDigits
    rw [addDigitsLoop_short towerID _ _ _ _ (by omega) h]
    rfl
  have hlong : s.mBufferSize ≤ digList.length →
      ∃ s1, s.addDigits towerID digList = Outcome.done s1 ∧
        s.addDigits towerID (digList.take s.mBufferSize) = Outcome.done s1 := by
    intro h
    obtain ⟨out, hout⟩ := addDigitsLoop_done towerID s.depositOffset s.mBufferSize
      s.mTimedDigitsFuture digList (by omega) h
    refine ⟨{ s with mTimedDigitsFuture := out }, ?_, ?_⟩
    · unfold DigitsWriteoutBuffer.addDigits
      rw [hout]; rfl
    · unfold DigitsWriteoutBuffer.addDigits
      rw [addDigitsLoop_take, hout]; rfl
  refine ⟨⟨?_, ?_⟩, hshort, hlong⟩
  · intro hfault
    by_contra hnot
    obtain ⟨s1, h1, _⟩ := hlong (by omega)
    rw [h1] at hfault
    simp [Outcome.isFault] at hfault
  · intro h
    rw [hshort h]; rfl

theorem stampAll_marks (l : List DigitTimebin) : ∀ base,
    (stampAll base l).map DigitTimebin.marks = l.map DigitTimebin.marks := by
  induction l with
  | nil => intro base; rfl
  | cons b rest ih => intro base; simp [stampAll, ih, DigitTimebin.marks]

theorem stampAll_recordMode (l : List DigitTimebin) : ∀ base, ∀ b ∈ stampAll base l,
    b.mRecordMode = true := by
  induction l with
  | nil => intro base b hb; simp [stampAll] at hb
  | cons a rest ih =>
    intro base b hb
    simp only [stampAll, List.mem_cons] at hb
    rcases hb with hb | hb
    · rw [hb]
    · exact ih _ b hb

theorem stampAll_head (r : InteractionTimeRecord) (l : List DigitTimebin) (base : Nat)
    (h : TrigHead r l) : TrigHead r (stampAll base l) := by
  obtain ⟨t, rest, hl, hT, hR⟩ := h
  subst hl
  exact ⟨_, _, rfl, hT, hR⟩

theorem stampAll_endLast (l : List DigitTimebin) (base : Nat) (h : EndLast l) :
    EndLast (stampAll base l) := by
  obtain ⟨front, last, hl, hE⟩ := h
  subst hl
  obtain ⟨base2, h2⟩ := stampAll_append front [last] base
  rw [h2]
  exact ⟨stampAll base front, _, rfl, hE⟩

/-- After a stamping pass the time stamps go up by 100 from bin to bin, modulo `2 ^ 64`. -/
theorem stampAll_chain (l : List DigitTimebin) : ∀ base,
    List.Chain' (fun a b : DigitTimebin => b.mTimestamp = (a.mTimestamp + 100) % U64)
      (stampAll base l) := by
  induction l with
  | nil => intro base; simp [stampAll]
  | cons a rest ih =>
    intro base
    cases rest with
    | nil => simp [stampAll]
    | cons c rest2 =>
      have := ih ((base + 100) % U64)
      simp only [stampAll] at this ⊢
      exact List.chain'_cons.mpr ⟨rfl, this⟩

/-- What a stamping pass writes depends on the first time stamp and on the number of
bins only. -/
theorem stampAll_stamp_congr (l : List DigitTimebin) : ∀ (l2 : List DigitTimebin) (base : Nat),
    l.length = l2.length →
    (stampAll base l).map DigitTimebin.stamp = (stampAll base l2).map DigitTimebin.stamp := by
  induction l with
  | nil =>
    intro l2 base h
    cases l2 with
    | nil => rfl
    | cons _ _ => simp at h
  | cons a rest ih =>
    intro l2 base h
    cases l2 with
    | nil => simp at h
    | cons c rest2 =>
      simp only [stampAll, List.map_cons, List.cons.injEq]
      exact ⟨rfl, ih rest2 _ (by simpa using h)⟩

theorem preTriggerFires_congr (s s1 : DigitsWriteoutBuffer) (eventTime : Nat)
    (h1 : s1.mLiveTime = s.mLiveTime) (h2 : s1.mBusyTime = s.mBusyTime)
    (h3 : s1.mPreTriggerTime = s.mPreTriggerTime) (h4 : s1.mTriggerTime = s.mTriggerTime) :
    s1.preTriggerFires eventTime = s.preTriggerFires eventTime := by
  unfold DigitsWriteoutBuffer.preTriggerFires
  rw [h1, h2, h3, h4]

/-- The trigger branch, when it is taken on a non-empty future queue. -/
theorem triggerStep_fires (s : DigitsWriteoutBuffer) (record : InteractionTimeRecord)
    (hne : s.mTimedDigitsFuture ≠ []) (h : s.triggerFires record.timeNS = true) :
    s.triggerStep record = Outcome.done
      { s with
        mTriggerTime := record.timeNS
        mTimedDigitsFuture := stampAll (stampBase record.timeNS)
          (onBack (fun b => { b with mEndWindow := true })
            (onFront (fun b => { b with mTriggerColl := true, mInterRecord := some record })
              s.mTimedDigitsFuture)) } := by
  obtain ⟨front, rest, hf⟩ := List.exists_cons_of_ne_nil hne
  unfold DigitsWriteoutBuffer.triggerStep
  simp only [h, if_true]
  rw [hf]

theorem marked_head_last (record : InteractionTimeRecord) (l : List DigitTimebin) (hne : l ≠ []) :
    TrigHead record (onBack (fun b => { b with mEndWindow := true })
      (onFront (fun b => { b with mTriggerColl := true, mInterRecord := some record }) l)) ∧
    EndLast (onBack (fun b => { b with mEndWindow := true })
      (onFront (fun b => { b with mTriggerColl := true, mInterRecord := some record }) l)) := by
  obtain ⟨t, rest, hl⟩ := List.exists_cons_of_ne_nil hne
  subst hl
  simp only [onFront]
  rcases List.eq_nil_or_concat
    ({ t with mTriggerColl := true, mInterRecord := some record } :: rest) with h0 | ⟨front, last, hfl⟩
  · simp at h0
  · rw [List.concat_eq_append] at hfl
    rw [hfl, onBack_concat]
    refine ⟨?_, front, _, rfl, rfl⟩
    cases front with
    | nil =>
      simp only [List.nil_append, List.cons.injEq] at hfl
      refine ⟨_, [], rfl, ?_, ?_⟩
      · rw [← hfl.1]
      · rw [← hfl.1]
    | cons a front2 =>
      simp only [List.cons_append, List.cons.injEq] at hfl
      refine ⟨a, front2 ++ [({ last with mEndWindow := true } : DigitTimebin)], rfl, ?_, ?_⟩
      · rw [← hfl.1]
      · rw [← hfl.1]

theorem triggerFires_iff (s : DigitsWriteoutBuffer) (eventTime : Nat)
    (het : s.mTriggerTime ≤ eventTime) (hrange : eventTime < U64)
    (hcfg : s.mLiveTime + s.mBusyTime < U64) :
    s.triggerFires eventTime = true ↔ s.mLiveTime + s.mBusyTime ≤ eventTime - s.mTriggerTime := by
  unfold DigitsWriteoutBuffer.triggerFires
  rw [usub64_eq _ _ het hrange, Nat.mod_eq_of_lt hcfg]
  simp

/-- The marks of the bins after one bin move: the future queue is shifted by one and
ends in an unmarked bin; every bin carries marks that a bin had before, or none. -/
theorem moveFront_marks (s s1 : DigitsWriteoutBuffer) (h : s.moveFront = Outcome.done s1) :
    s.mTimedDigitsFuture ≠ [] ∧
    s1.mTimedDigitsFuture.map DigitTimebin.marks
      = (s.mTimedDigitsFuture.map DigitTimebin.marks).drop 1 ++ [(false, false)] ∧
    (∀ b ∈ s1.mTimedDigitsPast, b ∈ s.mTimedDigitsPast ∨ b ∈ s.mTimedDigitsFuture) := by
  unfold DigitsWriteoutBuffer.moveFront at h
  cases hf : s.mTimedDigitsFuture with
  | nil => rw [hf] at h; simp at h
  | cons front rest =>
    rw [hf] at h
    simp only at h
    obtain ⟨r, hr, hs1⟩ := Outcome.andThen_eq_done.mp h
    simp only [Outcome.done.injEq] at hs1
    subst hs1
    refine ⟨by simp, ?_, ?_⟩
    · rcases flushOnEndWindow_done _ r hr with h1 | ⟨oldest, tl, _, h1⟩
      · subst h1; simp [DigitTimebin.marks]
      · subst h1
        simp [DigitTimebin.marks, Function.comp_def]
    · rcases flushOnEndWindow_done _ r hr with h1 | ⟨oldest, tl, _, h1⟩
      · subst h1
        intro b hb
        have := dropOldest_subset _ _ b hb
        simp only [List.mem_append, List.mem_singleton] at this
        rcases this with h2 | h2
        · exact Or.inl h2
        · right; rw [h2]; exact List.mem_cons_self _ _
      · subst h1
        intro b hb
        simp at hb

/-- The marks a bin may carry after some bin moves, given the queues before them. -/
theorem forwardLoop_marks (todo : Nat) : ∀ (s s1 : DigitsWriteoutBuffer),
    forwardLoop todo s = Outcome.done s1 →
    (∃ j, j ≤ s.mTimedDigitsFuture.length ∧
      s1.mTimedDigitsFuture.map DigitTimebin.marks
        = (s.mTimedDigitsFuture.map DigitTimebin.marks).drop j ++ List.replicate j (false, false)) ∧
    (∀ b ∈ s1.mTimedDigitsPast, b.marks = (false, false) ∨
      ∃ b0, (b0 ∈ s.mTimedDigitsPast ∨ b0 ∈ s.mTimedDigitsFuture) ∧ b0.marks = b.marks) := by
  induction todo with
  | zero =>
    intro s s1 h
    simp only [forwardLoop, Outcome.done.injEq] at h
    subst h
    exact ⟨⟨0, Nat.zero_le _, by simp⟩, fun b hb => Or.inr ⟨b, Or.inl hb, rfl⟩⟩
  | succ k ih =>
    intro s s1 h
    unfold forwardLoop at h
    cases hh : s.mTimedDigitsFuture.head? with
    | none => rw [hh] at h; simp at h
    | some front =>
      rw [hh] at h
      simp only at h
      by_cases hr : front.mRecordMode = true
      · simp only [hr, if_true] at h
        obtain ⟨s2, hs2, hrest⟩ := Outcome.andThen_eq_done.mp h
        obtain ⟨hne, hm, hp⟩ := moveFront_marks s s2 hs2
        obtain ⟨⟨j, hj, hjm⟩, hpast⟩ := ih s2 s1 hrest
        have hlen2 : s2.mTimedDigitsFuture.length = s.mTimedDigitsFuture.length :=
          (moveFront_frame s s2 hs2).2.2.2.2.2.2.1
        have hpos : 0 < s.mTimedDigitsFuture.length := List.length_pos.mpr hne
        refine ⟨?_, ?_⟩
        · rw [hm] at hjm
          by_cases hlt : j < s.mTimedDigitsFuture.length
          · refine ⟨j + 1, by omega, ?_⟩
            rw [hjm, List.drop_append_of_le_length (by simp; omega)]
            have hrep : ((false, false) :: List.replicate j (false, false) : List (Bool × Bool))
                = List.replicate j (false, false) ++ [(false, false)] := by
              rw [← List.replicate_succ, List.replicate_succ']
            simp [List.replicate_succ', List.drop_drop, Nat.add_comm, hrep]
          · have hje : j = s.mTimedDigitsFuture.length := by omega
            refine ⟨j, by omega, ?_⟩
            rw [hjm]
            have e1 : List.drop j (List.drop 1 (List.map DigitTimebin.marks s.mTimedDigitsFuture)
                ++ [(false, false)]) = [] := by
              apply List.drop_eq_nil_of_le
              simp; omega
            have e2 : List.drop j (List.map DigitTimebin.marks s.mTimedDigitsFuture) = [] := by
              apply List.drop_eq_nil_of_le
              simp; omega
            rw [e1, e2]
        · intro b hb
          rcases hpast b hb with h0 | ⟨b0, hb0, hmk⟩
          · exact Or.inl h0
          · rcases hb0 with hb0 | hb0
            · exact Or.inr ⟨b0, hp b0 hb0, hmk⟩
            · have hmem : b0.marks ∈ s2.mTimedDigitsFuture.map DigitTimebin.marks :=
                List.mem_map_of_mem _ hb0
              rw [hm, List.mem_append] at hmem
              rcases hmem with hmem | hmem
              · have hmem2 := List.mem_of_mem_drop hmem
                obtain ⟨b1, hb1, hb1m⟩ := List.mem_map.mp hmem2
                exact Or.inr ⟨b1, Or.inr hb1, by rw [hb1m, hmk]⟩
              · simp only [List.mem_singleton] at hmem
                exact Or.inl (by rw [← hmk, hmem])
      · simp only [hr, Bool.false_eq_true, if_false, Outcome.done.injEq] at h
        subst h
        exact ⟨⟨0, Nat.zero_le _, by simp⟩, fun b hb => Or.inr ⟨b, Or.inl hb, rfl⟩⟩

theorem preTriggerStep_future (s : DigitsWriteoutBuffer) (eventTime : Nat) :
    (s.preTriggerStep eventTime).mTimedDigitsFuture
      = if s.preTriggerFires eventTime then stampAll (stampBase eventTime) s.mTimedDigitsFuture
        else s.mTimedDigitsFuture := by
  unfold DigitsWriteoutBuffer.preTriggerStep
  split <;> rfl

theorem forwardLoop_future_ne (todo : Nat) (s s1 : DigitsWriteoutBuffer)
    (h : forwardLoop todo s = Outcome.done s1) (hne : s.mTimedDigitsFuture ≠ []) :
    s1.mTimedDigitsFuture ≠ [] := by
  have hlen := (forwardLoop_frame todo s s1 h).2.2.2.2.2.2.1
  intro h0
  rw [h0] at hlen
  exact hne (List.length_eq_zero.mp (by simpa using hlen.symm))

/-- C7, trigger evaluation.  The future queue is not empty and the event time of the
record is not before the trigger time (and the times are in the range of their type).
`forwardMarker` returns whenever the buffer size is at least 1, and whenever it returns:
if `eventTime - mTriggerTime ≥ mLiveTime + mBusyTime`, the trigger time is the event time
afterwards, the front future bin is a trigger bin that holds the record, the back
future bin is a window-end bin and every future bin is in record mode; otherwise the
trigger time is unchanged and no bin is newly marked: the marks of the future queue are
the old ones shifted by the number `j` of bins moved, with `j` unmarked bins at the
back, and every past bin is unmarked or carries the marks of a bin that was there. -/
theorem trigger_evaluation (s : DigitsWriteoutBuffer) (record : InteractionTimeRecord)
    (hne : s.mTimedDigitsFuture ≠ []) (het : s.mTriggerTime ≤ record.timeNS)
    (hrange : record.timeNS < U64) (hcfg : s.mLiveTime + s.mBusyTime < U64) :
    (1 ≤ s.mBufferSize → ∃ s3, s.forwardMarker record = Outcome.done s3) ∧
    ∀ s3, s.forwardMarker record = Outcome.done s3 →
      (s.mLiveTime + s.mBusyTime ≤ record.timeNS - s.mTriggerTime →
        s3.mTriggerTime = record.timeNS ∧
        (∃ front rest, s3.mTimedDigitsFuture = front :: rest ∧ front.mTriggerColl = true ∧
          front.mInterRecord = some record) ∧
        (∃ front back, s3.mTimedDigitsFuture = front ++ [back] ∧ back.mEndWindow = true) ∧
        ∀ b ∈ s3.mTimedDigitsFuture, b.mRecordMode = true) ∧
      (record.timeNS - s.mTriggerTime < s.mLiveTime + s.mBusyTime →
        s3.mTriggerTime = s.mTriggerTime ∧
        (∃ j, j ≤ s.mTimedDigitsFuture.length ∧
          s3.mTimedDigitsFuture.map DigitTimebin.marks
            = (s.mTimedDigitsFuture.map DigitTimebin.marks).drop j
                ++ List.replicate j (false, false)) ∧
        ∀ b ∈ s3.mTimedDigitsPast, b.marks = (false, false) ∨
          ∃ b0, (b0 ∈ s.mTimedDigitsPast ∨ b0 ∈ s.mTimedDigitsFuture) ∧ b0.marks = b.marks) := by
  refine ⟨fun hn => forwardMarker_done s record hne hn, ?_⟩
  intro s3 h
  obtain ⟨s1, s2, h1, h2, h3⟩ := forwardMarker_stages s s3 record h
  obtain ⟨_, a2, a3, _, a5, _, _, _⟩ := forwardLoop_frame _ s s1 h1
  have hfires := triggerFires_congr s s1 record.timeNS a2 a3 a5
  have hne1 := forwardLoop_future_ne _ s s1 h1 hne
  obtain ⟨_, _, _, _, c5, _, c7, _⟩ := preTriggerStep_frame s2 record.timeNS
  constructor
  · intro hge
    have hf : s1.triggerFires record.timeNS = true := by
      rw [hfires]; exact (triggerFires_iff s _ het hrange hcfg).mpr hge
    rw [triggerStep_fires s1 record hne1 hf] at h2
    simp only [Outcome.done.injEq] at h2
    obtain ⟨hhead, hlast⟩ := marked_head_last record s1.mTimedDigitsFuture hne1
    have hh2 : TrigHead record s2.mTimedDigitsFuture := by
      rw [← h2]; exact stampAll_head record _ _ hhead
    have hl2 : EndLast s2.mTimedDigitsFuture := by
      rw [← h2]; exact stampAll_endLast _ _ hlast
    have hr2 : ∀ b ∈ s2.mTimedDigitsFuture, b.mRecordMode = true := by
      rw [← h2]; exact stampAll_recordMode _ _
    subst h3
    simp only
    rw [c5, preTriggerStep_future]
    refine ⟨by rw [← h2], ?_, ?_, ?_⟩
    · split
      · exact stampAll_head record _ _ hh2
      · exact hh2
    · split
      · exact stampAll_endLast _ _ hl2
      · exact hl2
    · split
      · exact stampAll_recordMode _ _
      · exact hr2
  · intro hlt
    have hf : s1.triggerFires record.timeNS = false := by
      rw [hfires]
      cases hc : s.triggerFires record.timeNS with
      | false => rfl
      | true =>
        have := (triggerFires_iff s _ het hrange hcfg).mp hc
        omega
    rw [triggerStep_skip s1 record hf] at h2
    simp only [Outcome.done.injEq] at h2
    subst h2
    obtain ⟨⟨j, hj, hjm⟩, hpast⟩ := forwardLoop_marks _ s s1 h1
    subst h3
    simp only
    rw [c5, c7, preTriggerStep_future]
    refine ⟨a5, ⟨j, hj, ?_⟩, hpast⟩
    split
    · rw [stampAll_marks]; exact hjm
    · exact hjm

/-- The step of the time stamps in machine arithmetic.  `forwardMarker` returns whenever
the future queue is not empty and the buffer size is at least 1.  Whenever it returns
and the trigger branch or the pre-trigger branch has stamped the future queue, each
future bin but the first has the time stamp of the bin before it plus 100, modulo
`2 ^ 64`: the time stamps are `unsigned long` values and `timeStamp += 100` wraps
around. -/
theorem timestamp_step (s : DigitsWriteoutBuffer) (record : InteractionTimeRecord) :
    (s.mTimedDigitsFuture ≠ [] → 1 ≤ s.mBufferSize →
      ∃ s3, s.forwardMarker record = Outcome.done s3) ∧
    ∀ s3, s.forwardMarker record = Outcome.done s3 →
      (s.triggerFires record.timeNS = true ∨ s.preTriggerFires record.timeNS = true) →
      List.Chain' (fun a b : DigitTimebin => b.mTimestamp = (a.mTimestamp + 100) % U64)
        s3.mTimedDigitsFuture := by
  refine ⟨fun hne hn => forwardMarker_done s record hne hn, ?_⟩
  intro s3 h hstamp
  obtain ⟨s1, s2, h1, h2, h3⟩ := forwardMarker_stages s s3 record h
  obtain ⟨_, a2, a3, a4, a5, _, _, _⟩ := forwardLoop_frame _ s s1 h1
  have hfires := triggerFires_congr s s1 record.timeNS a2 a3 a5
  have hpre := preTriggerFires_congr s s1 record.timeNS a2 a3 a4 a5
  subst h3
  simp only
  rw [preTriggerStep_future]
  cases hc : s.triggerFires record.timeNS with
  | true =>
    have hf : s1.triggerFires record.timeNS = true := by rw [hfires]; exact hc
    have hchain : List.Chain' (fun a b : DigitTimebin => b.mTimestamp = (a.mTimestamp + 100) % U64)
        s2.mTimedDigitsFuture := by
      unfold DigitsWriteoutBuffer.triggerStep at h2
      simp only [hf, if_true] at h2
      cases hq : s1.mTimedDigitsFuture with
      | nil => rw [hq] at h2; simp at h2
      | cons front rest =>
        rw [hq] at h2
        simp only [Outcome.done.injEq] at h2
        rw [← h2]
        exact stampAll_chain _ _
    split
    · exact stampAll_chain _ _
    · exact hchain
  | false =>
    have hf : s1.triggerFires record.timeNS = false := by rw [hfires]; exact hc
    rw [triggerStep_skip s1 record hf] at h2
    simp only [Outcome.done.injEq] at h2
    subst h2
    rw [hc] at hstamp
    simp only [Bool.false_eq_true, false_or] at hstamp
    rw [hpre, hstamp]
    simp only [if_true]
    exact stampAll_chain _ _

/-- C10, idempotent re-stamping.  `forwardMarker` returns whenever the future queue is
not empty and the buffer size is at least 1.  Whenever it returns and both the trigger
branch and the pre-trigger branch were taken (the pre-trigger condition is evaluated
with the trigger time the trigger branch has just set), the time stamps and the
record-mode flags of the future bins are those that the pre-trigger stamping pass
alone, `stampAll (stampBase eventTime)`, writes to the future queue as the bin-moving
loop left it, and also those it writes to the future queue as it was at the call. -/
theorem restamp_idempotent (s : DigitsWriteoutBuffer) (record : InteractionTimeRecord) :
    (s.mTimedDigitsFuture ≠ [] → 1 ≤ s.mBufferSize →
      ∃ s3, s.forwardMarker record = Outcome.done s3) ∧
    ∀ s1 s3, forwardLoop (s.sampleDifference record.timeNS).toNat s = Outcome.done s1 →
      s.forwardMarker record = Outcome.done s3 →
      s.triggerFires record.timeNS = true →
      ({ s with mTriggerTime := record.timeNS } : DigitsWriteoutBuffer).preTriggerFires
        record.timeNS = true →
      s3.mTimedDigitsFuture.map DigitTimebin.stamp
        = (stampAll (stampBase record.timeNS) s1.mTimedDigitsFuture).map DigitTimebin.stamp ∧
      s3.mTimedDigitsFuture.map DigitTimebin.stamp
        = (stampAll (stampBase record.timeNS) s.mTimedDigitsFuture).map DigitTimebin.stamp := by
  refine ⟨fun hne hn => forwardMarker_done s record hne hn, ?_⟩
  intro s1 s3 hloop h hc hpre
  obtain ⟨s1b, s2, h1, h2, h3⟩ := forwardMarker_stages s s3 record h
  rw [hloop] at h1
  simp only [Outcome.done.injEq] at h1
  subst h1
  obtain ⟨_, a2, a3, a4, a5, _, a7, _⟩ := forwardLoop_frame _ s s1 hloop
  have hf : s1.triggerFires record.timeNS = true := by
    rw [triggerFires_congr s s1 record.timeNS a2 a3 a5]; exact hc
  obtain ⟨_, b2, b3, b4, b5, _, _⟩ := triggerStep_frame s1 s2 record h2
  have htrig2 : s2.mTriggerTime = record.timeNS := by
    unfold DigitsWriteoutBuffer.triggerStep at h2
    simp only [hf, if_true] at h2
    cases hq : s1.mTimedDigitsFuture with
    | nil => rw [hq] at h2; simp at h2
    | cons front rest =>
      rw [hq] at h2
      simp only [Outcome.done.injEq] at h2
      rw [← h2]
  have hpre2 : s2.preTriggerFires record.timeNS = true := by
    rw [← hpre]
    apply preTriggerFires_congr
    · rw [b2, a2]
    · rw [b3, a3]
    · rw [b4, a4]
    · exact htrig2
  subst h3
  simp only
  rw [preTriggerStep_future, hpre2]
  simp only [if_true]
  exact ⟨stampAll_stamp_congr _ _ _ b5, stampAll_stamp_congr _ _ _ (by rw [b5, a7])⟩

/-! ## Concrete runs -/

/-- Witness of `queue_size_invariant`: a buffer of two bins, a trigger, a deposit, a
`reserve` and a further `forwardMarker`; after the first three calls. -/
theorem queue_size_invariant_witness :
    (1 ≤ 2 ∧ ∀ c ∈ [Call.forwardMarker ⟨1000, 7⟩, Call.addDigits 42 [⟨5, 1⟩, ⟨6, 2⟩],
        Call.reserve, Call.forwardMarker ⟨1100, 8⟩], c.keepsQueue 2 = true) ∧
    ∃ s, (DigitsWriteoutBuffer.create 2 ⟨1000, 0, 0⟩).run
        ([Call.forwardMarker ⟨1000, 7⟩, Call.addDigits 42 [⟨5, 1⟩, ⟨6, 2⟩],
          Call.reserve, Call.forwardMarker ⟨1100, 8⟩].take 3) = Outcome.done s ∧
      s.mTimedDigitsFuture.length = 2 :=
  ⟨⟨by decide, by decide⟩,
    queue_size_invariant 2 ⟨1000, 0, 0⟩ _ 3 (by decide) (by decide)⟩

/-- Witness of `past_queue_bound`: after the first three calls of `exampleCalls` the
past queue holds one bin. -/
theorem past_queue_bound_witness :
    (DigitsWriteoutBuffer.create 2 ⟨1000, 0, 0⟩).run (exampleCalls.take 3)
      = Outcome.done exampleAfterThree ∧
    exampleAfterThree.mTimedDigitsPast.length ≤ 2 :=
  ⟨by decide, past_queue_bound 2 ⟨1000, 0, 0⟩ exampleCalls 3 exampleAfterThree (by decide)⟩

/-- An instance of `window_single_flush`: two bins, live time 300, records at 300, 400
and 500; the trigger fires at 300 only and the window-end bin is moved at 500. -/
theorem window_single_flush_witness :
    (1 ≤ 2 ∧
      (DigitsWriteoutBuffer.create 2 ⟨300, 0, 0⟩).triggersOf [⟨300, 7⟩, ⟨400, 8⟩, ⟨500, 9⟩]
        = [⟨300, 7⟩] ∧
      ∃ b ∈ (DigitsWriteoutBuffer.create 2 ⟨300, 0, 0⟩).movedBy [⟨300, 7⟩, ⟨400, 8⟩, ⟨500, 9⟩],
        b.mEndWindow = true) ∧
    ∃ s view,
      (DigitsWriteoutBuffer.create 2 ⟨300, 0, 0⟩).run
          ([⟨300, 7⟩, ⟨400, 8⟩, ⟨500, 9⟩].map Call.forwardMarker) = Outcome.done s ∧
      s.mDigitStream = [(view, some ⟨300, 7⟩)] ∧ view.size = 2 ∧
      (∃ first rest, view.bins = first :: rest ∧ first.mTriggerColl = true ∧
        first.mInterRecord = some ⟨300, 7⟩) ∧
      (∃ front last, view.bins = front ++ [last] ∧ last.mEndWindow = true) :=
  ⟨⟨by decide, by decide, by decide⟩,
    window_single_flush 2 ⟨300, 0, 0⟩ [⟨300, 7⟩, ⟨400, 8⟩, ⟨500, 9⟩] ⟨300, 7⟩
      (by decide) (by decide) (by decide)⟩

/-- C4 at a failing input.  Three bins, `mLiveTime + mBusyTime = 200`, `forwardMarker`
calls at 200, 300, 400, 500, 600 and 700.  The sink receives two views.  The second one
starts with a bin that is not a trigger bin and holds no record (it was stamped by the
trigger at 400 and kept its record mode through `clear()` at 500), and the record
handed to the sink with it is the empty record of that bin. -/
theorem flush_view_without_trigger_bin :
    (DigitsWriteoutBuffer.create 3 ⟨200, 0, 0⟩).run (markerCalls [200, 300, 400, 500, 600, 700])
      = Outcome.done
        { mBufferSize := 3
          mLiveTime := 200
          mBusyTime := 0
          mPreTriggerTime := 0
          mTriggerTime := 600
          mLastEventTime := 700
          mPhase := 0
          mTimedDigitsFuture :=
            [⟨700, true, false, false, none, []⟩, ⟨800, true, true, false, none, []⟩, {}]
          mTimedDigitsPast := []
          mDigitStream :=
            [(⟨[⟨200, true, false, true, some ⟨200, 0⟩, []⟩, ⟨300, true, false, false, none, []⟩,
                ⟨400, true, true, true, some ⟨400, 0⟩, []⟩]⟩, some ⟨200, 0⟩),
             (⟨[⟨500, true, false, false, none, []⟩,
                ⟨600, true, true, true, some ⟨600, 0⟩, []⟩]⟩, none)] } := by
  decide

/-- Witness of `deposit_alignment`: two deposits for tower 42 on `exampleBuffer`, where
the offset is `(1250 - 1000) / 100 * 100 = 200`. -/
theorem deposit_alignment_witness :
    (exampleBuffer.mTimedDigitsFuture.length = exampleBuffer.mBufferSize ∧
      [(⟨5, 1⟩ : LabeledDigit), ⟨6, 2⟩].length = exampleBuffer.mBufferSize ∧
      [(⟨7, 3⟩ : LabeledDigit), ⟨8, 4⟩].length = exampleBuffer.mBufferSize ∧
      exampleBuffer.mTriggerTime ≤ exampleBuffer.mLastEventTime ∧
      exampleBuffer.mLastEventTime < U64) ∧
    ∃ s1 s2, exampleBuffer.addDigits 42 [⟨5, 1⟩, ⟨6, 2⟩] = Outcome.done s1 ∧
      s1.addDigits 42 [⟨7, 3⟩, ⟨8, 4⟩] = Outcome.done s2 ∧
      ∀ (i : Nat) (b : DigitTimebin) (dig dig2 : LabeledDigit),
        exampleBuffer.mTimedDigitsFuture[i]? = some b →
        [(⟨5, 1⟩ : LabeledDigit), ⟨6, 2⟩][i]? = some dig →
        [(⟨7, 3⟩ : LabeledDigit), ⟨8, 4⟩][i]? = some dig2 →
        ∃ b1 b2, s1.mTimedDigitsFuture[i]? = some b1 ∧ s2.mTimedDigitsFuture[i]? = some b2 ∧
          findTower 42 b1.mDigitMap
            = some ((findTower 42 b.mDigitMap).getD [] ++
                [dig.shifted ((exampleBuffer.mLastEventTime - exampleBuffer.mTriggerTime)
                  / 100 * 100)]) ∧
          findTower 42 b2.mDigitMap
            = some ((findTower 42 b.mDigitMap).getD [] ++
                [dig.shifted ((exampleBuffer.mLastEventTime - exampleBuffer.mTriggerTime)
                  / 100 * 100),
                 dig2.shifted ((exampleBuffer.mLastEventTime - exampleBuffer.mTriggerTime)
                  / 100 * 100)]) :=
  ⟨⟨by decide, by decide, by decide, by decide, by decide⟩,
    deposit_alignment exampleBuffer 42 [⟨5, 1⟩, ⟨6, 2⟩] [⟨7, 3⟩, ⟨8, 4⟩]
      (by decide) (by decide) (by decide) (by decide) (by decide)⟩

/-- C6 at a concrete input: a buffer of one bin accepts a list of two digits.  The call
returns, with the first digit deposited and the second one ignored, although the length
of the list differs from the buffer size: failing is not equivalent to a differing
length. -/
theorem addDigits_accepts_longer_list :
    (DigitsWriteoutBuffer.create 1 ⟨1000, 0, 0⟩).mTimedDigitsFuture.length
      = (DigitsWriteoutBuffer.create 1 ⟨1000, 0, 0⟩).mBufferSize ∧
    (DigitsWriteoutBuffer.create 1 ⟨1000, 0, 0⟩).addDigits 42 [⟨5, 1⟩, ⟨6, 2⟩]
      = Outcome.done
        { DigitsWriteoutBuffer.create 1 ⟨1000, 0, 0⟩ with
          mTimedDigitsFuture := [⟨0, false, false, false, none, [(42, [⟨5, 1⟩])]⟩] } ∧
    ¬ (((DigitsWriteoutBuffer.create 1 ⟨1000, 0, 0⟩).addDigits 42 [⟨5, 1⟩, ⟨6, 2⟩]).isFault = true ↔
        [(⟨5, 1⟩ : LabeledDigit), ⟨6, 2⟩].length
          ≠ (DigitsWriteoutBuffer.create 1 ⟨1000, 0, 0⟩).mBufferSize) := by
  decide

/-- Witness of `addDigits_fails_iff_short`: a list of two digits on a buffer of one bin. -/
theorem addDigits_fails_iff_short_witness :
    (DigitsWriteoutBuffer.create 1 ⟨1000, 0, 0⟩).mTimedDigitsFuture.length
      = (DigitsWriteoutBuffer.create 1 ⟨1000, 0, 0⟩).mBufferSize ∧
    (1 ≤ [(⟨5, 1⟩ : LabeledDigit), ⟨6, 2⟩].length →
      ∃ s1, (DigitsWriteoutBuffer.create 1 ⟨1000, 0, 0⟩).addDigits 42 [⟨5, 1⟩, ⟨6, 2⟩]
          = Outcome.done s1 ∧
        (DigitsWriteoutBuffer.create 1 ⟨1000, 0, 0⟩).addDigits 42
          ([(⟨5, 1⟩ : LabeledDigit), ⟨6, 2⟩].take 1) = Outcome.done s1) :=
  ⟨by decide,
    (addDigits_fails_iff_short (DigitsWriteoutBuffer.create 1 ⟨1000, 0, 0⟩) 42 [⟨5, 1⟩, ⟨6, 2⟩]
      (by decide)).2.2⟩

/-- Witness of `trigger_evaluation`: the record at 1000 on a fresh buffer of two bins
with a live time of 1000; the trigger condition holds. -/
theorem trigger_evaluation_witness :
    ((DigitsWriteoutBuffer.create 2 ⟨1000, 0, 0⟩).mTimedDigitsFuture ≠ [] ∧
      (DigitsWriteoutBuffer.create 2 ⟨1000, 0, 0⟩).mTriggerTime ≤ 1000 ∧ 1000 < U64 ∧
      (DigitsWriteoutBuffer.create 2 ⟨1000, 0, 0⟩).mLiveTime
        + (DigitsWriteoutBuffer.create 2 ⟨1000, 0, 0⟩).mBusyTime < U64) ∧
    ∃ s3, (DigitsWriteoutBuffer.create 2 ⟨1000, 0, 0⟩).forwardMarker ⟨1000, 7⟩ = Outcome.done s3 ∧
      s3.mTriggerTime = 1000 ∧
      (∃ front rest, s3.mTimedDigitsFuture = front :: rest ∧ front.mTriggerColl = true ∧
        front.mInterRecord = some ⟨1000, 7⟩) ∧
      (∃ front back, s3.mTimedDigitsFuture = front ++ [back] ∧ back.mEndWindow = true) ∧
      ∀ b ∈ s3.mTimedDigitsFuture, b.mRecordMode = true :=
  have h := trigger_evaluation (DigitsWriteoutBuffer.create 2 ⟨1000, 0, 0⟩) ⟨1000, 7⟩
    (by decide) (by decide) (by decide) (by decide)
  ⟨⟨by decide, by decide, by decide, by decide⟩,
    (h.1 (by decide)).elim fun s3 h3 => ⟨s3, h3, (h.2 s3 h3).1 (by decide)⟩⟩

/-- C8 at a failing input.  On a fresh buffer of two bins the record at 429496729500
fires the trigger.  `eventTime / 100` is `2 ^ 32 - 1`, which `int(...)` turns into `-1`;
the base `-100` becomes the `unsigned long` value `2 ^ 64 - 100`, the time stamp of the
first bin, and the second one wraps around to 0, which is not the first plus 100. -/
theorem timestamp_step_wraps :
    (DigitsWriteoutBuffer.create 2 ⟨0, 0, 0⟩).triggerFires 429496729500 = true ∧
    (DigitsWriteoutBuffer.create 2 ⟨0, 0, 0⟩).forwardMarker ⟨429496729500, 0⟩
      = Outcome.done
        { mBufferSize := 2
          mLiveTime := 0
          mBusyTime := 0
          mPreTriggerTime := 0
          mTriggerTime := 429496729500
          mLastEventTime := 429496729500
          mPhase := 0
          mTimedDigitsFuture :=
            [⟨18446744073709551516, true, false, true, some ⟨429496729500, 0⟩, []⟩,
             ⟨0, true, true, false, none, []⟩]
          mTimedDigitsPast := []
          mDigitStream := [] } ∧
    ¬ List.Chain' (fun a b : DigitTimebin => b.mTimestamp = a.mTimestamp + 100)
        [⟨18446744073709551516, true, false, true, some ⟨429496729500, 0⟩, []⟩,
         ⟨0, true, true, false, none, []⟩] :=
  ⟨by decide, by decide, by simp⟩

/-- An instance of `timestamp_step`: the pre-trigger branch alone stamps a fresh buffer
of two bins at 850 (live time 1000, pre-trigger time 200). -/
theorem timestamp_step_witness :
    (DigitsWriteoutBuffer.create 2 ⟨1000, 0, 200⟩).preTriggerFires 850 = true ∧
    ∃ s3, (DigitsWriteoutBuffer.create 2 ⟨1000, 0, 200⟩).forwardMarker ⟨850, 7⟩
        = Outcome.done s3 ∧
      List.Chain' (fun a b : DigitTimebin => b.mTimestamp = (a.mTimestamp + 100) % U64)
        s3.mTimedDigitsFuture :=
  have h := timestamp_step (DigitsWriteoutBuffer.create 2 ⟨1000, 0, 200⟩) ⟨850, 7⟩
  ⟨by decide,
    (h.1 (by decide) (by decide)).elim fun s3 h3 => ⟨s3, h3, h.2 s3 h3 (Or.inr (by decide))⟩⟩

/-- C9 at a failing input.  A buffer of two bins after a trigger at 0 and a deposit for
tower 42, then `clear()`.  The channel maps are emptied and the past queue is empty, but
both future bins are still in record mode, the second one still has time stamp 100 and
is still a window-end bin. -/
theorem clear_keeps_stamps :
    (DigitsWriteoutBuffer.create 2 ⟨0, 0, 0⟩).run
        [Call.forwardMarker ⟨0, 7⟩, Call.addDigits 42 [⟨5, 1⟩, ⟨6, 2⟩]]
      = Outcome.done
        { DigitsWriteoutBuffer.create 2 ⟨0, 0, 0⟩ with
          mTimedDigitsFuture :=
            [⟨0, true, false, true, some ⟨0, 7⟩, [(42, [⟨5, 1⟩])]⟩,
             ⟨100, true, true, false, none, [(42, [⟨6, 2⟩])]⟩] } ∧
    (DigitsWriteoutBuffer.create 2 ⟨0, 0, 0⟩).run
        [Call.forwardMarker ⟨0, 7⟩, Call.addDigits 42 [⟨5, 1⟩, ⟨6, 2⟩], Call.clear]
      = Outcome.done
        { DigitsWriteoutBuffer.create 2 ⟨0, 0, 0⟩ with
          mTimedDigitsFuture :=
            [⟨0, true, false, true, some ⟨0, 7⟩, []⟩, ⟨100, true, true, false, none, []⟩] } := by
  decide

/-- Witness of `restamp_idempotent`: with `mPreTriggerTime = mLiveTime + mBusyTime` the
record at 1000 takes both branches on a fresh buffer of two bins. -/
theorem restamp_idempotent_witness :
    ((DigitsWriteoutBuffer.create 2 ⟨1000, 0, 1000⟩).triggerFires 1000 = true ∧
      ({ DigitsWriteoutBuffer.create 2 ⟨1000, 0, 1000⟩ with mTriggerTime := 1000 }
        : DigitsWriteoutBuffer).preTriggerFires 1000 = true) ∧
    ∃ s1 s3,
      forwardLoop ((DigitsWriteoutBuffer.create 2 ⟨1000, 0, 1000⟩).sampleDifference 1000).toNat
        (DigitsWriteoutBuffer.create 2 ⟨1000, 0, 1000⟩) = Outcome.done s1 ∧
      (DigitsWriteoutBuffer.create 2 ⟨1000, 0, 1000⟩).forwardMarker ⟨1000, 7⟩ = Outcome.done s3 ∧
      s3.mTimedDigitsFuture.map DigitTimebin.stamp
        = (stampAll (stampBase 1000) s1.mTimedDigitsFuture).map DigitTimebin.stamp ∧
      s3.mTimedDigitsFuture.map DigitTimebin.stamp = [(1000, true), (1100, true)] :=
  have h := restamp_idempotent (DigitsWriteoutBuffer.create 2 ⟨1000, 0, 1000⟩) ⟨1000, 7⟩
  ⟨⟨by decide, by decide⟩,
    (forwardLoop_done _ (DigitsWriteoutBuffer.create 2 ⟨1000, 0, 1000⟩) (by decide)
      (by decide)).elim fun s1 h1 =>
    (h.1 (by decide) (by decide)).elim fun s3 h3 =>
      ⟨s1, s3, h1, h3, (h.2 s1 s3 h1 h3 (by decide) (by decide)).1,
        (h.2 s1 s3 h1 h3 (by decide) (by decide)).2.trans (by decide)⟩⟩

/-! ## Flushes, the end of the run and the frame of deposits -/

/-- A flush attempt adds at most one call to the log of the sink, with a non-empty view. -/
theorem flushOnEndWindow_sink (s : DigitsWriteoutBuffer) (r : DigitsWriteoutBuffer × Bool)
    (h : s.flushOnEndWindow = Outcome.done r) :
    ∃ added, r.1.mDigitStream = s.mDigitStream ++ added ∧ ∀ call ∈ added, call.1.bins ≠ [] := by
  rcases flushOnEndWindow_done s r h with h1 | ⟨oldest, tl, _, h1⟩
  · subst h1
    exact ⟨[], by simp, by simp⟩
  · subst h1
    exact ⟨[(⟨oldest :: tl⟩, oldest.mInterRecord)], rfl, by simp⟩

theorem moveFront_sink (s s1 : DigitsWriteoutBuffer) (h : s.moveFront = Outcome.done s1) :
    ∃ added, s1.mDigitStream = s.mDigitStream ++ added ∧ ∀ call ∈ added, call.1.bins ≠ [] := by
  unfold DigitsWriteoutBuffer.moveFront at h
  cases hf : s.mTimedDigitsFuture with
  | nil => rw [hf] at h; simp at h
  | cons front rest =>
    rw [hf] at h
    simp only at h
    obtain ⟨r, hr, hs1⟩ := Outcome.andThen_eq_done.mp h
    simp only [Outcome.done.injEq] at hs1
    subst hs1
    have h2 := flushOnEndWindow_sink _ r hr
    simp only at h2
    exact h2

theorem forwardLoop_sink (todo : Nat) : ∀ (s s1 : DigitsWriteoutBuffer),
    forwardLoop todo s = Outcome.done s1 →
    ∃ added, s1.mDigitStream = s.mDigitStream ++ added ∧ ∀ call ∈ added, call.1.bins ≠ [] := by
  induction todo with
  | zero =>
    intro s s1 h
    simp only [forwardLoop, Outcome.done.injEq] at h
    subst h
    exact ⟨[], by simp, by simp⟩
  | succ k ih =>
    intro s s1 h
    unfold forwardLoop at h
    cases hh : s.mTimedDigitsFuture.head? with
    | none => rw [hh] at h; simp at h
    | some front =>
      rw [hh] at h
      simp only at h
      by_cases hr : front.mRecordMode = true
      · simp only [hr, if_true] at h
        obtain ⟨s2, hs2, hrest⟩ := Outcome.andThen_eq_done.mp h
        obtain ⟨a1, ha1, hne1⟩ := moveFront_sink s s2 hs2
        obtain ⟨a2, ha2, hne2⟩ := ih s2 s1 hrest
        refine ⟨a1 ++ a2, by rw [ha2, ha1, List.append_assoc], ?_⟩
        intro call hcall
        rcases List.mem_append.mp hcall with hc | hc
        · exact hne1 call hc
        · exact hne2 call hc
      · simp only [hr, Bool.false_eq_true, if_false, Outcome.done.injEq] at h
        subst h
        exact ⟨[], by simp, by simp⟩

theorem forwardMarker_sink (s s3 : DigitsWriteoutBuffer) (record : InteractionTimeRecord)
    (h : s.forwardMarker record = Outcome.done s3) :
    ∃ added, s3.mDigitStream = s.mDigitStream ++ added ∧ ∀ call ∈ added, call.1.bins ≠ [] := by
  obtain ⟨s1, s2, h1, h2, h3⟩ := forwardMarker_stages s s3 record h
  obtain ⟨added, ha, hne⟩ := forwardLoop_sink _ s s1 h1
  obtain ⟨_, _, _, _, _, _, b7⟩ := triggerStep_frame s1 s2 record h2
  obtain ⟨_, _, _, _, _, _, _, c8⟩ := preTriggerStep_frame s2 record.timeNS
  subst h3
  exact ⟨added, by simp only; rw [c8, b7, ha], hne⟩

theorem finishLoop_sink (todo : Nat) : ∀ (s s1 : DigitsWriteoutBuffer),
    finishLoop todo s = Outcome.done s1 →
    ∃ added, s1.mDigitStream = s.mDigitStream ++ added ∧ ∀ call ∈ added, call.1.bins ≠ [] := by
  induction todo with
  | zero =>
    intro s s1 h
    simp only [finishLoop, Outcome.done.injEq] at h
    subst h
    exact ⟨[], by simp, by simp⟩
  | succ k ih =>
    intro s s1 h
    unfold finishLoop at h
    cases hf : s.mTimedDigitsFuture with
    | nil => rw [hf] at h; simp at h
    | cons front rest =>
      rw [hf] at h
      simp only at h
      split at h
      · simp only [Outcome.done.injEq] at h
        subst h
        exact ⟨[], by simp, by simp⟩
      · obtain ⟨r, hr, h⟩ := Outcome.andThen_eq_done.mp h
        obtain ⟨a1, ha1, hne1⟩ := flushOnEndWindow_sink _ r hr
        simp only at ha1
        split at h
        · simp only [Outcome.done.injEq] at h
          subst h
          exact ⟨a1, ha1, hne1⟩
        · obtain ⟨a2, ha2, hne2⟩ := ih r.1 s1 h
          refine ⟨a1 ++ a2, by rw [ha2, ha1, List.append_assoc], ?_⟩
          intro call hcall
          rcases List.mem_append.mp hcall with hc | hc
          · exact hne1 call hc
          · exact hne2 call hc

/-- With a buffer size of at least 1, `finish()` returns whenever the future queue has
a bin for each of its iterations. -/
theorem finishLoop_done (todo : Nat) : ∀ (s : DigitsWriteoutBuffer),
    todo ≤ s.mTimedDigitsFuture.length → 1 ≤ s.mBufferSize →
    ∃ s1, finishLoop todo s = Outcome.done s1 := by
  induction todo with
  | zero => intro s _ _; exact ⟨s, rfl⟩
  | succ k ih =>
    intro s hlen hn
    cases hf : s.mTimedDigitsFuture with
    | nil => rw [hf] at hlen; simp at hlen
    | cons front rest =>
      unfold finishLoop
      rw [hf]
      simp only
      split
      · exact ⟨s, rfl⟩
      · have hlast := dropOldest_getLast? s.mTimedDigitsPast front s.mBufferSize hn
        have hne := dropOldest_ne_nil s.mTimedDigitsPast front s.mBufferSize hn
        obtain ⟨oldest, tl, hcons⟩ := List.exists_cons_of_ne_nil hne
        simp only [DigitsWriteoutBuffer.flushOnEndWindow, hlast]
        rw [hcons]
        simp only [List.head?_cons]
        by_cases hE : front.mEndWindow = true
        · simp only [hE, if_true, Outcome.andThen_done]
          exact ⟨_, rfl⟩
        · simp only [hE, Bool.false_eq_true, if_false, Outcome.andThen_done]
          apply ih
          · simp only
            rw [hf] at hlen
            simpa using hlen
          · exact hn

/-- C13, the flushed view is never empty.  The buffer size is at least 1.  A
`forwardMarker` call returns whenever the future queue is not empty, and `finish()`
returns whenever the future queue has `mBufferSize` bins or more: reading the front and
the back of the past queue is defined at every flush.  Whenever one of the two calls
returns, the log of the sink is the old log followed by the `fill` calls made during
the call, and the view of each of them holds at least one bin: the span has an entry,
and it points at a bin of the past queue. -/
theorem flushed_view_nonempty (s : DigitsWriteoutBuffer) (hn : 1 ≤ s.mBufferSize) :
    (∀ record : InteractionTimeRecord,
      (s.mTimedDigitsFuture ≠ [] → ∃ s1, s.forwardMarker record = Outcome.done s1) ∧
      ∀ s1, s.forwardMarker record = Outcome.done s1 →
        ∃ added, s1.mDigitStream = s.mDigitStream ++ added ∧ ∀ call ∈ added, call.1.bins ≠ []) ∧
    (s.mBufferSize ≤ s.mTimedDigitsFuture.length → ∃ s1, s.finish = Outcome.done s1) ∧
    ∀ s1, s.finish = Outcome.done s1 →
      ∃ added, s1.mDigitStream = s.mDigitStream ++ added ∧ ∀ call ∈ added, call.1.bins ≠ [] :=
  ⟨fun record => ⟨fun hne => forwardMarker_done s record hne hn,
      fun s1 h => forwardMarker_sink s s1 record h⟩,
    fun hlen => finishLoop_done s.mBufferSize s hlen hn,
    fun s1 h => finishLoop_sink s.mBufferSize s s1 h⟩

/-- C19, `finish()` on an idle or empty front bin.  The future queue is not empty and
its front bin is not in record mode or has an empty channel map.  Then `finish()`
returns and leaves the whole buffer as it was: both queues, the times and the log of
the sink, to which no call is added. -/
theorem finish_idle_noop (s : DigitsWriteoutBuffer) (front : DigitTimebin)
    (rest : List DigitTimebin) (hf : s.mTimedDigitsFuture = front :: rest)
    (hidle : front.mRecordMode = false ∨ front.mDigitMap = []) :
    s.finish = Outcome.done s := by
  unfold DigitsWriteoutBuffer.finish
  cases hsz : s.mBufferSize with
  | zero => rfl
  | succ k =>
    unfold finishLoop
    rw [hf]
    simp only
    rcases hidle with h | h
    · simp [h]
    · simp [h]

/-- C20, the frame of `addDigits`.  The future queue has `mBufferSize` bins and the
list has `mBufferSize` digits.  `addDigits` returns; the future queue has as many bins
as before; bin `i` has the time stamp, the record mode, the two marks and the trigger
record it had, and the digit list of every tower other than `towerID` is as it was;
the past queue, the buffer size, the five times, the phase and the log of the sink
(no call is made) are unchanged. -/
theorem addDigits_changes_one_tower (s : DigitsWriteoutBuffer) (towerID : Nat)
    (digList : List LabeledDigit)
    (hfut : s.mTimedDigitsFuture.length = s.mBufferSize)
    (hd : digList.length = s.mBufferSize) :
    ∃ s1, s.addDigits towerID digList = Outcome.done s1 ∧
      s1.mTimedDigitsFuture.length = s.mTimedDigitsFuture.length ∧
      (∀ (i : Nat) (b : DigitTimebin), s.mTimedDigitsFuture[i]? = some b →
        ∃ b1, s1.mTimedDigitsFuture[i]? = some b1 ∧
          b1.mTimestamp = b.mTimestamp ∧ b1.mRecordMode = b.mRecordMode ∧
          b1.mEndWindow = b.mEndWindow ∧ b1.mTriggerColl = b.mTriggerColl ∧
          b1.mInterRecord = b.mInterRecord ∧
          ∀ other, other ≠ towerID →
            findTower other b1.mDigitMap = findTower other b.mDigitMap) ∧
      s1.mTimedDigitsPast = s.mTimedDigitsPast ∧ s1.mDigitStream = s.mDigitStream ∧
      s1.mBufferSize = s.mBufferSize ∧ s1.mTriggerTime = s.mTriggerTime ∧
      s1.mLastEventTime = s.mLastEventTime ∧ s1.mLiveTime = s.mLiveTime ∧
      s1.mBusyTime = s.mBusyTime ∧ s1.mPreTriggerTime = s.mPreTriggerTime ∧
      s1.mPhase = s.mPhase := by
  obtain ⟨s1, h1, _, _, _, hget⟩ := addDigits_getElem s towerID digList hfut hd
  obtain ⟨a1, a2, a3, a4, a5, a6, a7, a8, a9⟩ := addDigits_frame s s1 towerID digList h1
  have hphase : s1.mPhase = s.mPhase := by
    unfold DigitsWriteoutBuffer.addDigits at h1
    obtain ⟨out, _, h⟩ := Outcome.andThen_eq_done.mp h1
    simp only [Outcome.done.injEq] at h
    rw [← h]
  refine ⟨s1, h1, a7, ?_, a8, a9, a1, a5, a6, a2, a3, a4, hphase⟩
  intro i b hb
  have hi : i < digList.length := by
    rw [hd, ← hfut]
    exact (List.getElem?_eq_some_iff.mp hb).1
  have hdig : digList[i]? = some digList[i] := List.getElem?_eq_getElem hi
  refine ⟨_, hget i b _ hb hdig, rfl, rfl, rfl, rfl, rfl, ?_⟩
  intro other hother
  exact findTower_pushDigit_other towerID other _ hother b.mDigitMap

theorem withoutDigits_idem (l : List DigitTimebin) :
    (l.map DigitTimebin.withoutDigits).map DigitTimebin.withoutDigits
      = l.map DigitTimebin.withoutDigits := by
  simp [DigitTimebin.withoutDigits, Function.comp_def]

/-- What a flush attempt does to the future queue: nothing, or it empties the maps. -/
theorem flushOnEndWindow_future (s : DigitsWriteoutBuffer) (r : DigitsWriteoutBuffer × Bool)
    (h : s.flushOnEndWindow = Outcome.done r) :
    r.1.mTimedDigitsFuture.map DigitTimebin.withoutDigits
      = s.mTimedDigitsFuture.map DigitTimebin.withoutDigits := by
  rcases flushOnEndWindow_done s r h with h1 | ⟨oldest, tl, _, h1⟩
  · subst h1; rfl
  · subst h1
    exact withoutDigits_idem _

/-- The future queue after the loop of `finish()`: the old one without the bins moved. -/
theorem finishLoop_drains (todo : Nat) : ∀ (s s1 : DigitsWriteoutBuffer),
    finishLoop todo s = Outcome.done s1 →
    ∃ k, k ≤ todo ∧ k ≤ s.mTimedDigitsFuture.length ∧
      s1.mTimedDigitsFuture.map DigitTimebin.withoutDigits
        = (s.mTimedDigitsFuture.drop k).map DigitTimebin.withoutDigits ∧
      (∀ b ∈ s.mTimedDigitsFuture.take k, b.mRecordMode = true ∧ b.mDigitMap ≠ []) ∧
      (k = 0 → s1 = s) ∧
      (∀ front rest, s.mTimedDigitsFuture = front :: rest → front.mRecordMode = true →
        front.mDigitMap ≠ [] → 1 ≤ todo → 1 ≤ k) := by
  induction todo with
  | zero =>
    intro s s1 h
    simp only [finishLoop, Outcome.done.injEq] at h
    subst h
    exact ⟨0, le_refl _, Nat.zero_le _, by simp, by simp, fun _ => rfl,
      fun _ _ _ _ _ h0 => absurd h0 (by decide)⟩
  | succ n ih =>
    intro s s1 h
    unfold finishLoop at h
    cases hf : s.mTimedDigitsFuture with
    | nil => rw [hf] at h; simp at h
    | cons front rest =>
      rw [hf] at h
      simp only at h
      by_cases hidle : (!front.mRecordMode || front.mDigitMap.isEmpty) = true
      · rw [if_pos hidle] at h
        simp only [Outcome.done.injEq] at h
        subst h
        refine ⟨0, Nat.zero_le _, Nat.zero_le _, by simp [hf], by simp, fun _ => rfl, ?_⟩
        intro f r hfr hrec hmap _
        simp only [List.cons.injEq] at hfr
        rw [← hfr.1] at hrec hmap
        simp only [Bool.or_eq_true, Bool.not_eq_true', List.isEmpty_iff] at hidle
        rcases hidle with h0 | h0
        · rw [h0] at hrec; exact absurd hrec (by decide)
        · exact absurd h0 hmap
      · rw [if_neg hidle] at h
        simp only [Bool.or_eq_true, Bool.not_eq_true', List.isEmpty_iff, not_or,
          Bool.not_eq_false] at hidle
        obtain ⟨r, hr, h⟩ := Outcome.andThen_eq_done.mp h
        have hfut := flushOnEndWindow_future _ r hr
        simp only at hfut
        have hmoved : ∀ b ∈ [front], b.mRecordMode = true ∧ b.mDigitMap ≠ [] := by
          intro b hb
          simp only [List.mem_singleton] at hb
          rw [hb]; exact hidle
        split at h
        · simp only [Outcome.done.injEq] at h
          subst h
          refine ⟨1, by omega, by simp, by simpa using hfut, by simpa using hidle, ?_, ?_⟩
          · intro h0; exact absurd h0 (by decide)
          · intro _ _ _ _ _ _; exact le_refl _
        · rename_i hnoflush
          have hr1 : r.1.mTimedDigitsFuture = rest := by
            rcases flushOnEndWindow_done _ r hr with h1 | ⟨oldest, tl, _, h1⟩
            · rw [h1]
            · rw [h1] at hnoflush; simp at hnoflush
          obtain ⟨k, hk1, hk2, hk3, hk4, _, _⟩ := ih r.1 s1 h
          rw [hr1] at hk2 hk3 hk4
          refine ⟨k + 1, by omega, by simp; omega, ?_, ?_, ?_, ?_⟩
          · rw [hk3]
            simp only [List.drop_succ_cons]
          · intro b hb
            simp only [List.take_succ_cons, List.mem_cons] at hb
            rcases hb with hb | hb
            · rw [hb]; exact hidle
            · exact hk4 b hb
          · intro h0; omega
          · intro _ _ _ _ _ _; omega

/-- C16 as the code has it.  The future queue has `mBufferSize` bins.  `finish()`
returns.  It moves some number `k ≤ mBufferSize` of bins, each in record mode and with
a non-empty channel map, from the front of the future queue to the past queue, and
pushes no bin in their place: afterwards the future queue has `mBufferSize - k` bins,
the old ones without the first `k` (with their channel maps emptied when a flush
cleared the buffer).  When the front bin is in record mode and has a non-empty channel
map, `k ≥ 1`; when `k = 0` the buffer is unchanged. -/
theorem finish_drains_future (s : DigitsWriteoutBuffer)
    (hfut : s.mTimedDigitsFuture.length = s.mBufferSize) :
    ∃ s1 k, s.finish = Outcome.done s1 ∧ k ≤ s.mBufferSize ∧
      s1.mTimedDigitsFuture.length = s.mBufferSize - k ∧
      s1.mTimedDigitsFuture.map DigitTimebin.withoutDigits
        = (s.mTimedDigitsFuture.drop k).map DigitTimebin.withoutDigits ∧
      (∀ b ∈ s.mTimedDigitsFuture.take k, b.mRecordMode = true ∧ b.mDigitMap ≠ []) ∧
      (k = 0 → s1 = s) ∧
      (∀ front rest, s.mTimedDigitsFuture = front :: rest → front.mRecordMode = true →
        front.mDigitMap ≠ [] → 1 ≤ k) := by
  have hdone : ∃ s1, s.finish = Outcome.done s1 := by
    unfold DigitsWriteoutBuffer.finish
    cases hsz : s.mBufferSize with
    | zero => exact ⟨s, rfl⟩
    | succ m =>
      rw [← hsz]
      exact finishLoop_done s.mBufferSize s (by omega) (by omega)
  obtain ⟨s1, h1⟩ := hdone
  obtain ⟨k, hk1, hk2, hk3, hk4, hk5, hk6⟩ := finishLoop_drains s.mBufferSize s s1 h1
  refine ⟨s1, k, h1, hk1, ?_, hk3, hk4, hk5, ?_⟩
  · have := congrArg List.length hk3
    simp only [List.length_map, List.length_drop] at this
    rw [this, hfut]
  · intro front rest hf hrec hmap
    refine hk6 front rest hf hrec hmap ?_
    rw [← hfut, hf]
    simp

/-- Witness of `finish_drains_future`: a buffer of two bins after a trigger at 1000, a
deposit and a `forwardMarker` at 1100; `finish()` moves one bin and flushes, and the
future queue is left with one bin. -/
theorem finish_drains_future_witness :
    exampleAfterThree.mTimedDigitsFuture.length = exampleAfterThree.mBufferSize ∧
    ∃ s1 k, exampleAfterThree.finish = Outcome.done s1 ∧ k ≤ exampleAfterThree.mBufferSize ∧
      s1.mTimedDigitsFuture.length = exampleAfterThree.mBufferSize - k ∧
      (∀ front rest, exampleAfterThree.mTimedDigitsFuture = front :: rest →
        front.mRecordMode = true → front.mDigitMap ≠ [] → 1 ≤ k) :=
  ⟨by decide,
    (finish_drains_future exampleAfterThree (by decide)).elim fun s1 h =>
      h.elim fun k hk => ⟨s1, k, hk.1, hk.2.1, hk.2.2.1, hk.2.2.2.2.2.2⟩⟩

/-- C16 at a concrete input.  A buffer of two bins after a trigger at 1000, a deposit
for tower 42 and a `forwardMarker` at 1100 has a full future queue; after `finish()`
the future queue holds one bin. -/
theorem finish_shrinks_future :
    ((DigitsWriteoutBuffer.create 2 ⟨1000, 0, 0⟩).run
        [Call.forwardMarker ⟨1000, 0⟩, Call.addDigits 42 [⟨5, 1⟩, ⟨6, 2⟩],
          Call.forwardMarker ⟨1100, 0⟩]).toOption.map
      (fun s => (s.mBufferSize, s.mTimedDigitsFuture.length)) = some (2, 2) ∧
    ((DigitsWriteoutBuffer.create 2 ⟨1000, 0, 0⟩).run
        [Call.forwardMarker ⟨1000, 0⟩, Call.addDigits 42 [⟨5, 1⟩, ⟨6, 2⟩],
          Call.forwardMarker ⟨1100, 0⟩, Call.finish]).toOption.map
      (fun s => (s.mBufferSize, s.mTimedDigitsFuture.length)) = some (2, 1) := by
  decide

/-- C11, the scenario of 15 bins with live time 1000, busy time 500 and pre-trigger
time 200, and records at 0, 100, ..., 1600 on a fresh buffer.  The trigger condition
holds for the record at 1500 and for no other record.  After the call at 1500 the back
future bin is a window-end bin with time stamp 2900.  `finish()` after the call at
1600 returns, leaves the buffer as it was and makes no call to the sink, whose log is
empty. -/
theorem scenario_fifteen_bins :
    (DigitsWriteoutBuffer.create 15 ⟨1000, 500, 200⟩).triggersOf
        (recordsAt ((List.range 17).map (· * 100))) = [⟨1500, 0⟩] ∧
    ((DigitsWriteoutBuffer.create 15 ⟨1000, 500, 200⟩).run
        (markerCalls ((List.range 16).map (· * 100)))).toOption.map
      (fun s => s.mTimedDigitsFuture.getLast?) = some (some ⟨2900, true, true, false, none, []⟩) ∧
    (DigitsWriteoutBuffer.create 15 ⟨1000, 500, 200⟩).run
        (markerCalls ((List.range 17).map (· * 100)) ++ [Call.finish])
      = (DigitsWriteoutBuffer.create 15 ⟨1000, 500, 200⟩).run
          (markerCalls ((List.range 17).map (· * 100))) ∧
    ((DigitsWriteoutBuffer.create 15 ⟨1000, 500, 200⟩).run
        (markerCalls ((List.range 17).map (· * 100)) ++ [Call.finish])).toOption.map
      (fun s => s.mDigitStream) = some [] := by
  decide

/-- C15 at a concrete input.  A buffer of size 2 whose future queue holds one bin (after
a trigger at 1000, a deposit, a `forwardMarker` at 1100 and `finish()`): `reserve()`
returns and the future queue still holds one bin, because `1 < mBufferSize - 1` is
false. -/
theorem reserve_skips_last_bin :
    ((DigitsWriteoutBuffer.create 2 ⟨1000, 0, 0⟩).run
        [Call.forwardMarker ⟨1000, 0⟩, Call.addDigits 42 [⟨5, 1⟩, ⟨6, 2⟩],
          Call.forwardMarker ⟨1100, 0⟩, Call.finish]).toOption.map
      (fun s => (s.mBufferSize, s.mTimedDigitsFuture.length)) = some (2, 1) ∧
    ((DigitsWriteoutBuffer.create 2 ⟨1000, 0, 0⟩).run
        [Call.forwardMarker ⟨1000, 0⟩, Call.addDigits 42 [⟨5, 1⟩, ⟨6, 2⟩],
          Call.forwardMarker ⟨1100, 0⟩, Call.finish, Call.reserve]).toOption.map
      (fun s => (s.mBufferSize, s.mTimedDigitsFuture.length)) = some (2, 1) ∧
    ({ DigitsWriteoutBuffer.create 3 ⟨1000, 0, 0⟩ with mTimedDigitsFuture := [{}, {}] }
        : DigitsWriteoutBuffer).reserve
      = Outcome.done
        { DigitsWriteoutBuffer.create 3 ⟨1000, 0, 0⟩ with mTimedDigitsFuture := [{}, {}] } ∧
    ({ DigitsWriteoutBuffer.create 3 ⟨1000, 0, 0⟩ with mTimedDigitsFuture := [{}] }
        : DigitsWriteoutBuffer).reserve
      = Outcome.done (DigitsWriteoutBuffer.create 3 ⟨1000, 0, 0⟩) := by
  decide

/-- C17 at two failing inputs.  First, two bins, live time 400, pre-trigger time 300,
records at 400, 500 and 700: the call at 700 moves the window-end bin, flushes, and
then moves one more bin, so the past queue holds a bin when the call ends.  Second,
two bins, live time 100, records at 100, 200 and 400: the sink has received nothing
before the call at 400 and two views after it. -/
theorem forwardMarker_moves_on_after_flush :
    ((DigitsWriteoutBuffer.create 2 ⟨400, 0, 300⟩).run (markerCalls [400, 500])).toOption.map
      (fun s => (s.mTimedDigitsPast.map fun b => b.mTimestamp, s.mDigitStream.length))
      = some ([400], 0) ∧
    ((DigitsWriteoutBuffer.create 2 ⟨400, 0, 300⟩).run (markerCalls [400, 500, 700])).toOption.map
      (fun s => (s.mTimedDigitsPast.map fun b => b.mTimestamp, s.mDigitStream.length))
      = some ([600], 1) ∧
    ((DigitsWriteoutBuffer.create 2 ⟨100, 0, 0⟩).run (markerCalls [100, 200])).toOption.map
      (fun s => s.mDigitStream.length) = some 0 ∧
    ((DigitsWriteoutBuffer.create 2 ⟨100, 0, 0⟩).run (markerCalls [100, 200, 400])).toOption.map
      (fun s => s.mDigitStream.length) = some 2 := by
  decide

/-- C18 at a failing input.  On a fresh buffer of two bins the record at 429496729600
fires the trigger.  `eventTime / 100` is `2 ^ 32`, which `int(...)` turns into 0: the
future bins get the time stamps 0 and 100, where `eventTime / 100 * 100` is
429496729600. -/
theorem stamp_base_truncated :
    (DigitsWriteoutBuffer.create 2 ⟨0, 0, 0⟩).triggerFires 429496729600 = true ∧
    ((DigitsWriteoutBuffer.create 2 ⟨0, 0, 0⟩).forwardMarker ⟨429496729600, 0⟩).toOption.map
      (fun s => s.mTimedDigitsFuture.map fun b => b.mTimestamp) = some [0, 100] ∧
    429496729600 / 100 * 100 = 429496729600 ∧ stampBase 429496729600 = 0 := by
  decide

/-! ## Windows that do not overlap -/

theorem withoutDigits_marks (l : List DigitTimebin) :
    (l.map DigitTimebin.withoutDigits).map DigitTimebin.marks = l.map DigitTimebin.marks := by
  simp [DigitTimebin.withoutDigits, DigitTimebin.marks, Function.comp_def]

theorem withoutDigits_stamp (l : List DigitTimebin) :
    (l.map DigitTimebin.withoutDigits).map DigitTimebin.stamp = l.map DigitTimebin.stamp := by
  simp [DigitTimebin.withoutDigits, DigitTimebin.stamp, Function.comp_def]

/-- The future queue after one bin move: the front bin is gone and a default bin is at
the back; the channel maps may have been emptied. -/
theorem moveFront_future (s s1 : DigitsWriteoutBuffer) (front : DigitTimebin)
    (rest : List DigitTimebin) (hf : s.mTimedDigitsFuture = front :: rest)
    (h : s.moveFront = Outcome.done s1) :
    s1.mTimedDigitsFuture.map DigitTimebin.withoutDigits
      = (rest ++ [({} : DigitTimebin)]).map DigitTimebin.withoutDigits := by
  unfold DigitsWriteoutBuffer.moveFront at h
  rw [hf] at h
  simp only at h
  obtain ⟨r, hr, hs1⟩ := Outcome.andThen_eq_done.mp h
  simp only [Outcome.done.injEq] at hs1
  subst hs1
  have := flushOnEndWindow_future _ r hr
  simp only at this
  exact this

theorem forwardLoop_break (todo : Nat) (s : DigitsWriteoutBuffer) (front : DigitTimebin)
    (hh : s.mTimedDigitsFuture.head? = some front) (hr : front.mRecordMode = false) :
    forwardLoop todo s = Outcome.done s := by
  cases todo with
  | zero => rfl
  | succ k =>
    unfold forwardLoop
    rw [hh]
    simp [hr]

theorem Outcome.andThen_assoc {α β γ : Type} (o : Outcome α) (f : α → Outcome β)
    (g : β → Outcome γ) :
    (o.andThen f).andThen g = o.andThen fun a => (f a).andThen g := by
  cases o <;> rfl

/-- The loop with `a + b` iterations is the loop with `a` iterations followed by the
loop with `b` iterations. -/
theorem forwardLoop_add (a b : Nat) : ∀ s : DigitsWriteoutBuffer,
    forwardLoop (a + b) s = (forwardLoop a s).andThen (forwardLoop b) := by
  induction a with
  | zero => intro s; simp [forwardLoop]
  | succ k ih =>
    intro s
    have e : k + 1 + b = (k + b) + 1 := by omega
    rw [e]
    cases hh : s.mTimedDigitsFuture.head? with
    | none =>
      unfold forwardLoop
      simp [hh]
    | some front =>
      by_cases hr : front.mRecordMode = true
      · rw [forwardLoop, forwardLoop]
        simp only [hh, hr, if_true]
        rw [Outcome.andThen_assoc]
        congr 1
        funext s2
        exact ih s2
      · simp only [Bool.not_eq_true] at hr
        rw [forwardLoop_break _ s front hh hr, forwardLoop_break _ s front hh hr]
        simp only [Outcome.andThen_done]
        rw [forwardLoop_break _ s front hh hr]

/-- When the first `todo` bins of the future queue are in record mode, the loop moves
exactly `todo` bins. -/
theorem forwardLoop_exact (todo : Nat) : ∀ s : DigitsWriteoutBuffer,
    1 ≤ s.mBufferSize → todo ≤ s.mTimedDigitsFuture.length →
    (∀ b ∈ s.mTimedDigitsFuture.take todo, b.mRecordMode = true) →
    ∃ s1, forwardLoop todo s = Outcome.done s1 ∧
      s1.mTimedDigitsFuture.map DigitTimebin.withoutDigits
        = (s.mTimedDigitsFuture.drop todo ++ List.replicate todo ({} : DigitTimebin)).map
            DigitTimebin.withoutDigits := by
  induction todo with
  | zero => intro s _ _ _; exact ⟨s, rfl, by simp⟩
  | succ k ih =>
    intro s hn hlen hrec
    cases hf : s.mTimedDigitsFuture with
    | nil => rw [hf] at hlen; simp at hlen
    | cons front rest =>
      rw [hf] at hlen hrec
      have hfr : front.mRecordMode = true := hrec front (by simp)
      obtain ⟨oldest, tl, _, hmove⟩ := moveFront_eq s front rest hf hn
      obtain ⟨s2, hs2⟩ : ∃ s2, s.moveFront = Outcome.done s2 := ⟨_, hmove⟩
      have hfut2 := moveFront_future s s2 front rest hf hs2
      obtain ⟨_, _, _, _, _, _, a7, _⟩ := moveFront_frame s s2 hs2
      have hsz2 : s2.mBufferSize = s.mBufferSize := (moveFront_frame s s2 hs2).1
      have hlen2 : k ≤ s2.mTimedDigitsFuture.length := by
        rw [a7, hf]; simp at hlen ⊢; omega
      have hrec2 : ∀ b ∈ s2.mTimedDigitsFuture.take k, b.mRecordMode = true := by
        intro b hb
        have hb2 : b.withoutDigits ∈ (s2.mTimedDigitsFuture.take k).map DigitTimebin.withoutDigits :=
          List.mem_map_of_mem _ hb
        rw [List.map_take, hfut2, ← List.map_take,
          List.take_append_of_le_length (by simp at hlen; omega)] at hb2
        obtain ⟨b0, hb0, hbe⟩ := List.mem_map.mp hb2
        have h0 : b0.mRecordMode = true :=
          hrec b0 (by simp only [List.take_succ_cons, List.mem_cons]; exact Or.inr hb0)
        have : b.mRecordMode = b0.mRecordMode := by
          have := congrArg DigitTimebin.mRecordMode hbe
          simpa [DigitTimebin.withoutDigits] using this.symm
        rw [this]; exact h0
      obtain ⟨s1, h1, hfut1⟩ := ih s2 (by rw [hsz2]; exact hn) hlen2 hrec2
      refine ⟨s1, ?_, ?_⟩
      · unfold forwardLoop
        rw [hf]
        simp only [List.head?_cons, hfr, if_true]
        rw [hs2]
        exact h1
      · rw [hfut1]
        simp only [List.map_append, List.map_drop]
        rw [hfut2]
        simp only [List.map_append, List.drop_succ_cons, List.map_replicate, List.map_cons,
          List.map_nil]
        rw [List.drop_append_of_le_length (by simp at hlen ⊢; omega)]
        simp only [List.append_assoc, List.replicate_succ', List.map_drop]
        have : ([({} : DigitTimebin).withoutDigits] ++ List.replicate k ({} : DigitTimebin).withoutDigits)
            = List.replicate k ({} : DigitTimebin).withoutDigits ++ [({} : DigitTimebin).withoutDigits] := by
          rw [List.singleton_append, ← List.replicate_succ, List.replicate_succ']
        rw [this]

theorem toInt32_toNat_le (x : Nat) : (toInt32 x).toNat ≤ x := by
  unfold toInt32 U32
  split <;> omega

theorem toInt32_toNat_eq (x : Nat) (h : x < 2147483648) : (toInt32 x).toNat = x := by
  unfold toInt32 U32
  split <;> omega

/-- The number of iterations of the bin-moving loop is at most the number of 100 ns
samples between the last event and the new one. -/
theorem sampleDifference_le (s : DigitsWriteoutBuffer) (eventTime : Nat)
    (h1 : s.mTriggerTime ≤ s.mLastEventTime) (h2 : s.mLastEventTime ≤ eventTime)
    (h3 : eventTime < U64) :
    (s.sampleDifference eventTime).toNat
      ≤ (eventTime - s.mTriggerTime) / 100 - (s.mLastEventTime - s.mTriggerTime) / 100 := by
  unfold DigitsWriteoutBuffer.sampleDifference
  rw [usub64_eq _ _ (by omega) h3, usub64_eq _ _ h1 (by omega)]
  refine le_trans (toInt32_toNat_le _) ?_
  unfold U64 at *
  omega

/-- It is that number when the event time is below `2 ^ 31 * 100`. -/
theorem sampleDifference_eq (s : DigitsWriteoutBuffer) (eventTime : Nat)
    (h1 : s.mTriggerTime ≤ s.mLastEventTime) (h2 : s.mLastEventTime ≤ eventTime)
    (h3 : eventTime / 100 < 2147483648) :
    (s.sampleDifference eventTime).toNat
      = (eventTime - s.mTriggerTime) / 100 - (s.mLastEventTime - s.mTriggerTime) / 100 := by
  unfold DigitsWriteoutBuffer.sampleDifference
  have h4 : eventTime < U64 := by unfold U64; omega
  rw [usub64_eq _ _ (by omega) h4, usub64_eq _ _ h1 (by omega)]
  have e : ((eventTime - s.mTriggerTime) / 100 + U64 - (s.mLastEventTime - s.mTriggerTime) / 100) % U64
      = (eventTime - s.mTriggerTime) / 100 - (s.mLastEventTime - s.mTriggerTime) / 100 := by
    unfold U64 at *
    omega
  rw [e]
  exact toInt32_toNat_eq _ (by omega)

theorem onFront_map {α β : Type} (f : α → α) (g : β → β) (p : α → β)
    (h : ∀ a, p (f a) = g (p a)) (l : List α) : (onFront f l).map p = onFront g (l.map p) := by
  cases l with
  | nil => rfl
  | cons a l => simp [onFront, h]

theorem onBack_map {α β : Type} (f : α → α) (g : β → β) (p : α → β)
    (h : ∀ a, p (f a) = g (p a)) : ∀ l : List α, (onBack f l).map p = onBack g (l.map p)
  | [] => rfl
  | [a] => by simp [onBack, h]
  | a :: b :: l => by
    have := onBack_map f g p h (b :: l)
    simp only [List.map_cons] at this ⊢
    simp only [onBack, List.map_cons, this]

theorem windowMarks_length (n : Nat) : (windowMarks n).length = n := by
  simp [windowMarks, onBack_length, onFront_length]

theorem windowMarks_one : windowMarks 1 = [(true, true)] := rfl

theorem windowMarks_two_add (k : Nat) :
    windowMarks (k + 2) = (true, false) :: List.replicate k (false, false) ++ [(false, true)] := by
  unfold windowMarks
  rw [List.replicate_succ]
  simp only [onFront]
  rw [List.replicate_succ']
  have := onBack_concat (fun m : Bool × Bool => (m.1, true)) (false, false)
    ((true, false) :: List.replicate k (false, false))
  simpa using this

theorem windowMarks_counts (n : Nat) (hn : 1 ≤ n) :
    (windowMarks n).countP (fun m => m.2) = 1 ∧ (windowMarks n).countP (fun m => m.1) = 1 ∧
    (∃ rest, windowMarks n = (true, n == 1) :: rest) ∧
    (∃ front, windowMarks n = front ++ [(n == 1, true)]) := by
  cases n with
  | zero => omega
  | succ k =>
    cases k with
    | zero => exact ⟨rfl, rfl, ⟨[], rfl⟩, ⟨[], rfl⟩⟩
    | succ j =>
      rw [windowMarks_two_add]
      refine ⟨?_, ?_, ⟨_, rfl⟩, ⟨(true, false) :: List.replicate j (false, false), rfl⟩⟩
      · simp [List.countP_cons, List.countP_append, List.countP_replicate]
      · simp [List.countP_cons, List.countP_append, List.countP_replicate]

/-- Unmarked bins stay unmarked through the bin-moving loop. -/
theorem forwardLoop_unmarked (todo : Nat) (s s1 : DigitsWriteoutBuffer)
    (h : forwardLoop todo s = Outcome.done s1)
    (hm : s.mTimedDigitsFuture.map DigitTimebin.marks
      = List.replicate s.mTimedDigitsFuture.length (false, false)) :
    s1.mTimedDigitsFuture.map DigitTimebin.marks
      = List.replicate s.mTimedDigitsFuture.length (false, false) := by
  obtain ⟨⟨j, hj, hjm⟩, _⟩ := forwardLoop_marks todo s s1 h
  rw [hjm, hm, List.drop_replicate, ← List.replicate_add]
  congr 1
  omega

/-- The marks of the future queue after the trigger branch has run on unmarked bins. -/
theorem triggerStep_windowMarks (s : DigitsWriteoutBuffer) (record : InteractionTimeRecord)
    (hne : s.mTimedDigitsFuture ≠ []) (h : s.triggerFires record.timeNS = true)
    (hm : s.mTimedDigitsFuture.map DigitTimebin.marks
      = List.replicate s.mTimedDigitsFuture.length (false, false)) :
    ∃ s1, s.triggerStep record = Outcome.done s1 ∧ s1.mTriggerTime = record.timeNS ∧
      s1.mLastEventTime = s.mLastEventTime ∧
      s1.mTimedDigitsFuture.map DigitTimebin.marks = windowMarks s.mTimedDigitsFuture.length ∧
      ∀ b ∈ s1.mTimedDigitsFuture, b.mRecordMode = true := by
  refine ⟨_, triggerStep_fires s record hne h, rfl, rfl, ?_, ?_⟩
  · simp only
    rw [stampAll_marks,
      onBack_map (fun b : DigitTimebin => { b with mEndWindow := true })
        (fun m : Bool × Bool => (m.1, true)) DigitTimebin.marks (fun a => rfl),
      onFront_map (fun b : DigitTimebin => { b with mTriggerColl := true, mInterRecord := some record })
        (fun m : Bool × Bool => (true, m.2)) DigitTimebin.marks (fun a => rfl), hm]
    rfl
  · simp only
    exact stampAll_recordMode _ _

/-- The bin-moving loop on a buffer whose window is shifted by `m`: the window is
shifted by `m + todo` afterwards, or it has left the future queue. -/
theorem forwardLoop_phase (n todo m : Nat) (s : DigitsWriteoutBuffer) (hn : 1 ≤ n)
    (hsz : s.mBufferSize = n) (hlen : s.mTimedDigitsFuture.length = n) (hm : m ≤ n)
    (hmarks : s.mTimedDigitsFuture.map DigitTimebin.marks
      = (windowMarks n).drop m ++ List.replicate m (false, false))
    (hrec : m < n → ∀ b ∈ s.mTimedDigitsFuture.take (n - m), b.mRecordMode = true) :
    ∃ s1, forwardLoop todo s = Outcome.done s1 ∧ ∃ m1, m1 ≤ n ∧
      s1.mTimedDigitsFuture.map DigitTimebin.marks
        = (windowMarks n).drop m1 ++ List.replicate m1 (false, false) ∧
      (m1 < n → m1 = m + todo ∧ ∀ b ∈ s1.mTimedDigitsFuture.take (n - m1), b.mRecordMode = true) := by
  have hne : s.mTimedDigitsFuture ≠ [] := by
    intro h0; rw [h0] at hlen; simp at hlen; omega
  have hfresh : ({} : DigitTimebin).marks = (false, false) := rfl
  have hall : ∀ (t : DigitsWriteoutBuffer) (k : Nat), t.mTimedDigitsFuture.length = n →
      t.mTimedDigitsFuture.map DigitTimebin.marks = List.replicate n (false, false) →
      t.mBufferSize = n →
      ∃ s1, forwardLoop k t = Outcome.done s1 ∧ ∃ m1, m1 ≤ n ∧
        s1.mTimedDigitsFuture.map DigitTimebin.marks
          = (windowMarks n).drop m1 ++ List.replicate m1 (false, false) ∧
        (m1 < n → m1 = m + todo ∧
          ∀ b ∈ s1.mTimedDigitsFuture.take (n - m1), b.mRecordMode = true) := by
    intro t k htlen htm htsz
    have htne : t.mTimedDigitsFuture ≠ [] := by
      intro h0; rw [h0] at htlen; simp at htlen; omega
    obtain ⟨s1, h1⟩ := forwardLoop_done k t htne (by omega)
    have := forwardLoop_unmarked k t s1 h1 (by rw [htlen]; exact htm)
    rw [htlen] at this
    refine ⟨s1, h1, n, le_refl _, ?_, fun h => absurd h (lt_irrefl _)⟩
    rw [this, List.drop_eq_nil_of_le (by rw [windowMarks_length])]
    rfl
  by_cases hmn : m + todo < n
  · have hrec1 : ∀ b ∈ s.mTimedDigitsFuture.take todo, b.mRecordMode = true := by
      intro b hb
      refine hrec (by omega) b ?_
      have hle : todo ≤ n - m := by omega
      have e : List.take todo s.mTimedDigitsFuture
          = List.take todo (List.take (n - m) s.mTimedDigitsFuture) := by
        rw [List.take_take, Nat.min_eq_left hle]
      rw [e] at hb
      exact List.mem_of_mem_take hb
    obtain ⟨s1, h1, hfut⟩ := forwardLoop_exact todo s (by omega) (by omega) hrec1
    refine ⟨s1, h1, m + todo, by omega, ?_, fun _ => ⟨rfl, ?_⟩⟩
    · have := congrArg (List.map DigitTimebin.marks) hfut
      rw [withoutDigits_marks, withoutDigits_marks] at this
      rw [this, List.map_append, List.map_drop, hmarks,
        List.drop_append_of_le_length (by simp [windowMarks_length]; omega)]
      simp only [List.drop_drop, List.map_replicate, List.append_assoc, hfresh,
        ← List.replicate_add]
    · intro b hb
      have hb2 : b.withoutDigits ∈ (s1.mTimedDigitsFuture.take (n - (m + todo))).map
          DigitTimebin.withoutDigits := List.mem_map_of_mem _ hb
      rw [List.map_take, hfut, ← List.map_take,
        List.take_append_of_le_length (by simp; omega), List.take_drop] at hb2
      obtain ⟨b0, hb0, hbe⟩ := List.mem_map.mp hb2
      have hb1 := List.mem_of_mem_drop hb0
      have e : todo + (n - (m + todo)) = n - m := by omega
      rw [e] at hb1
      have h0 := hrec (by omega) b0 hb1
      have : b.mRecordMode = b0.mRecordMode := by
        have := congrArg DigitTimebin.mRecordMode hbe
        simpa [DigitTimebin.withoutDigits] using this.symm
      rw [this]; exact h0
  · by_cases hmlt : m < n
    · obtain ⟨extra, he⟩ : ∃ extra, todo = (n - m) + extra := ⟨todo - (n - m), by omega⟩
      have hrec1 := hrec hmlt
      obtain ⟨s2, h2, hfut⟩ := forwardLoop_exact (n - m) s (by omega) (by omega) hrec1
      obtain ⟨a1, _, _, _, _, _, a7, _⟩ := forwardLoop_frame _ s s2 h2
      have hm2 : s2.mTimedDigitsFuture.map DigitTimebin.marks = List.replicate n (false, false) := by
        have := congrArg (List.map DigitTimebin.marks) hfut
        rw [withoutDigits_marks, withoutDigits_marks] at this
        rw [this, List.map_append, List.map_drop, hmarks,
          List.drop_append_of_le_length (by simp [windowMarks_length])]
        rw [List.drop_drop, List.drop_eq_nil_of_le (by rw [windowMarks_length]; omega)]
        simp only [List.nil_append, List.map_replicate, hfresh, ← List.replicate_add]
        congr 1
        omega
      obtain ⟨s1, h1, hres⟩ := hall s2 extra (by rw [a7, hlen]) hm2 (by rw [a1, hsz])
      refine ⟨s1, ?_, hres⟩
      rw [he, forwardLoop_add, h2]
      exact h1
    · have hmeq : m = n := by omega
      subst hmeq
      refine hall s todo hlen ?_ hsz
      rw [hmarks, List.drop_eq_nil_of_le (by rw [windowMarks_length])]
      rfl

/-- One `forwardMarker` call on a buffer whose windows do not overlap. -/
theorem forwardMarker_phase (n : Nat) (s : DigitsWriteoutBuffer) (record : InteractionTimeRecord)
    (hn : 1 ≤ n) (hw : WindowPhase n s) (hle : s.mLastEventTime ≤ record.timeNS)
    (hrange : record.timeNS / 100 < 2147483648) :
    ∃ s3, s.forwardMarker record = Outcome.done s3 ∧ WindowPhase n s3 ∧
      s3.mLastEventTime = record.timeNS ∧
      (s.triggerFires record.timeNS = true →
        s3.mTimedDigitsFuture.map DigitTimebin.marks = windowMarks n) := by
  obtain ⟨hsz, hlen, htl, hcfg, hcfg2, m, hm, hmarks, hrec⟩ := hw
  have hU : record.timeNS < U64 := by unfold U64; omega
  have hsd := sampleDifference_eq s record.timeNS htl hle hrange
  obtain ⟨s1, h1, m1, hm1, hmarks1, hrec1⟩ :=
    forwardLoop_phase n (s.sampleDifference record.timeNS).toNat m s hn hsz hlen hm hmarks
      (fun h => (hrec h).2)
  obtain ⟨a1, a2, a3, a4, a5, a6, a7, _⟩ := forwardLoop_frame _ s s1 h1
  have hfires := triggerFires_congr s s1 record.timeNS a2 a3 a5
  have hlen1 : s1.mTimedDigitsFuture.length = n := by rw [a7, hlen]
  have hne1 : s1.mTimedDigitsFuture ≠ [] := by
    intro h0; rw [h0] at hlen1; simp at hlen1; omega
  have hq1 : m1 < n → m1 = (record.timeNS - s.mTriggerTime) / 100 := by
    intro h
    have hmm : m < n := by have := (hrec1 h).1; omega
    have := (hrec1 h).1
    have hq := (hrec hmm).1
    rw [this, hsd, hq]
    have : (s.mLastEventTime - s.mTriggerTime) / 100 ≤ (record.timeNS - s.mTriggerTime) / 100 :=
      Nat.div_le_div_right (by omega)
    omega
  cases hc : s.triggerFires record.timeNS with
  | true =>
    have hge : s.mLiveTime + s.mBusyTime ≤ record.timeNS - s.mTriggerTime :=
      (triggerFires_iff s _ (by omega) hU hcfg2).mp hc
    have hm1n : m1 = n := by
      by_contra hcon
      have hlt : m1 < n := by omega
      have := hq1 hlt
      have : n ≤ (record.timeNS - s.mTriggerTime) / 100 := by
        apply (Nat.le_div_iff_mul_le (by decide)).mpr
        omega
      omega
    have hall1 : s1.mTimedDigitsFuture.map DigitTimebin.marks
        = List.replicate s1.mTimedDigitsFuture.length (false, false) := by
      rw [hmarks1, hm1n, hlen1, List.drop_eq_nil_of_le (by rw [windowMarks_length])]
      rfl
    obtain ⟨s2, h2, ht2, hl2, hmarks2, hrec2⟩ :=
      triggerStep_windowMarks s1 record hne1 (by rw [hfires]; exact hc) hall1
    obtain ⟨b1, b2, b3, _, b5, _, _⟩ := triggerStep_frame s1 s2 record h2
    obtain ⟨c1, c2, c3, _, c5, c6, _, _⟩ := preTriggerStep_frame s2 record.timeNS
    have hfut3 := preTriggerStep_future s2 record.timeNS
    have hmarks3 : (s2.preTriggerStep record.timeNS).mTimedDigitsFuture.map DigitTimebin.marks
        = windowMarks n := by
      rw [hfut3]
      split
      · rw [stampAll_marks, hmarks2, hlen1]
      · rw [hmarks2, hlen1]
    have hrec3 : ∀ b ∈ (s2.preTriggerStep record.timeNS).mTimedDigitsFuture,
        b.mRecordMode = true := by
      rw [hfut3]
      split
      · exact stampAll_recordMode _ _
      · exact hrec2
    refine ⟨{ s2.preTriggerStep record.timeNS with
        mLastEventTime := record.timeNS, mPhase := record.timeNS % 100 / 25 }, ?_, ?_, rfl,
      fun _ => hmarks3⟩
    · unfold DigitsWriteoutBuffer.forwardMarker
      simp only [h1, Outcome.andThen_done, h2]
    · refine ⟨by simp only; rw [c1, b1, a1, hsz], by simp only; rw [c6, b5, hlen1],
        by simp only; rw [c5, ht2], by simp only; rw [c2, c3, b2, b3, a2, a3]; exact hcfg,
        by simp only; rw [c2, c3, b2, b3, a2, a3]; exact hcfg2, 0, Nat.zero_le _, ?_, ?_⟩
      · simp only
        rw [hmarks3]; simp
      · intro _
        simp only
        rw [c5, ht2]
        refine ⟨by simp, ?_⟩
        intro b hb
        exact hrec3 b (List.mem_of_mem_take hb)
  | false =>
    have hf1 : s1.triggerFires record.timeNS = false := by rw [hfires]; exact hc
    obtain ⟨c1, c2, c3, _, c5, c6, _, _⟩ := preTriggerStep_frame s1 record.timeNS
    have hfut3 := preTriggerStep_future s1 record.timeNS
    refine ⟨{ s1.preTriggerStep record.timeNS with
        mLastEventTime := record.timeNS, mPhase := record.timeNS % 100 / 25 }, ?_, ?_, rfl,
      fun h => absurd h (by simp)⟩
    · unfold DigitsWriteoutBuffer.forwardMarker
      simp only [h1, Outcome.andThen_done, triggerStep_skip s1 record hf1]
    · refine ⟨by simp only; rw [c1, a1, hsz], by simp only; rw [c6, hlen1],
        by simp only; rw [c5, a5]; omega, by simp only; rw [c2, c3, a2, a3]; exact hcfg,
        by simp only; rw [c2, c3, a2, a3]; exact hcfg2, m1, hm1, ?_, ?_⟩
      · simp only
        rw [hfut3]
        split
        · rw [stampAll_marks]; exact hmarks1
        · exact hmarks1
      · intro h
        simp only
        rw [c5, a5]
        refine ⟨hq1 h, ?_⟩
        rw [hfut3]
        split
        · intro b hb
          exact stampAll_recordMode _ _ b (List.mem_of_mem_take hb)
        · exact (hrec1 h).2

theorem create_windowPhase (n : Nat) (simParam : SimParam)
    (hcfg : 100 * n ≤ simParam.liveTime + simParam.busyTime)
    (hcfg2 : simParam.liveTime + simParam.busyTime < U64) :
    WindowPhase n (DigitsWriteoutBuffer.create n simParam) := by
  refine ⟨rfl, by simp [DigitsWriteoutBuffer.create], le_refl _, hcfg, hcfg2, n, le_refl _, ?_,
    fun h => absurd h (lt_irrefl _)⟩
  rw [List.drop_eq_nil_of_le (by rw [windowMarks_length])]
  simp [DigitsWriteoutBuffer.create, DigitTimebin.marks]

theorem run_windowPhase (n : Nat) (hn : 1 ≤ n) (records : List InteractionTimeRecord) :
    ∀ s : DigitsWriteoutBuffer, WindowPhase n s →
    List.Chain (fun a b => a ≤ b) s.mLastEventTime (records.map fun r => r.timeNS) →
    (∀ r ∈ records, r.timeNS / 100 < 2147483648) →
    ∃ s1, s.run (records.map Call.forwardMarker) = Outcome.done s1 ∧ WindowPhase n s1 ∧
      List.Chain (fun a b => a ≤ b) s.mLastEventTime [s1.mLastEventTime] ∧
      (records ≠ [] → ∀ r ∈ records.getLast?, s1.mLastEventTime = r.timeNS) := by
  induction records with
  | nil =>
    intro s hw _ _
    exact ⟨s, rfl, hw, by simp, fun h => absurd rfl h⟩
  | cons r rs ih =>
    intro s hw hch hrg
    simp only [List.map_cons, List.chain_cons] at hch
    obtain ⟨s3, h3, hw3, hl3, _⟩ := forwardMarker_phase n s r hn hw hch.1
      (hrg r (List.mem_cons_self _ _))
    obtain ⟨s1, h1, hw1, hc1, hlast1⟩ := ih s3 hw3 (by rw [hl3]; exact hch.2)
      (fun x hx => hrg x (List.mem_cons_of_mem _ hx))
    refine ⟨s1, ?_, hw1, ?_, ?_⟩
    · simp only [List.map_cons, DigitsWriteoutBuffer.run, DigitsWriteoutBuffer.call, h3,
        Outcome.andThen_done]
      exact h1
    · simp only [List.chain_cons, List.Chain.nil, and_true] at hc1 ⊢
      rw [hl3] at hc1
      omega
    · intro _ x hx
      cases rs with
      | nil =>
        simp only [List.map_nil, DigitsWriteoutBuffer.run, Outcome.done.injEq] at h1
        simp only [List.getLast?_singleton, Option.mem_def, Option.some.injEq] at hx
        rw [← h1, hl3, hx]
      | cons r2 rs2 =>
        rw [List.getLast?_cons_cons] at hx
        exact hlast1 (by simp) x hx

/-- C14 as the code has it.  A fresh buffer has `n ≥ 1` bins and windows that cannot
overlap, `mLiveTime + mBusyTime ≥ 100 * n`; `forwardMarker` is called with records of
non-decreasing event times below `2 ^ 31 * 100`.  All calls return, and right after a
call in which the trigger fires exactly one bin of the future queue is a window-end
bin, the back bin, and exactly one is a trigger bin, the front bin. -/
theorem one_mark_per_window (n : Nat) (simParam : SimParam)
    (records : List InteractionTimeRecord) (r : InteractionTimeRecord) (hn : 1 ≤ n)
    (hcfg : 100 * n ≤ simParam.liveTime + simParam.busyTime)
    (hcfg2 : simParam.liveTime + simParam.busyTime < U64)
    (hsorted : List.Chain' (fun a b : InteractionTimeRecord => a.timeNS ≤ b.timeNS)
      (records ++ [r]))
    (hrange : ∀ x ∈ records ++ [r], x.timeNS / 100 < 2147483648) :
    ∃ s s1, (DigitsWriteoutBuffer.create n simParam).run (records.map Call.forwardMarker)
        = Outcome.done s ∧
      s.forwardMarker r = Outcome.done s1 ∧
      (s.triggerFires r.timeNS = true →
        s1.mTimedDigitsFuture.countP (fun b => b.mEndWindow) = 1 ∧
        s1.mTimedDigitsFuture.countP (fun b => b.mTriggerColl) = 1 ∧
        (∃ front rest, s1.mTimedDigitsFuture = front :: rest ∧ front.mTriggerColl = true) ∧
        (∃ front back, s1.mTimedDigitsFuture = front ++ [back] ∧ back.mEndWindow = true)) := by
  obtain ⟨hch1, _, hadj⟩ := List.chain'_append.mp hsorted
  have hchain : List.Chain (fun a b => a ≤ b) (DigitsWriteoutBuffer.create n simParam).mLastEventTime
      (records.map fun x => x.timeNS) := by
    have h2 := (List.chain'_map (fun x : InteractionTimeRecord => x.timeNS)
      (R := fun a b : Nat => a ≤ b)).mpr hch1
    cases hrec : records with
    | nil => simp
    | cons x xs =>
      rw [hrec] at h2
      simp only [List.map_cons] at h2 ⊢
      exact List.chain_cons.mpr ⟨Nat.zero_le _, h2⟩
  obtain ⟨s, hrun, hw, _, hlast⟩ := run_windowPhase n hn records _
    (create_windowPhase n simParam hcfg hcfg2) hchain
    (fun x hx => hrange x (List.mem_append_left _ hx))
  have hle : s.mLastEventTime ≤ r.timeNS := by
    cases hrec : records with
    | nil =>
      rw [hrec] at hrun
      simp only [List.map_nil, DigitsWriteoutBuffer.run, Outcome.done.injEq] at hrun
      rw [← hrun]
      exact Nat.zero_le _
    | cons x xs =>
      obtain ⟨y, hy⟩ : ∃ y, records.getLast? = some y := by
        rw [hrec]
        exact ⟨_, List.getLast?_eq_getLast _ (by simp)⟩
      rw [hlast (by rw [hrec]; simp) y hy]
      exact hadj y hy r (by simp)
  obtain ⟨s1, h1, _, _, hmarks⟩ := forwardMarker_phase n s r hn hw hle
    (hrange r (by simp))
  refine ⟨s, s1, hrun, h1, ?_⟩
  intro hfire
  have hm := hmarks hfire
  obtain ⟨c1, c2, ⟨rest, hhead⟩, ⟨front, hback⟩⟩ := windowMarks_counts n hn
  refine ⟨?_, ?_, ?_, ?_⟩
  · have := List.countP_map (fun m : Bool × Bool => m.2) DigitTimebin.marks s1.mTimedDigitsFuture
    rw [hm, c1] at this
    exact this.symm
  · have := List.countP_map (fun m : Bool × Bool => m.1) DigitTimebin.marks s1.mTimedDigitsFuture
    rw [hm, c2] at this
    exact this.symm
  · rw [hhead] at hm
    obtain ⟨b, bs, hb, hbm, _⟩ := List.map_eq_cons_iff.mp hm
    refine ⟨b, bs, hb, ?_⟩
    have := congrArg Prod.fst hbm
    exact this
  · rw [hback] at hm
    obtain ⟨l1, l2, hl, _, hl2⟩ := List.map_eq_append_iff.mp hm
    obtain ⟨b, bs, hb, hbm, hbs⟩ := List.map_eq_cons_iff.mp hl2
    have hbs2 : bs = [] := by simpa using hbs
    subst hbs2
    refine ⟨l1, b, by rw [hl, hb], ?_⟩
    have := congrArg Prod.snd hbm
    exact this

/-- Witness of `one_mark_per_window`: two bins, live time 300, records at 300 and 400,
and the record at 600, for which the trigger fires. -/
theorem one_mark_per_window_witness :
    (1 ≤ 2 ∧ 100 * 2 ≤ 300 + 0 ∧ 300 + 0 < U64 ∧
      List.Chain' (fun a b : InteractionTimeRecord => a.timeNS ≤ b.timeNS)
        ([⟨300, 7⟩, ⟨400, 8⟩] ++ [⟨600, 9⟩]) ∧
      ∀ x ∈ [(⟨300, 7⟩ : InteractionTimeRecord), ⟨400, 8⟩] ++ [⟨600, 9⟩],
        x.timeNS / 100 < 2147483648) ∧
    ∃ s s1, (DigitsWriteoutBuffer.create 2 ⟨300, 0, 0⟩).run
        ([⟨300, 7⟩, ⟨400, 8⟩].map Call.forwardMarker) = Outcome.done s ∧
      s.forwardMarker ⟨600, 9⟩ = Outcome.done s1 ∧
      (s.triggerFires 600 = true →
        s1.mTimedDigitsFuture.countP (fun b => b.mEndWindow) = 1 ∧
        s1.mTimedDigitsFuture.countP (fun b => b.mTriggerColl) = 1 ∧
        (∃ front rest, s1.mTimedDigitsFuture = front :: rest ∧ front.mTriggerColl = true) ∧
        (∃ front back, s1.mTimedDigitsFuture = front ++ [back] ∧ back.mEndWindow = true)) :=
  ⟨⟨by decide, by decide, by decide, by simp, by decide⟩,
    one_mark_per_window 2 ⟨300, 0, 0⟩ [⟨300, 7⟩, ⟨400, 8⟩] ⟨600, 9⟩ (by decide) (by decide)
      (by decide) (by simp) (by decide)⟩

/-- C14 at a concrete input.  Three bins, `mLiveTime + mBusyTime = 200`, records at
200, 300 and 400 on a fresh buffer.  The trigger fires at 400, while the window-end bin
of the window of 200 is still in the future queue: after the call the front bin and the
back bin are both window-end bins. -/
theorem two_window_ends_after_trigger :
    ((DigitsWriteoutBuffer.create 3 ⟨200, 0, 0⟩).run (markerCalls [200, 300])).toOption.map
      (fun s => s.triggerFires 400) = some true ∧
    ((DigitsWriteoutBuffer.create 3 ⟨200, 0, 0⟩).run (markerCalls [200, 300, 400])).toOption.map
      (fun s => s.mTimedDigitsFuture.map DigitTimebin.marks)
      = some [(true, true), (false, false), (false, true)] ∧
    ((DigitsWriteoutBuffer.create 3 ⟨200, 0, 0⟩).run (markerCalls [200, 300, 400])).toOption.map
      (fun s => s.mTimedDigitsFuture.countP (fun b => b.mEndWindow)) = some 2 := by
  decide

/-! ## Time stamps in order -/

theorem toInt32_small (x : Nat) (h : x < 2147483648) : toInt32 x = (x : Int) := by
  unfold toInt32 U32
  have h1 : x % 4294967296 = x := Nat.mod_eq_of_lt (by omega)
  rw [h1, if_pos h]

theorem wrapInt32_small (x : Nat) (h : x < 2147483648) : wrapInt32 (x : Int) = (x : Int) := by
  unfold wrapInt32
  have h1 : ((x : Int) % 4294967296).toNat = x := by omega
  rw [h1]
  exact toInt32_small x h

theorem toUInt64_small (x : Nat) (h : x < 2147483648) : toUInt64 (x : Int) = x := by
  unfold toUInt64
  omega

/-- Below `2 ^ 31` the first time stamp of a stamping pass is the event time rounded
down to a multiple of 100. -/
theorem stampBase_small (e : Nat) (h : e < 2147483648) : stampBase e = 100 * (e / 100) := by
  unfold stampBase
  rw [toInt32_small _ (by omega)]
  have h2 : ((e / 100 : Nat) : Int) * 100 = ((100 * (e / 100) : Nat) : Int) := by
    push_cast; ring
  rw [h2, wrapInt32_small _ (by omega), toUInt64_small _ (by omega)]

/-- The stamps after a stamping pass that does not wrap around. -/
theorem stampAll_stampChain (l : List DigitTimebin) : ∀ base, base + 100 * l.length ≤ U64 →
    StampChain ((stampAll base l).map DigitTimebin.stamp) ∧
    ∀ f rest, (stampAll base l).map DigitTimebin.stamp = f :: rest → f.1 = base := by
  induction l with
  | nil =>
    intro base _
    exact ⟨by simp [stampAll, StampChain], by intro f rest h; simp [stampAll] at h⟩
  | cons a rest ih =>
    intro base hb
    simp only [List.length_cons] at hb
    refine ⟨?_, ?_⟩
    · simp only [stampAll, List.map_cons]
      cases rest with
      | nil => simp [stampAll, StampChain]
      | cons c rest2 =>
        have hlt : (base + 100) % U64 = base + 100 := by
          apply Nat.mod_eq_of_lt
          simp only [List.length_cons] at hb
          unfold U64 at *
          omega
        obtain ⟨hc, hh⟩ := ih ((base + 100) % U64) (by rw [hlt]; omega)
        unfold StampChain at hc ⊢
        refine List.chain'_cons'.mpr ⟨?_, hc⟩
        intro y hy _
        have hy2 := hh y _ (List.head?_eq_some_iff.mp hy).choose_spec
        simp only [DigitTimebin.stamp]
        rw [hy2, hlt]
        exact ⟨trivial, rfl⟩
    · intro f r h
      simp only [stampAll, List.map_cons, List.cons.injEq] at h
      rw [← h.1]
      rfl

theorem timeOrdered_concat (past : List DigitTimebin) (front : DigitTimebin)
    (h : TimeOrdered past) (hle : ∀ p ∈ past, p.mTimestamp ≤ front.mTimestamp) :
    TimeOrdered (past ++ [front]) := by
  unfold TimeOrdered at h ⊢
  refine List.chain'_append.mpr ⟨h, by simp, ?_⟩
  intro x hx y hy
  simp only [List.head?_cons, Option.mem_def, Option.some.injEq] at hy
  rw [← hy]
  exact hle x (List.mem_of_mem_getLast? hx)

theorem timeOrdered_dropOldest (n : Nat) (past : List DigitTimebin) (h : TimeOrdered past) :
    TimeOrdered (dropOldest n past) := by
  unfold dropOldest
  split
  · exact List.Chain'.tail h
  · exact h

/-- A flush attempt keeps the order of the time stamps. -/
theorem flushOnEndWindow_order (s : DigitsWriteoutBuffer) (r : DigitsWriteoutBuffer × Bool)
    (h : s.flushOnEndWindow = Outcome.done r)
    (hv : ∀ call ∈ s.mDigitStream, TimeOrdered call.1.bins) (hp : TimeOrdered s.mTimedDigitsPast) :
    (∀ call ∈ r.1.mDigitStream, TimeOrdered call.1.bins) ∧ TimeOrdered r.1.mTimedDigitsPast ∧
    (∀ p ∈ r.1.mTimedDigitsPast, p ∈ s.mTimedDigitsPast) ∧
    r.1.mTimedDigitsFuture.map DigitTimebin.stamp = s.mTimedDigitsFuture.map DigitTimebin.stamp := by
  have hfut := congrArg (List.map DigitTimebin.stamp) (flushOnEndWindow_future s r h)
  rw [withoutDigits_stamp, withoutDigits_stamp] at hfut
  rcases flushOnEndWindow_done s r h with h1 | ⟨oldest, tl, hpast, h1⟩
  · subst h1
    exact ⟨hv, hp, fun p hp => hp, rfl⟩
  · refine ⟨?_, ?_, ?_, hfut⟩
    · subst h1
      intro call hcall
      simp only [List.mem_append, List.mem_singleton] at hcall
      rcases hcall with hc | hc
      · exact hv call hc
      · rw [hc, ← hpast]; exact hp
    · subst h1; simp [TimeOrdered]
    · subst h1; intro p hp; simp at hp

/-- One bin move keeps the order of the time stamps and uses one iteration. -/
theorem moveFront_ordered (U V k : Nat) (s s1 : DigitsWriteoutBuffer) (front : DigitTimebin)
    (rest : List DigitTimebin) (hf : s.mTimedDigitsFuture = front :: rest)
    (hrec : front.mRecordMode = true) (hUV : V ≤ U + 100)
    (hl : LoopOrdered U V (k + 1) s) (h : s.moveFront = Outcome.done s1) :
    LoopOrdered U V k s1 := by
  obtain ⟨⟨hv, hp, hc, hh⟩, hU, hV⟩ := hl
  have hfs : s.mTimedDigitsFuture.map DigitTimebin.stamp
      = front.stamp :: rest.map DigitTimebin.stamp := by rw [hf]; rfl
  have hfront : front.stamp.2 = true := hrec
  have hple := hh _ _ hfs hfront
  have hVf := hV _ _ hfs hfront
  have hfut1 := congrArg (List.map DigitTimebin.stamp) (moveFront_future s s1 front rest hf h)
  rw [withoutDigits_stamp, withoutDigits_stamp, List.map_append] at hfut1
  unfold DigitsWriteoutBuffer.moveFront at h
  rw [hf] at h
  simp only at h
  obtain ⟨r, hr, hs1⟩ := Outcome.andThen_eq_done.mp h
  simp only [Outcome.done.injEq] at hs1
  subst hs1
  have hsorted : TimeOrdered (dropOldest s.mBufferSize (s.mTimedDigitsPast ++ [front])) :=
    timeOrdered_dropOldest _ _ (timeOrdered_concat _ _ hp hple)
  obtain ⟨hv1, hp1, hsub, _⟩ := flushOnEndWindow_order _ r hr hv hsorted
  simp only at hsub
  have hmem : ∀ p ∈ r.1.mTimedDigitsPast, p.mTimestamp ≤ front.mTimestamp := by
    intro p hp0
    have := dropOldest_subset _ _ p (hsub p hp0)
    simp only [List.mem_append, List.mem_singleton] at this
    rcases this with h2 | h2
    · exact hple p h2
    · rw [h2]
  have hchain1 : StampChain (r.1.mTimedDigitsFuture.map DigitTimebin.stamp) := by
    rw [hfut1]
    rw [hfs] at hc
    unfold StampChain at hc ⊢
    refine List.chain'_append.mpr ⟨List.Chain'.tail hc, by simp, ?_⟩
    intro x _ y hy hy2
    simp only [List.map_cons, List.map_nil, List.head?_cons, Option.mem_def,
      Option.some.injEq] at hy
    rw [← hy] at hy2
    exact absurd hy2 (by decide)
  have hhead1 : ∀ f rest1, r.1.mTimedDigitsFuture.map DigitTimebin.stamp = f :: rest1 →
      f.2 = true → f.1 = front.mTimestamp + 100 := by
    intro f rest1 hfr hf2
    rw [hfut1] at hfr
    cases hrest : rest with
    | nil =>
      rw [hrest] at hfr
      simp only [List.map_nil, List.nil_append, List.map_cons, List.cons.injEq] at hfr
      rw [← hfr.1] at hf2
      exact absurd hf2 (by decide)
    | cons b rest2 =>
      rw [hrest] at hfr
      simp only [List.map_cons, List.cons_append, List.cons.injEq] at hfr
      rw [hfs, hrest] at hc
      unfold StampChain at hc
      simp only [List.map_cons] at hc
      have := (List.chain'_cons.mp hc).1
      rw [hfr.1] at this
      exact (this hf2).2
  refine ⟨⟨hv1, hp1, hchain1, ?_⟩, ?_, ?_⟩
  · intro f rest1 hfr hf2 p hp0
    have := hhead1 f rest1 hfr hf2
    have := hmem p hp0
    omega
  · intro p hp0
    have := hmem p hp0
    have : front.stamp.1 = front.mTimestamp := rfl
    omega
  · intro f rest1 hfr hf2
    have := hhead1 f rest1 hfr hf2
    have : front.stamp.1 = front.mTimestamp := rfl
    omega

theorem loopOrdered_mono (U V k : Nat) (s : DigitsWriteoutBuffer) (h : LoopOrdered U V k s) :
    LoopOrdered U V 0 s := by
  obtain ⟨hc, hU, hV⟩ := h
  refine ⟨hc, hU, ?_⟩
  intro f rest hfr hf2
  have := hV f rest hfr hf2
  omega

/-- The bin-moving loop keeps the order of the time stamps. -/
theorem forwardLoop_ordered (U V : Nat) (hUV : V ≤ U + 100) (todo : Nat) :
    ∀ (s s1 : DigitsWriteoutBuffer), LoopOrdered U V todo s →
    forwardLoop todo s = Outcome.done s1 → LoopOrdered U V 0 s1 := by
  induction todo with
  | zero =>
    intro s s1 hl h
    simp only [forwardLoop, Outcome.done.injEq] at h
    subst h; exact hl
  | succ k ih =>
    intro s s1 hl h
    unfold forwardLoop at h
    cases hf : s.mTimedDigitsFuture with
    | nil => rw [hf] at h; simp at h
    | cons front rest =>
      rw [hf] at h
      simp only [List.head?_cons] at h
      by_cases hr : front.mRecordMode = true
      · simp only [hr, if_true] at h
        obtain ⟨s2, hs2, hrest⟩ := Outcome.andThen_eq_done.mp h
        exact ih s2 s1 (moveFront_ordered U V k s s2 front rest hf hr hUV hl hs2) hrest
      · simp only [hr, Bool.false_eq_true, if_false, Outcome.done.injEq] at h
        subst h
        exact loopOrdered_mono U V _ s hl

theorem addDigitsLoop_stamp (towerID offset : Nat) : ∀ (todo : Nat) (future : List DigitTimebin)
    (digList : List LabeledDigit) (out : List DigitTimebin),
    addDigitsLoop towerID offset todo future digList = Outcome.done out →
    out.map DigitTimebin.stamp = future.map DigitTimebin.stamp := by
  intro todo
  induction todo with
  | zero =>
    intro future digList out h
    simp only [addDigitsLoop, Outcome.done.injEq] at h
    rw [h]
  | succ k ih =>
    intro future digList out h
    cases future with
    | nil => simp [addDigitsLoop] at h
    | cons b future =>
      cases digList with
      | nil => simp [addDigitsLoop] at h
      | cons d digList =>
        simp only [addDigitsLoop] at h
        obtain ⟨rest, hrest, hout⟩ := Outcome.andThen_eq_done.mp h
        simp only [Outcome.done.injEq] at hout
        rw [← hout]
        simp only [List.map_cons, ih future digList rest hrest]
        rfl

/-- A deposit keeps the order of the time stamps. -/
theorem addDigits_ordered (n : Nat) (s s1 : DigitsWriteoutBuffer) (towerID : Nat)
    (digList : List LabeledDigit) (ho : Ordered n s)
    (h : s.addDigits towerID digList = Outcome.done s1) : Ordered n s1 := by
  obtain ⟨a1, a2, a3, a4, a5, a6, a7, a8, a9⟩ := addDigits_frame s s1 towerID digList h
  have hst : s1.mTimedDigitsFuture.map DigitTimebin.stamp
      = s.mTimedDigitsFuture.map DigitTimebin.stamp := by
    unfold DigitsWriteoutBuffer.addDigits at h
    obtain ⟨out, hout, h⟩ := Outcome.andThen_eq_done.mp h
    simp only [Outcome.done.injEq] at h
    rw [← h]
    exact addDigitsLoop_stamp _ _ _ _ _ _ hout
  obtain ⟨b1, b2, b3, b4, ⟨hv, hp, hc, hh⟩, hU, hV⟩ := ho
  refine ⟨by rw [a1, b1], by rw [a7, b2], by rw [a5, a6]; exact b3, by rw [a6]; exact b4,
    ⟨by rw [a9]; exact hv, by rw [a8]; exact hp, by rw [hst]; exact hc, ?_⟩, ?_, ?_⟩
  · rw [hst, a8]; exact hh
  · rw [a8, a6]; exact hU
  · rw [hst, a5, a6]; exact hV

/-- A `forwardMarker` call with an event time that is not before the last one, and
below `2 ^ 31`, keeps the order of the time stamps. -/
theorem forwardMarker_ordered (n : Nat) (s s3 : DigitsWriteoutBuffer)
    (record : InteractionTimeRecord) (hn : n < U32) (ho : Ordered n s)
    (hle : s.mLastEventTime ≤ record.timeNS) (hrange : record.timeNS < 2147483648)
    (h : s.forwardMarker record = Outcome.done s3) :
    Ordered n s3 ∧ s3.mLastEventTime = record.timeNS := by
  obtain ⟨hsz, hlen, htl, hlast, ⟨hcore, hU, hV⟩⟩ := ho
  obtain ⟨s1, s2, h1, h2, h3⟩ := forwardMarker_stages s s3 record h
  obtain ⟨a1, a2, a3, a4, a5, a6, a7, _⟩ := forwardLoop_frame _ s s1 h1
  have hsd := sampleDifference_le s record.timeNS htl hle (by unfold U64; omega)
  have hloop : LoopOrdered (100 * (record.timeNS / 100))
      (100 * ((record.timeNS - s.mTriggerTime) / 100 + s.mTriggerTime / 100 + 1))
      (s.sampleDifference record.timeNS).toNat s := by
    refine ⟨hcore, ?_, ?_⟩
    · intro p hp
      have := hU p hp
      omega
    · intro f rest hfr hf2
      have := hV f rest hfr hf2
      have hmono : (s.mLastEventTime - s.mTriggerTime) / 100
          ≤ (record.timeNS - s.mTriggerTime) / 100 := Nat.div_le_div_right (by omega)
      omega
  obtain ⟨⟨hv1, hp1, hc1, hh1⟩, hU1, hV1⟩ := forwardLoop_ordered _ _ (by omega) _ s s1 hloop h1
  have hlen1 : s1.mTimedDigitsFuture.length = n := by rw [a7, hlen]
  obtain ⟨c1, _, _, _, c5, c6, c7, c8⟩ := preTriggerStep_frame s2 record.timeNS
  obtain ⟨b1, _, _, _, b5, b6, b7⟩ := triggerStep_frame s1 s2 record h2
  have hbase := stampBase_small record.timeNS hrange
  have hfut3 : (∃ Y : List DigitTimebin, Y.length = n ∧
        (s2.preTriggerStep record.timeNS).mTimedDigitsFuture
          = stampAll (100 * (record.timeNS / 100)) Y) ∨
      ((s2.preTriggerStep record.timeNS).mTimedDigitsFuture = s1.mTimedDigitsFuture ∧
        s2.mTriggerTime = s.mTriggerTime) := by
    rw [preTriggerStep_future, hbase]
    by_cases hpre : s2.preTriggerFires record.timeNS = true
    · rw [if_pos hpre]
      exact Or.inl ⟨_, by rw [b5, hlen1], rfl⟩
    · rw [if_neg hpre]
      cases hc : s1.triggerFires record.timeNS with
      | true =>
        have hne1 : s1.mTimedDigitsFuture ≠ [] := by
          intro h0
          unfold DigitsWriteoutBuffer.triggerStep at h2
          rw [hc, h0] at h2
          simp at h2
        rw [triggerStep_fires s1 record hne1 hc] at h2
        simp only [Outcome.done.injEq] at h2
        left
        refine ⟨_, ?_, by rw [← h2, hbase]⟩
        simp [onBack_length, onFront_length, hlen1]
      | false =>
        rw [triggerStep_skip s1 record hc] at h2
        simp only [Outcome.done.injEq] at h2
        right
        rw [← h2]
        exact ⟨rfl, a5⟩
  have htrig2 : s2.mTriggerTime = record.timeNS ∨ s2.mTriggerTime = s.mTriggerTime := by
    cases hc : s1.triggerFires record.timeNS with
    | true =>
      have hne1 : s1.mTimedDigitsFuture ≠ [] := by
        intro h0
        unfold DigitsWriteoutBuffer.triggerStep at h2
        rw [hc, h0] at h2
        simp at h2
      rw [triggerStep_fires s1 record hne1 hc] at h2
      simp only [Outcome.done.injEq] at h2
      left; rw [← h2]
    | false =>
      rw [triggerStep_skip s1 record hc] at h2
      simp only [Outcome.done.injEq] at h2
      right; rw [← h2]; exact a5
  subst h3
  refine ⟨⟨by simp only; rw [c1, b1, a1, hsz], by simp only; rw [c6, b5, hlen1], ?_, hrange,
    ⟨?_, ?_, ?_, ?_⟩, ?_, ?_⟩, rfl⟩
  · simp only
    rw [c5]
    rcases htrig2 with h0 | h0 <;> omega
  · simp only; rw [c8, b7]; exact hv1
  · simp only; rw [c7, b6]; exact hp1
  · simp only
    rcases hfut3 with ⟨Y, hY, hfy⟩ | ⟨hsame, _⟩
    · rw [hfy]
      exact (stampAll_stampChain Y _ (by rw [hY]; unfold U64 U32 at *; omega)).1
    · rw [hsame]; exact hc1
  · simp only
    intro f rest hfr hf2 p hp
    rw [c7, b6] at hp
    rcases hfut3 with ⟨Y, hY, hfy⟩ | ⟨hsame, _⟩
    · rw [hfy] at hfr
      have := (stampAll_stampChain Y _ (by rw [hY]; unfold U64 U32 at *; omega)).2 f rest hfr
      have := hU1 p hp
      omega
    · rw [hsame] at hfr
      exact hh1 f rest hfr hf2 p hp
  · simp only
    intro p hp
    rw [c7, b6] at hp
    exact hU1 p hp
  · simp only
    intro f rest hfr hf2
    rw [c5]
    rcases hfut3 with ⟨Y, hY, hfy⟩ | ⟨hsame, htr⟩
    · rw [hfy] at hfr
      have := (stampAll_stampChain Y _ (by rw [hY]; unfold U64 U32 at *; omega)).2 f rest hfr
      rcases htrig2 with h0 | h0
      · rw [h0]; omega
      · rw [h0]; omega
    · rw [hsame] at hfr
      have := hV1 f rest hfr hf2
      rw [htr]
      omega

/-- The loop of `finish()` keeps the order of the time stamps. -/
theorem finishLoop_ordered (todo : Nat) : ∀ (s s1 : DigitsWriteoutBuffer), OrderCore s →
    finishLoop todo s = Outcome.done s1 → OrderCore s1 := by
  induction todo with
  | zero =>
    intro s s1 hc h
    simp only [finishLoop, Outcome.done.injEq] at h
    subst h; exact hc
  | succ k ih =>
    intro s s1 hcore h
    unfold finishLoop at h
    cases hf : s.mTimedDigitsFuture with
    | nil => rw [hf] at h; simp at h
    | cons front rest =>
      rw [hf] at h
      simp only at h
      by_cases hidle : (!front.mRecordMode || front.mDigitMap.isEmpty) = true
      · rw [if_pos hidle] at h
        simp only [Outcome.done.injEq] at h
        subst h; exact hcore
      · rw [if_neg hidle] at h
        simp only [Bool.or_eq_true, Bool.not_eq_true', not_or, Bool.not_eq_false] at hidle
        obtain ⟨hv, hp, hc, hh⟩ := hcore
        have hfs : s.mTimedDigitsFuture.map DigitTimebin.stamp
            = front.stamp :: rest.map DigitTimebin.stamp := by rw [hf]; rfl
        have hfront : front.stamp.2 = true := hidle.1
        have hple := hh _ _ hfs hfront
        obtain ⟨r, hr, h⟩ := Outcome.andThen_eq_done.mp h
        have hsorted : TimeOrdered (dropOldest s.mBufferSize (s.mTimedDigitsPast ++ [front])) :=
          timeOrdered_dropOldest _ _ (timeOrdered_concat _ _ hp hple)
        obtain ⟨hv1, hp1, hsub, hfut1⟩ := flushOnEndWindow_order _ r hr hv hsorted
        simp only at hsub hfut1
        have hcore1 : OrderCore r.1 := by
          refine ⟨hv1, hp1, ?_, ?_⟩
          · rw [hfut1]
            rw [hfs] at hc
            exact List.Chain'.tail hc
          · intro f rest1 hfr hf2 p hp0
            rw [hfut1] at hfr
            have hmem := dropOldest_subset _ _ p (hsub p hp0)
            cases hrest : rest with
            | nil => rw [hrest] at hfr; simp at hfr
            | cons b rest2 =>
              rw [hrest] at hfr
              simp only [List.map_cons, List.cons.injEq] at hfr
              rw [hfs, hrest] at hc
              unfold StampChain at hc
              simp only [List.map_cons] at hc
              have hstep := (List.chain'_cons.mp hc).1
              rw [hfr.1] at hstep
              have h100 := (hstep hf2).2
              have hfe : front.stamp.1 = front.mTimestamp := rfl
              simp only [List.mem_append, List.mem_singleton] at hmem
              rcases hmem with h2 | h2
              · have := hple p h2
                omega
              · rw [h2]; omega
        split at h
        · simp only [Outcome.done.injEq] at h
          subst h; exact hcore1
        · exact ih r.1 s1 hcore1 h

theorem run_append (a b : List Call) : ∀ s : DigitsWriteoutBuffer,
    s.run (a ++ b) = (s.run a).andThen fun s1 => s1.run b := by
  induction a with
  | nil => intro s; rfl
  | cons c cs ih =>
    intro s
    simp only [List.cons_append, DigitsWriteoutBuffer.run]
    rw [Outcome.andThen_assoc]
    congr 1
    funext s1
    exact ih s1

theorem run_ordered (n : Nat) (hn : n < U32) (body : List Call) :
    ∀ s s1 : DigitsWriteoutBuffer, Ordered n s →
    (∀ c ∈ body, c.isDepositOrMarker = true) →
    List.Chain (fun a b => a ≤ b) s.mLastEventTime (eventTimes body) →
    (∀ t ∈ eventTimes body, t < 2147483648) →
    s.run body = Outcome.done s1 → Ordered n s1 := by
  induction body with
  | nil =>
    intro s s1 ho _ _ _ h
    simp only [DigitsWriteoutBuffer.run, Outcome.done.injEq] at h
    subst h; exact ho
  | cons c cs ih =>
    intro s s1 ho hbody hch hrg h
    simp only [DigitsWriteoutBuffer.run] at h
    obtain ⟨s2, h2, hrest⟩ := Outcome.andThen_eq_done.mp h
    have hcs : ∀ c ∈ cs, c.isDepositOrMarker = true :=
      fun x hx => hbody x (List.mem_cons_of_mem _ hx)
    cases c with
    | addDigits towerID digList =>
      simp only [DigitsWriteoutBuffer.call] at h2
      have ho2 := addDigits_ordered n s s2 towerID digList ho h2
      have hl2 : s2.mLastEventTime = s.mLastEventTime :=
        (addDigits_frame s s2 towerID digList h2).2.2.2.2.2.1
      simp only [eventTimes] at hch hrg
      exact ih s2 s1 ho2 hcs (by rw [hl2]; exact hch) hrg hrest
    | forwardMarker record =>
      simp only [DigitsWriteoutBuffer.call] at h2
      simp only [eventTimes, List.chain_cons, List.mem_cons, forall_eq_or_imp] at hch hrg
      obtain ⟨ho2, hl2⟩ := forwardMarker_ordered n s s2 record hn ho hch.1 hrg.1 h2
      exact ih s2 s1 ho2 hcs (by rw [hl2]; exact hch.2) hrg.2 hrest
    | finish => have := hbody Call.finish (List.mem_cons_self _ _); simp [Call.isDepositOrMarker] at this
    | reserve => have := hbody Call.reserve (List.mem_cons_self _ _); simp [Call.isDepositOrMarker] at this
    | clear => have := hbody Call.clear (List.mem_cons_self _ _); simp [Call.isDepositOrMarker] at this

theorem create_ordered (n : Nat) (simParam : SimParam) :
    Ordered n (DigitsWriteoutBuffer.create n simParam) := by
  refine ⟨rfl, by simp [DigitsWriteoutBuffer.create], le_refl _,
    by simp [DigitsWriteoutBuffer.create], ⟨?_, ?_, ?_, ?_⟩, ?_, ?_⟩
  · intro call hc; simp [DigitsWriteoutBuffer.create] at hc
  · simp [DigitsWriteoutBuffer.create, TimeOrdered]
  · simp only [DigitsWriteoutBuffer.create, List.map_replicate]
    unfold StampChain
    apply List.chain'_replicate_of_rel
    intro h
    exact absurd h (by decide)
  · intro f rest _ _ p hp; simp [DigitsWriteoutBuffer.create] at hp
  · intro p hp; simp [DigitsWriteoutBuffer.create] at hp
  · intro f rest hfr hf2
    simp only [DigitsWriteoutBuffer.create, List.map_replicate] at hfr
    have hmem : f ∈ List.replicate n ({} : DigitTimebin).stamp := by rw [hfr]; simp
    have := (List.mem_replicate.mp hmem).2
    rw [this] at hf2
    exact absurd hf2 (by decide)

/-- C12 as the code has it.  A fresh buffer has `n` bins (`n` an `unsigned int`).  A
run consists of `addDigits` and `forwardMarker` calls, the event times of the
`forwardMarker` calls non-decreasing and below `2 ^ 31` (no time stamp overflows), and
may end with one `finish()`.  If the run returns, then for every span handed to the
sink the bins of the past queue it was built over are in non-decreasing order of time
stamp from the oldest bin to the newest, and so are the bins a reader of the span
finds, however many bins the storage block of the first bin holds. -/
theorem flushed_views_time_ordered (n : Nat) (simParam : SimParam) (body tail : List Call)
    (s : DigitsWriteoutBuffer) (hn : n < U32)
    (hbody : ∀ c ∈ body, c.isDepositOrMarker = true)
    (htail : tail = [] ∨ tail = [Call.finish])
    (hsorted : List.Chain' (fun a b : Nat => a ≤ b) (eventTimes body))
    (hrange : ∀ t ∈ eventTimes body, t < 2147483648)
    (hrun : (DigitsWriteoutBuffer.create n simParam).run (body ++ tail) = Outcome.done s) :
    ∀ call ∈ s.mDigitStream,
      List.Chain' (fun a b : DigitTimebin => a.mTimestamp ≤ b.mTimestamp) call.1.bins ∧
      ∀ block, List.Chain'
        (fun a b : Option DigitTimebin =>
          ∀ x y, a = some x → b = some y → x.mTimestamp ≤ y.mTimestamp)
        (call.1.read block) := by
  suffices hbins : ∀ call ∈ s.mDigitStream,
      List.Chain' (fun a b : DigitTimebin => a.mTimestamp ≤ b.mTimestamp) call.1.bins from
    fun call hcall => ⟨hbins call hcall, fun block =>
      Span.read_chain (fun a b => a.mTimestamp ≤ b.mTimestamp) block call.1 (hbins call hcall)⟩
  rw [run_append] at hrun
  obtain ⟨s1, h1, h2⟩ := Outcome.andThen_eq_done.mp hrun
  have hchain : List.Chain (fun a b => a ≤ b)
      (DigitsWriteoutBuffer.create n simParam).mLastEventTime (eventTimes body) := by
    cases he : eventTimes body with
    | nil => exact List.Chain.nil
    | cons t ts =>
      rw [he] at hsorted
      exact List.chain_cons.mpr ⟨Nat.zero_le _, hsorted⟩
  have ho1 := run_ordered n hn body _ s1 (create_ordered n simParam) hbody hchain hrange h1
  rcases htail with ht | ht
  · subst ht
    simp only [DigitsWriteoutBuffer.run, Outcome.done.injEq] at h2
    subst h2
    exact ho1.2.2.2.2.1.1
  · subst ht
    simp only [DigitsWriteoutBuffer.run, DigitsWriteoutBuffer.call] at h2
    obtain ⟨s2, hfin, h3⟩ := Outcome.andThen_eq_done.mp h2
    simp only [Outcome.done.injEq] at h3
    subst h3
    exact (finishLoop_ordered _ s1 s2 ho1.2.2.2.2.1 hfin).1

/-! ## Further concrete runs -/

/-- Witness of `flushed_views_time_ordered`: two bins, a trigger at 1000, a deposit, a
`forwardMarker` at 1100 and `finish()`, which flushes one span, over a past queue with
the time stamps 1000 and 1100. -/
theorem flushed_views_time_ordered_witness :
    (2 < U32 ∧ (∀ c ∈ exampleCalls.take 3, c.isDepositOrMarker = true) ∧
      List.Chain' (fun a b : Nat => a ≤ b) (eventTimes (exampleCalls.take 3)) ∧
      (∀ t ∈ eventTimes (exampleCalls.take 3), t < 2147483648) ∧
      (DigitsWriteoutBuffer.create 2 ⟨1000, 0, 0⟩).run (exampleCalls.take 3 ++ [Call.finish])
        = Outcome.done exampleFinished) ∧
    exampleFinished.mDigitStream.map (fun call => call.1.bins.map fun b => b.mTimestamp)
      = [[1000, 1100]] ∧
    ∀ call ∈ exampleFinished.mDigitStream,
      List.Chain' (fun a b : DigitTimebin => a.mTimestamp ≤ b.mTimestamp) call.1.bins ∧
      ∀ block, List.Chain'
        (fun a b : Option DigitTimebin =>
          ∀ x y, a = some x → b = some y → x.mTimestamp ≤ y.mTimestamp)
        (call.1.read block) :=
  ⟨⟨by decide, by decide, by simp [exampleCalls, eventTimes], by decide, by decide⟩, by decide,
    flushed_views_time_ordered 2 ⟨1000, 0, 0⟩ (exampleCalls.take 3) [Call.finish]
      exampleFinished (by decide) (by decide) (Or.inr rfl)
      (by simp [exampleCalls, eventTimes]) (by decide) (by decide)⟩

/-- C12 at a concrete input.  Three bins, live time 300, pre-trigger time 300.  A
pre-trigger stamping at 0, a deposit, a record at 100, then `finish()` in the middle of
the run, which moves the bins stamped 100 and 200 to the past queue without pushing
bins in their place; records at 200, 300 and 400 follow.  The one span handed to the
sink is built over a past queue with the time stamps 300, 200, 300 from the oldest bin
to the newest.  Whenever the storage block of the first bin holds the second one as
well, a reader of the span finds the bin stamped 300 followed by the bin stamped 200:
they are not in non-decreasing order. -/
theorem finish_midrun_breaks_order :
    ∃ s, (DigitsWriteoutBuffer.create 3 ⟨300, 0, 300⟩).run
        [Call.forwardMarker ⟨0, 0⟩, Call.addDigits 42 [⟨5, 1⟩, ⟨6, 2⟩, ⟨7, 3⟩],
          Call.forwardMarker ⟨100, 0⟩, Call.finish, Call.forwardMarker ⟨200, 0⟩,
          Call.forwardMarker ⟨300, 0⟩, Call.forwardMarker ⟨400, 0⟩] = Outcome.done s ∧
      s.mDigitStream.map (fun call => call.1.bins.map fun b => b.mTimestamp)
        = [[300, 200, 300]] ∧
      ∃ call ∈ s.mDigitStream,
        (¬ List.Chain' (fun a b : DigitTimebin => a.mTimestamp ≤ b.mTimestamp) call.1.bins) ∧
        ∀ block, 2 ≤ block →
          ((call.1.read block).take 2).map (fun entry => entry.map fun b => b.mTimestamp)
            = [some 300, some 200] ∧
          ¬ List.Chain'
            (fun a b : Option DigitTimebin =>
              ∀ x y, a = some x → b = some y → x.mTimestamp ≤ y.mTimestamp)
            (call.1.read block) := by
  have hdec : ((DigitsWriteoutBuffer.create 3 ⟨300, 0, 300⟩).run
        [Call.forwardMarker ⟨0, 0⟩, Call.addDigits 42 [⟨5, 1⟩, ⟨6, 2⟩, ⟨7, 3⟩],
          Call.forwardMarker ⟨100, 0⟩, Call.finish, Call.forwardMarker ⟨200, 0⟩,
          Call.forwardMarker ⟨300, 0⟩, Call.forwardMarker ⟨400, 0⟩]).toOption.map
      (fun s => s.mDigitStream.map fun call => call.1.bins.map fun b => b.mTimestamp)
      = some [[300, 200, 300]] := by decide
  cases h : (DigitsWriteoutBuffer.create 3 ⟨300, 0, 300⟩).run
        [Call.forwardMarker ⟨0, 0⟩, Call.addDigits 42 [⟨5, 1⟩, ⟨6, 2⟩, ⟨7, 3⟩],
          Call.forwardMarker ⟨100, 0⟩, Call.finish, Call.forwardMarker ⟨200, 0⟩,
          Call.forwardMarker ⟨300, 0⟩, Call.forwardMarker ⟨400, 0⟩] with
  | fault e =>
    rw [h] at hdec
    simp [Outcome.toOption] at hdec
  | done s =>
    rw [h] at hdec
    simp only [Outcome.toOption, Option.map_some', Option.some.injEq] at hdec
    refine ⟨s, rfl, hdec, ?_⟩
    cases hs : s.mDigitStream with
    | nil => rw [hs] at hdec; simp at hdec
    | cons call rest =>
      rw [hs] at hdec
      simp only [List.map_cons, List.cons.injEq] at hdec
      have hstamps := hdec.1
      refine ⟨call, List.mem_cons_self _ _, fun hch => ?_, fun block hblock => ?_⟩
      · have hm : List.Chain' (fun a b : Nat => a ≤ b)
            (call.1.bins.map fun b => b.mTimestamp) := (List.chain'_map _).mpr hch
        rw [hstamps] at hm
        simp at hm
      · obtain ⟨k, rfl⟩ : ∃ k, block = k + 2 := ⟨block - 2, by omega⟩
        cases hb : call.1.bins with
        | nil => rw [hb] at hstamps; simp at hstamps
        | cons a tl =>
          cases tl with
          | nil => rw [hb] at hstamps; simp at hstamps
          | cons b tl =>
            rw [hb] at hstamps
            simp only [List.map_cons, List.cons.injEq] at hstamps
            refine ⟨?_, fun hch => ?_⟩
            · simp [Span.read, hb, hstamps.1, hstamps.2.1]
            · simp only [Span.read, hb, List.take_succ_cons, List.map_cons,
                List.cons_append] at hch
              have hab := (List.chain'_cons.mp hch).1 a b rfl rfl
              omega

/-- Witness of `flushed_view_nonempty`: the buffer of two bins after a trigger at 1000,
a deposit and a `forwardMarker` at 1100, where `finish()` flushes a view of two bins. -/
theorem flushed_view_nonempty_witness :
    1 ≤ exampleAfterThree.mBufferSize ∧
    exampleAfterThree.finish = Outcome.done exampleFinished ∧
    ∀ s1, exampleAfterThree.finish = Outcome.done s1 →
      ∃ added, s1.mDigitStream = exampleAfterThree.mDigitStream ++ added ∧
        ∀ call ∈ added, call.1.bins ≠ [] :=
  ⟨by decide, by decide, (flushed_view_nonempty exampleAfterThree (by decide)).2.2⟩

/-- Witness of `finish_idle_noop`: a front bin in record mode with an empty channel
map, ahead of a window-end bin that holds digits. -/
theorem finish_idle_noop_witness :
    ({ exampleAfterThree with
        mTimedDigitsFuture := [⟨1000, true, false, true, some ⟨1000, 7⟩, []⟩,
          ⟨1100, true, true, false, none, [(42, [⟨6, 2⟩])]⟩] } : DigitsWriteoutBuffer).finish
      = Outcome.done { exampleAfterThree with
        mTimedDigitsFuture := [⟨1000, true, false, true, some ⟨1000, 7⟩, []⟩,
          ⟨1100, true, true, false, none, [(42, [⟨6, 2⟩])]⟩] } :=
  finish_idle_noop _ ⟨1000, true, false, true, some ⟨1000, 7⟩, []⟩
    [⟨1100, true, true, false, none, [(42, [⟨6, 2⟩])]⟩] rfl (Or.inr rfl)

/-- Witness of `addDigits_changes_one_tower`: a deposit of two digits for tower 42 on
`exampleBuffer`. -/
theorem addDigits_changes_one_tower_witness :
    (exampleBuffer.mTimedDigitsFuture.length = exampleBuffer.mBufferSize ∧
      [(⟨5, 1⟩ : LabeledDigit), ⟨6, 2⟩].length = exampleBuffer.mBufferSize) ∧
    ∃ s1, exampleBuffer.addDigits 42 [⟨5, 1⟩, ⟨6, 2⟩] = Outcome.done s1 ∧
      s1.mTimedDigitsFuture.length = exampleBuffer.mTimedDigitsFuture.length ∧
      s1.mTimedDigitsPast = exampleBuffer.mTimedDigitsPast ∧
      s1.mDigitStream = exampleBuffer.mDigitStream :=
  ⟨⟨by decide, by decide⟩,
    (addDigits_changes_one_tower exampleBuffer 42 [⟨5, 1⟩, ⟨6, 2⟩] (by decide) (by decide)).elim
      fun s1 h => ⟨s1, h.1, h.2.1, h.2.2.2.1, h.2.2.2.2.1⟩⟩

/-! ## The time since the last trigger -/

/-- What a `forwardMarker` call does to the times: the last event time becomes the
event time, the trigger time becomes the event time when the trigger condition holds
and is kept otherwise; the live time and the busy time are kept. -/
theorem forwardMarker_times (s s3 : DigitsWriteoutBuffer) (record : InteractionTimeRecord)
    (h : s.forwardMarker record = Outcome.done s3) :
    s3.mLastEventTime = record.timeNS ∧ s3.mLiveTime = s.mLiveTime ∧
    s3.mBusyTime = s.mBusyTime ∧
    ((s.triggerFires record.timeNS = true ∧ s3.mTriggerTime = record.timeNS) ∨
      (s.triggerFires record.timeNS = false ∧ s3.mTriggerTime = s.mTriggerTime)) := by
  obtain ⟨s1, s2, h1, h2, h3⟩ := forwardMarker_stages s s3 record h
  obtain ⟨_, a2, a3, _, a5, _, _, _⟩ := forwardLoop_frame _ s s1 h1
  obtain ⟨_, b2, b3, _, _, _, _⟩ := triggerStep_frame s1 s2 record h2
  obtain ⟨_, c2, c3, _, c5, _, _, _⟩ := preTriggerStep_frame s2 record.timeNS
  have hfire := triggerFires_after_loop _ s s1 record.timeNS h1
  subst h3
  refine ⟨rfl, by simp only; rw [c2, b2, a2], by simp only; rw [c3, b3, a3], ?_⟩
  simp only
  rw [c5, ← hfire]
  cases hc : s1.triggerFires record.timeNS with
  | true =>
    have hne1 : s1.mTimedDigitsFuture ≠ [] := by
      intro h0
      unfold DigitsWriteoutBuffer.triggerStep at h2
      rw [hc, h0] at h2
      simp at h2
    rw [triggerStep_fires s1 record hne1 hc] at h2
    simp only [Outcome.done.injEq] at h2
    left
    rw [← h2]
    exact ⟨rfl, rfl⟩
  | false =>
    rw [triggerStep_skip s1 record hc] at h2
    simp only [Outcome.done.injEq] at h2
    right
    rw [← h2]
    exact ⟨rfl, a5⟩

/-- After a `forwardMarker` call with an event time not before the trigger time, the
time since the last trigger is below the sum of the live time and the busy time, as
the machine computes it. -/
theorem forwardMarker_timing (s s3 : DigitsWriteoutBuffer) (record : InteractionTimeRecord)
    (hge : s.mTriggerTime ≤ record.timeNS) (hrange : record.timeNS < U64)
    (h : s.forwardMarker record = Outcome.done s3) :
    s3.mLastEventTime = record.timeNS ∧ s3.mTriggerTime ≤ s3.mLastEventTime ∧
    s3.mLiveTime = s.mLiveTime ∧ s3.mBusyTime = s.mBusyTime ∧
    (0 < s.mLiveTime + s.mBusyTime →
      s3.mLastEventTime - s3.mTriggerTime < s.mLiveTime + s.mBusyTime) ∧
    (0 < (s.mLiveTime + s.mBusyTime) % U64 →
      s3.mLastEventTime - s3.mTriggerTime < (s.mLiveTime + s.mBusyTime) % U64) := by
  obtain ⟨hlast, hlive, hbusy, htrig⟩ := forwardMarker_times s s3 record h
  have hmod : (s.mLiveTime + s.mBusyTime) % U64 ≤ s.mLiveTime + s.mBusyTime :=
    Nat.mod_le _ _
  rcases htrig with ⟨_, ht⟩ | ⟨hno, ht⟩
  · refine ⟨hlast, by rw [hlast, ht], hlive, hbusy, ?_, ?_⟩
    · intro hcfg; rw [hlast, ht]; omega
    · intro hcfg; rw [hlast, ht]; omega
  · have hlt : record.timeNS - s.mTriggerTime < (s.mLiveTime + s.mBusyTime) % U64 := by
      unfold DigitsWriteoutBuffer.triggerFires at hno
      rw [usub64_eq _ _ hge hrange] at hno
      simp only [decide_eq_false_iff_not, not_le] at hno
      exact hno
    refine ⟨hlast, by rw [hlast, ht]; exact hge, hlive, hbusy, ?_, ?_⟩
    · intro _; rw [hlast, ht]; omega
    · intro _; rw [hlast, ht]; exact hlt

/-- No call other than `forwardMarker` changes the times. -/
theorem call_times (s s1 : DigitsWriteoutBuffer) (c : Call)
    (hc : ∀ record, c ≠ Call.forwardMarker record) (h : s.call c = Outcome.done s1) :
    s1.mTriggerTime = s.mTriggerTime ∧ s1.mLastEventTime = s.mLastEventTime ∧
    s1.mLiveTime = s.mLiveTime ∧ s1.mBusyTime = s.mBusyTime := by
  cases c with
  | addDigits towerID digList =>
    obtain ⟨_, a2, a3, _, a5, a6, _, _, _⟩ := addDigits_frame s s1 towerID digList h
    exact ⟨a5, a6, a2, a3⟩
  | forwardMarker record => exact absurd rfl (hc record)
  | finish =>
    obtain ⟨_, a2, a3, _, a5, a6, _, _⟩ := finishLoop_frame s.mBufferSize s s1 h
    exact ⟨a5, a6, a2, a3⟩
  | reserve =>
    simp only [DigitsWriteoutBuffer.call] at h
    unfold DigitsWriteoutBuffer.reserve at h
    split at h
    · simp only at h
      split at h
      · simp only [Outcome.done.injEq] at h
        subst h; exact ⟨rfl, rfl, rfl, rfl⟩
      · simp at h
    · simp only [Outcome.done.injEq] at h
      subst h; exact ⟨rfl, rfl, rfl, rfl⟩
  | clear =>
    simp only [DigitsWriteoutBuffer.call, Outcome.done.injEq] at h
    subst h; exact ⟨rfl, rfl, rfl, rfl⟩

/-- The timing invariant along a run: when the trigger time is not after the last
event time and the event times of the run do not decrease, then after every prefix of
the run that returns the time since the last trigger is below the sum of the live time
and the busy time. -/
theorem run_timing (calls : List Call) : ∀ (s s2 : DigitsWriteoutBuffer) (k : Nat),
    s.mTriggerTime ≤ s.mLastEventTime → s.mLastEventTime < U64 →
    s.mLastEventTime - s.mTriggerTime < s.mLiveTime + s.mBusyTime →
    List.Chain (fun a b : Nat => a ≤ b) s.mLastEventTime (eventTimes calls) →
    (∀ t ∈ eventTimes calls, t < U64) →
    s.run (calls.take k) = Outcome.done s2 →
    s2.mTriggerTime ≤ s2.mLastEventTime ∧ s2.mLastEventTime < U64 ∧
    s2.mLastEventTime - s2.mTriggerTime < s2.mLiveTime + s2.mBusyTime ∧
    s2.mLiveTime = s.mLiveTime ∧ s2.mBusyTime = s.mBusyTime := by
  induction calls with
  | nil =>
    intro s s2 k h1 h2 h3 _ _ h
    simp only [List.take_nil, DigitsWriteoutBuffer.run, Outcome.done.injEq] at h
    subst h; exact ⟨h1, h2, h3, rfl, rfl⟩
  | cons c cs ih =>
    intro s s2 k h1 h2 h3 hch hrg h
    cases k with
    | zero =>
      simp only [List.take_zero, DigitsWriteoutBuffer.run, Outcome.done.injEq] at h
      subst h; exact ⟨h1, h2, h3, rfl, rfl⟩
    | succ k =>
      simp only [List.take_succ_cons, DigitsWriteoutBuffer.run] at h
      obtain ⟨s1, hcall, hrest⟩ := Outcome.andThen_eq_done.mp h
      cases c with
      | forwardMarker record =>
        simp only [eventTimes, List.chain_cons, List.mem_cons, forall_eq_or_imp] at hch hrg
        simp only [DigitsWriteoutBuffer.call] at hcall
        obtain ⟨b1, b2, b3, b4, b5, _⟩ :=
          forwardMarker_timing s s1 record (by omega) hrg.1 hcall
        obtain ⟨r1, r2, r3, r4, r5⟩ := ih s1 s2 k b2 (by rw [b1]; exact hrg.1)
          (by rw [b3, b4]; exact b5 (by omega)) (by rw [b1]; exact hch.2) hrg.2 hrest
        exact ⟨r1, r2, r3, by rw [r4, b3], by rw [r5, b4]⟩
      | addDigits towerID digList =>
        obtain ⟨a1, a2, a3, a4⟩ := call_times s s1 _ (fun _ hx => by cases hx) hcall
        simp only [eventTimes] at hch hrg
        obtain ⟨r1, r2, r3, r4, r5⟩ := ih s1 s2 k (by rw [a1, a2]; exact h1)
          (by rw [a2]; exact h2) (by rw [a1, a2, a3, a4]; exact h3)
          (by rw [a2]; exact hch) hrg hrest
        exact ⟨r1, r2, r3, by rw [r4, a3], by rw [r5, a4]⟩
      | finish =>
        obtain ⟨a1, a2, a3, a4⟩ := call_times s s1 _ (fun _ hx => by cases hx) hcall
        simp only [eventTimes] at hch hrg
        obtain ⟨r1, r2, r3, r4, r5⟩ := ih s1 s2 k (by rw [a1, a2]; exact h1)
          (by rw [a2]; exact h2) (by rw [a1, a2, a3, a4]; exact h3)
          (by rw [a2]; exact hch) hrg hrest
        exact ⟨r1, r2, r3, by rw [r4, a3], by rw [r5, a4]⟩
      | reserve =>
        obtain ⟨a1, a2, a3, a4⟩ := call_times s s1 _ (fun _ hx => by cases hx) hcall
        simp only [eventTimes] at hch hrg
        obtain ⟨r1, r2, r3, r4, r5⟩ := ih s1 s2 k (by rw [a1, a2]; exact h1)
          (by rw [a2]; exact h2) (by rw [a1, a2, a3, a4]; exact h3)
          (by rw [a2]; exact hch) hrg hrest
        exact ⟨r1, r2, r3, by rw [r4, a3], by rw [r5, a4]⟩
      | clear =>
        obtain ⟨a1, a2, a3, a4⟩ := call_times s s1 _ (fun _ hx => by cases hx) hcall
        simp only [eventTimes] at hch hrg
        obtain ⟨r1, r2, r3, r4, r5⟩ := ih s1 s2 k (by rw [a1, a2]; exact h1)
          (by rw [a2]; exact h2) (by rw [a1, a2, a3, a4]; exact h3)
          (by rw [a2]; exact hch) hrg hrest
        exact ⟨r1, r2, r3, by rw [r4, a3], by rw [r5, a4]⟩

/-- C21, the trigger-timing invariant.  The future queue is not empty, `mLiveTime +
mBusyTime > 0`, and the event time (an `unsigned long`) is not before the trigger
time.  `forwardMarker` returns when the buffer size is at least 1.  Whenever it
returns, afterwards the last event time is the event time, the trigger time is not
after it, and their difference is below `mLiveTime + mBusyTime` (also below the sum as
the machine computes it, modulo `2 ^ 64`, when that is positive).  Hence along any run
that starts with this call and goes on with calls of any method, the event times of
the `forwardMarker` calls non-decreasing, after every non-empty prefix that returns
the difference `mLastEventTime - mTriggerTime` that `addDigits` computes does not wrap
and is below `mLiveTime + mBusyTime`, and so is the offset `addDigits` adds to the time
stamps of the digits.  Such a run returns when the future queue is full and the run
consists of `forwardMarker`, `reserve` and `addDigits` calls with lists of
`mBufferSize` digits or more. -/
theorem trigger_timing_invariant (s : DigitsWriteoutBuffer) (record : InteractionTimeRecord)
    (hne : s.mTimedDigitsFuture ≠ []) (hcfg : 0 < s.mLiveTime + s.mBusyTime)
    (hge : s.mTriggerTime ≤ record.timeNS) (hrange : record.timeNS < U64) :
    (1 ≤ s.mBufferSize → ∃ s1, s.forwardMarker record = Outcome.done s1) ∧
    (∀ s1, s.forwardMarker record = Outcome.done s1 →
      s1.mLastEventTime = record.timeNS ∧ s1.mTriggerTime ≤ s1.mLastEventTime ∧
      s1.mLastEventTime - s1.mTriggerTime < s1.mLiveTime + s1.mBusyTime ∧
      (0 < (s.mLiveTime + s.mBusyTime) % U64 →
        s1.mLastEventTime - s1.mTriggerTime < (s1.mLiveTime + s1.mBusyTime) % U64)) ∧
    ∀ calls : List Call,
      List.Chain (fun a b : Nat => a ≤ b) record.timeNS (eventTimes calls) →
      (∀ t ∈ eventTimes calls, t < U64) →
      (1 ≤ s.mBufferSize → s.mTimedDigitsFuture.length = s.mBufferSize →
        (∀ c ∈ calls, c.keepsQueue s.mBufferSize = true) →
        ∃ s2, s.run (Call.forwardMarker record :: calls) = Outcome.done s2) ∧
      ∀ k s2, s.run ((Call.forwardMarker record :: calls).take (k + 1)) = Outcome.done s2 →
        s2.mTriggerTime ≤ s2.mLastEventTime ∧
        usub64 s2.mLastEventTime s2.mTriggerTime = s2.mLastEventTime - s2.mTriggerTime ∧
        s2.mLastEventTime - s2.mTriggerTime < s2.mLiveTime + s2.mBusyTime ∧
        s2.depositOffset = (s2.mLastEventTime - s2.mTriggerTime) / 100 * 100 ∧
        s2.depositOffset < s2.mLiveTime + s2.mBusyTime := by
  refine ⟨fun hn => forwardMarker_done s record hne hn, ?_, ?_⟩
  · intro s1 h
    obtain ⟨b1, b2, b3, b4, b5, b6⟩ := forwardMarker_timing s s1 record hge hrange h
    exact ⟨b1, b2, by rw [b3, b4]; exact b5 hcfg, fun hm => by rw [b3, b4]; exact b6 hm⟩
  · intro calls hch hrg
    refine ⟨?_, ?_⟩
    · intro hn hlen hall
      obtain ⟨s2, h2, _, _⟩ := run_keepsQueue (Call.forwardMarker record :: calls) s hn hlen
        (by
          intro c hc
          rcases List.mem_cons.mp hc with h0 | h0
          · rw [h0]; rfl
          · exact hall c h0)
      exact ⟨s2, h2⟩
    · intro k s2 h
      simp only [List.take_succ_cons, DigitsWriteoutBuffer.run, DigitsWriteoutBuffer.call] at h
      obtain ⟨s1, h1, hrest⟩ := Outcome.andThen_eq_done.mp h
      obtain ⟨b1, b2, b3, b4, b5, _⟩ := forwardMarker_timing s s1 record hge hrange h1
      obtain ⟨r1, r2, r3, _, _⟩ := run_timing calls s1 s2 k b2 (by rw [b1]; exact hrange)
        (by rw [b3, b4]; exact b5 hcfg) (by rw [b1]; exact hch) hrg hrest
      have hoff := depositOffset_eq s2 r1 r2
      refine ⟨r1, usub64_eq _ _ r1 r2, r3, hoff, ?_⟩
      rw [hoff]
      have := Nat.div_mul_le_self (s2.mLastEventTime - s2.mTriggerTime) 100
      omega

/-- Witness of `trigger_timing_invariant`: `exampleBuffer` (two bins, live time 1000,
trigger at 1000, last event at 1250) and a record at 1300, followed by a deposit and a
record at 2100, for which the trigger fires. -/
theorem trigger_timing_invariant_witness :
    (exampleBuffer.mTimedDigitsFuture ≠ [] ∧
      0 < exampleBuffer.mLiveTime + exampleBuffer.mBusyTime ∧
      exampleBuffer.mTriggerTime ≤ (⟨1300, 0⟩ : InteractionTimeRecord).timeNS ∧
      (⟨1300, 0⟩ : InteractionTimeRecord).timeNS < U64) ∧
    (∃ s1, exampleBuffer.forwardMarker ⟨1300, 0⟩ = Outcome.done s1 ∧
      s1.mLastEventTime = 1300 ∧ s1.mTriggerTime ≤ s1.mLastEventTime ∧
      s1.mLastEventTime - s1.mTriggerTime < s1.mLiveTime + s1.mBusyTime) ∧
    ∃ s2, exampleBuffer.run [Call.forwardMarker ⟨1300, 0⟩,
        Call.addDigits 42 [⟨5, 1⟩, ⟨6, 2⟩], Call.forwardMarker ⟨2100, 0⟩] = Outcome.done s2 ∧
      s2.mTriggerTime ≤ s2.mLastEventTime ∧
      s2.mLastEventTime - s2.mTriggerTime < s2.mLiveTime + s2.mBusyTime ∧
      s2.depositOffset < s2.mLiveTime + s2.mBusyTime := by
  have h := trigger_timing_invariant exampleBuffer ⟨1300, 0⟩ (by decide) (by decide)
    (by decide) (by decide)
  obtain ⟨s1, h1⟩ := h.1 (by decide)
  obtain ⟨a1, a2, a3, _⟩ := h.2.1 s1 h1
  have hrun := h.2.2 [Call.addDigits 42 [⟨5, 1⟩, ⟨6, 2⟩], Call.forwardMarker ⟨2100, 0⟩]
    (by simp [eventTimes]) (by decide)
  obtain ⟨s2, h2⟩ := hrun.1 (by decide) (by decide) (by decide)
  obtain ⟨b1, _, b3, _, b5⟩ := hrun.2 2 s2 h2
  exact ⟨⟨by decide, by decide, by decide, by decide⟩, ⟨s1, h1, a1, a2, a3⟩, s2, h2, b1, b3, b5⟩

/-! ## The span handed to the sink -/

/-- C3 at a failing input.  A fresh buffer of 32 bins with live time 10000 and records
at 10000 and 13200.  The trigger condition holds for the first record only; the second
call moves the 32 bins of the window, the last of them the window-end bin, and the sink
is called once, with the record of the trigger and a span of 32 entries that points at
the trigger bin.  The past queue holds the window, from the trigger bin to the
window-end bin, but a reader of the span does not find it whenever the storage block
of the trigger bin holds fewer than 32 bins: the reader finds that many bins of the
window, and the last entry of the span is not a bin of the past queue, where the claim
has the window-end bin. -/
theorem window_view_leaves_block :
    (DigitsWriteoutBuffer.create 32 ⟨10000, 0, 0⟩).triggersOf (recordsAt [10000, 13200])
      = [⟨10000, 0⟩] ∧
    ∃ s view,
      (DigitsWriteoutBuffer.create 32 ⟨10000, 0, 0⟩).run (markerCalls [10000, 13200])
        = Outcome.done s ∧
      s.mDigitStream = [(view, some ⟨10000, 0⟩)] ∧ view.size = 32 ∧
      (∃ front last, view.bins = front ++ [last] ∧ last.mEndWindow = true) ∧
      ∀ block, 1 ≤ block → block < 32 →
        (view.read block).length = 32 ∧
        (∃ first, (view.read block).head? = some (some first) ∧
          first.mTriggerColl = true ∧ first.mInterRecord = some ⟨10000, 0⟩) ∧
        (view.read block).countP (fun entry => entry.isSome) = block ∧
        (view.read block).getLast? = some none := by
  have htrig : (DigitsWriteoutBuffer.create 32 ⟨10000, 0, 0⟩).triggersOf
      (recordsAt [10000, 13200]) = [⟨10000, 0⟩] := by decide
  obtain ⟨s, view, hrun, hlog, hsize, ⟨first, rest, hfirst, hT, hR⟩, hlast⟩ :=
    window_single_flush 32 ⟨10000, 0, 0⟩ (recordsAt [10000, 13200]) ⟨10000, 0⟩
      (by decide) htrig (by decide)
  refine ⟨htrig, s, view, hrun, hlog, hsize, hlast, ?_⟩
  intro block h1 h2
  refine ⟨?_, ⟨first, ?_, hT, hR⟩, ?_, ?_⟩
  · rw [Span.read_length, hsize]
  · rw [Span.read_head? block view h1, hfirst]
    rfl
  · exact Span.read_countP block view (by omega)
  · exact Span.read_getLast? block view (by omega)

/-! ## The guard of `reserve()` -/

/-- C15 as the code has it.  The buffer size `n` is at least 1 (and an `unsigned int`)
and the future queue holds `m` bins.  When `m < n - 1` (and the `n - m` iterations fit
the `int` loop counter), `reserve()` returns and appends `n - m` default bins: the
future queue then holds `n` bins, the first `m` of them the previous bins in their
order.  When `m ≥ n - 1`, `reserve()` returns and changes nothing; in particular a
queue of `n - 1` bins is left one bin short. -/
theorem reserve_pads_below (s : DigitsWriteoutBuffer) (hn : 1 ≤ s.mBufferSize)
    (hsz : s.mBufferSize < U32) :
    (s.mTimedDigitsFuture.length + 1 < s.mBufferSize →
      s.mBufferSize - s.mTimedDigitsFuture.length < 2147483648 →
      s.reserve = Outcome.done
        { s with
          mTimedDigitsFuture := s.mTimedDigitsFuture
            ++ List.replicate (s.mBufferSize - s.mTimedDigitsFuture.length) {} } ∧
      (s.mTimedDigitsFuture
        ++ List.replicate (s.mBufferSize - s.mTimedDigitsFuture.length)
            ({} : DigitTimebin)).length = s.mBufferSize ∧
      (s.mTimedDigitsFuture
        ++ List.replicate (s.mBufferSize - s.mTimedDigitsFuture.length)
            ({} : DigitTimebin)).take s.mTimedDigitsFuture.length = s.mTimedDigitsFuture) ∧
    (s.mBufferSize ≤ s.mTimedDigitsFuture.length + 1 → s.reserve = Outcome.done s) := by
  refine ⟨?_, ?_⟩
  · intro hm hb
    have hguard : s.mTimedDigitsFuture.length < (s.mBufferSize + U32 - 1) % U32 := by
      unfold U32 at *; omega
    have hbound : (s.mBufferSize + U32 - s.mTimedDigitsFuture.length % U32) % U32
        = s.mBufferSize - s.mTimedDigitsFuture.length := by
      unfold U32 at *; omega
    refine ⟨?_, ?_, ?_⟩
    · unfold DigitsWriteoutBuffer.reserve
      rw [if_pos hguard]
      simp only
      rw [hbound, if_pos hb]
    · simp only [List.length_append, List.length_replicate]
      omega
    · simp
  · intro hm
    have hguard : ¬ s.mTimedDigitsFuture.length < (s.mBufferSize + U32 - 1) % U32 := by
      unfold U32 at *; omega
    unfold DigitsWriteoutBuffer.reserve
    rw [if_neg hguard]

/-- Witness of `reserve_pads_below`: a buffer of size 3 whose future queue holds one
bin is padded to three bins. -/
theorem reserve_pads_below_witness :
    (1 ≤ ({ DigitsWriteoutBuffer.create 3 ⟨1000, 0, 0⟩ with mTimedDigitsFuture := [{}] }
        : DigitsWriteoutBuffer).mBufferSize ∧
      ({ DigitsWriteoutBuffer.create 3 ⟨1000, 0, 0⟩ with mTimedDigitsFuture := [{}] }
        : DigitsWriteoutBuffer).mBufferSize < U32) ∧
    ({ DigitsWriteoutBuffer.create 3 ⟨1000, 0, 0⟩ with mTimedDigitsFuture := [{}] }
        : DigitsWriteoutBuffer).reserve
      = Outcome.done
        { DigitsWriteoutBuffer.create 3 ⟨1000, 0, 0⟩ with mTimedDigitsFuture := [{}, {}, {}] } :=
  ⟨⟨by decide, by decide⟩,
    ((reserve_pads_below
      ({ DigitsWriteoutBuffer.create 3 ⟨1000, 0, 0⟩ with mTimedDigitsFuture := [{}] }
        : DigitsWriteoutBuffer) (by decide) (by decide)).1 (by decide) (by decide)).1⟩

/-! ## Time stamps where the stamp base is exact -/

/-- A stamping pass that does not reach `2 ^ 64` gives each bin the time stamp of the
bin before it plus 100. -/
theorem stampAll_exact (l : List DigitTimebin) : ∀ base, base + 100 * l.length ≤ U64 →
    List.Chain' (fun a b : DigitTimebin => b.mTimestamp = a.mTimestamp + 100)
      (stampAll base l) := by
  induction l with
  | nil => intro base _; simp [stampAll]
  | cons a rest ih =>
    intro base hb
    simp only [List.length_cons] at hb
    cases rest with
    | nil => simp [stampAll]
    | cons c rest2 =>
      have hlt : (base + 100) % U64 = base + 100 := by
        apply Nat.mod_eq_of_lt
        simp only [List.length_cons] at hb
        unfold U64 at *
        omega
      have ih2 := ih ((base + 100) % U64) (by rw [hlt]; omega)
      simp only [stampAll] at ih2 ⊢
      refine List.chain'_cons.mpr ⟨?_, ih2⟩
      simp only [hlt]

/-- A `forwardMarker` call in which a stamping pass runs leaves the future queue as one
pass from `stampBase eventTime` writes it. -/
theorem forwardMarker_stamped (s s3 : DigitsWriteoutBuffer) (record : InteractionTimeRecord)
    (h : s.forwardMarker record = Outcome.done s3)
    (hstamp : s.triggerFires record.timeNS = true ∨ s.preTriggerFires record.timeNS = true) :
    ∃ bins : List DigitTimebin, bins.length = s.mTimedDigitsFuture.length ∧
      s3.mTimedDigitsFuture = stampAll (stampBase record.timeNS) bins := by
  obtain ⟨s1, s2, h1, h2, h3⟩ := forwardMarker_stages s s3 record h
  obtain ⟨_, a2, a3, a4, a5, _, a7, _⟩ := forwardLoop_frame _ s s1 h1
  obtain ⟨_, _, _, _, b5, _, _⟩ := triggerStep_frame s1 s2 record h2
  have hfires := triggerFires_congr s s1 record.timeNS a2 a3 a5
  have hpre := preTriggerFires_congr s s1 record.timeNS a2 a3 a4 a5
  subst h3
  simp only
  rw [preTriggerStep_future]
  by_cases hp : s2.preTriggerFires record.timeNS = true
  · rw [if_pos hp]
    exact ⟨_, by rw [b5, a7], rfl⟩
  · rw [if_neg hp]
    cases hc : s1.triggerFires record.timeNS with
    | true =>
      have hne1 : s1.mTimedDigitsFuture ≠ [] := by
        intro h0
        unfold DigitsWriteoutBuffer.triggerStep at h2
        rw [hc, h0] at h2
        simp at h2
      rw [triggerStep_fires s1 record hne1 hc] at h2
      simp only [Outcome.done.injEq] at h2
      rw [← h2]
      exact ⟨_, by simp [onBack_length, onFront_length, a7], rfl⟩
    | false =>
      rw [triggerStep_skip s1 record hc] at h2
      simp only [Outcome.done.injEq] at h2
      subst h2
      rw [hfires] at hc
      rw [hc] at hstamp
      simp only [Bool.false_eq_true, false_or] at hstamp
      rw [hpre] at hp
      exact absurd hstamp hp

/-- Where the `int` arithmetic of the stamp base is exact (event times below `2 ^ 31`),
the stamped future bins step by exactly 100. -/
theorem timestamp_step_exact (s s3 : DigitsWriteoutBuffer) (record : InteractionTimeRecord)
    (hrange : record.timeNS < 2147483648) (hlen : s.mTimedDigitsFuture.length < U32)
    (h : s.forwardMarker record = Outcome.done s3)
    (hstamp : s.triggerFires record.timeNS = true ∨ s.preTriggerFires record.timeNS = true) :
    List.Chain' (fun a b : DigitTimebin => b.mTimestamp = a.mTimestamp + 100)
      s3.mTimedDigitsFuture := by
  obtain ⟨bins, hb, hfut⟩ := forwardMarker_stamped s s3 record h hstamp
  rw [hfut, stampBase_small _ hrange]
  apply stampAll_exact
  rw [hb]
  unfold U64 U32 at *
  omega

end EMCAL
